import Mathlib

/-!
# AliGFW: generic-framework correlators

A shallow embedding of `PWGCF/FLOW/GF/AliGFW.cxx` and a verification of its
specification.

Conventions of the embedding.

* `TComplex` arithmetic is idealised as exact arithmetic in a commutative ring `K`
  (instantiate `K := ℂ` for the intended reading, `K := ℤ` to evaluate).
* `Int_t` and `Ssiz_t` are unbounded integers.  Harmonics, powers and positions are
  added, subtracted and compared only, and the embedding agrees with the program as
  long as they stay within the 32-bit range; a number read from text by `TStr.atoi` is
  the program's value only within that range, which the statement on parsed numbers
  assumes.
* `std::vector::at` throws `std::out_of_range`; this is `Except.error GFWError.outOfRange`.
* `RecursiveCorr` mutates the two vectors it receives by reference, so the embedding
  passes them through and returns them next to the value.  Its recursion is bounded
  by a fuel argument; `GFWError.outOfFuel` is never confused with a C++ exception.
* `Double_t` values (eta, phi, weights) are idealised as rational numbers.
* The class `AliGFWCumulant` and the two headers are not among the sources.  The
  operations of the class are parameters (`AliGFWCumulant`, `CumulantOps`); what the
  headers supply, the default pT bin in the declaration of `Vec` and the overload
  `AddRegion(Region)`, is stated in `AliGFWCumulant.Vec2` and `AddRegionStruct`.
-/

namespace AliGFW

/-! ## Errors and vector access -/

/-- The two ways a run of the embedding can stop without a value. -/
inductive GFWError where
  | outOfRange
  | outOfFuel
  deriving DecidableEq, Repr

/-- Checked access `v.at(i)` with a non-negative index. -/
def atN {α : Type} (v : List α) (i : Nat) : Except GFWError α :=
  match v[i]? with
  | some x => .ok x
  | none => .error .outOfRange

/-- Checked access `v.at(i)` with an `Int_t` index: a negative index converts to a
huge `size_t` and throws as well. -/
def atI {α : Type} (v : List α) (i : Int) : Except GFWError α :=
  if i < 0 then .error .outOfRange else atN v i.toNat

/-- The update `v.at(i) += d`. -/
def addAt (v : List Int) (i : Nat) (d : Int) : Except GFWError (List Int) :=
  match v[i]? with
  | some x => .ok (v.set i (x + d))
  | none => .error .outOfRange

/-- The update `v.at(i) -= d`. -/
def subAt (v : List Int) (i : Nat) (d : Int) : Except GFWError (List Int) :=
  match v[i]? with
  | some x => .ok (v.set i (x - d))
  | none => .error .outOfRange

/-- A ROOT `TString`, as the list of its characters. -/
abbrev TString := List Char

/-! ## The cumulant store (external collaborator) -/

/-- The part of `AliGFWCumulant` that `AliGFW.cxx` reads: the accumulated vector
`Vec(n,p,ptbin)`, the bin-filled query and the entry count.  The class itself is not
part of `AliGFW.cxx`; its three readers are taken as arbitrary functions. -/
structure AliGFWCumulant (K : Type) where
  Vec : Int → Int → Int → K
  IsPtBinFilled : Int → Bool
  GetN : Int

/-- The call `q->Vec(n,p)` without a pT bin: the declaration
`TComplex Vec(Int_t, Int_t, Int_t ptbin=0)` supplies bin `0`. -/
def AliGFWCumulant.Vec2 {K : Type} (q : AliGFWCumulant K) (n p : Int) : K :=
  q.Vec n p 0

section Correlator

variable {K : Type} [CommRing K]

/-! ## `TwoRec` and `RecursiveCorr` -/

/-- The function `AliGFW::TwoRec`: `r3` may be the null pointer. -/
def TwoRec (n1 n2 p1 p2 ptbin : Int) (r1 r2 : AliGFWCumulant K)
    (r3 : Option (AliGFWCumulant K)) : K :=
  let part1 := r1.Vec n1 p1 ptbin
  let part2 := r2.Vec n2 p2 ptbin
  let part3 := match r3 with
    | some r => r.Vec (n1 + n2) (p1 + p2) ptbin
    | none => 0
  part1 * part2 - part3

/-- The test `hars.at(i) == hars.at(i-1) && pows.at(i) == pows.at(i-1)`, evaluated
left to right with the short circuit of `&&`. -/
def isPermutation (hars pows : List Int) (i : Nat) : Except GFWError Bool := do
  let a ← atN hars i
  let b ← atN hars (i - 1)
  if a = b then
    let c ← atN pows i
    let d ← atN pows (i - 1)
    pure (decide (c = d))
  else
    pure false

/-- The `for(Int_t i=harSize-1;i>=0;i--)` loop of `RecursiveCorr`.  The first
argument is `i+1` (so `0` means the loop has ended); `rec` is the recursive call
`RecursiveCorr(qpoi, qref, qol, ptbin, hars, pows)`. -/
def corrLoop (rec : List Int → List Int → Except GFWError (K × List Int × List Int))
    (harlast powlast : Int) :
    Nat → K → Int → List Int → List Int → Except GFWError (K × List Int × List Int)
  | 0, formula, _, hars, pows => .ok (formula, hars, pows)
  | i + 1, formula, lDegeneracy, hars, pows => do
    let skip ← (if 2 < i then isPermutation hars pows i else pure false)
    if skip then
      corrLoop rec harlast powlast i formula (lDegeneracy + 1) hars pows
    else
      let hars1 ← addAt hars i harlast
      let pows1 ← addAt pows i powlast
      let (subtractVal, hars2, pows2) ← rec hars1 pows1
      let subtractVal' := if 1 < lDegeneracy then subtractVal * (lDegeneracy : K) else subtractVal
      let lDegeneracy' := if 1 < lDegeneracy then 1 else lDegeneracy
      let hars3 ← subAt hars2 i harlast
      let pows3 ← subAt pows2 i powlast
      corrLoop rec harlast powlast i (formula - subtractVal') lDegeneracy' hars3 pows3

/-- The function `AliGFW::RecursiveCorr(qpoi, qref, qol, ptbin, hars, pows)`.  The
result carries the two vectors as they are when the call returns. -/
def RecursiveCorr : Nat → AliGFWCumulant K → AliGFWCumulant K → Option (AliGFWCumulant K) →
    Int → List Int → List Int → Except GFWError (K × List Int × List Int)
  | 0, _, _, _, _, _, _ => .error .outOfFuel
  | fuel + 1, qpoi, qref, qol, ptbin, hars, pows => do
    let p0 ← atN pows 0
    let qpoi := if p0 ≠ 1 then (match qol with | some o => o | none => qpoi) else qpoi
    if hars.length < 2 then
      let h0 ← atN hars 0
      let p0 ← atN pows 0
      pure (qpoi.Vec h0 p0 ptbin, hars, pows)
    else if hars.length < 3 then
      let h0 ← atN hars 0
      let h1 ← atN hars 1
      let p0 ← atN pows 0
      let p1 ← atN pows 1
      pure (TwoRec h0 h1 p0 p1 ptbin qpoi qref qol, hars, pows)
    else
      let harlast ← atN hars (hars.length - 1)
      let powlast ← atN pows (pows.length - 1)
      let hars := hars.dropLast
      let pows := pows.dropLast
      let (r, hars, pows) ← RecursiveCorr fuel qpoi qref qol ptbin hars pows
      let formula := r * qref.Vec2 harlast powlast
      let harSize := hars.length
      let (formula, hars, pows) ←
        corrLoop (RecursiveCorr fuel qpoi qref qol ptbin) harlast powlast
          harSize formula 1 hars pows
      pure (formula, hars ++ [harlast], pows ++ [powlast])

/-- The overload `AliGFW::RecursiveCorr(qpoi, qref, qol, ptbin, hars)`: unit powers.
A call on `n` harmonics nests at most `n` deep, which the fuel allows for. -/
def RecursiveCorrUnit (qpoi qref : AliGFWCumulant K) (qol : Option (AliGFWCumulant K))
    (ptbin : Int) (hars : List Int) : Except GFWError (K × List Int) := do
  let pows := List.replicate hars.length (1 : Int)
  let (r, hars, _) ← RecursiveCorr (hars.length + 1) qpoi qref qol ptbin hars pows
  pure (r, hars)

end Correlator

/-! ## ROOT `TString` operations used by `AliGFW.cxx`

`TString` belongs to the ROOT library, not to this repository.  The operations below
follow ROOT's `TString.cxx`; positions are `Ssiz_t` values and `kNPOS = -1`. -/

namespace TStr

/-- The constant `kNPOS`. -/
def kNPOS : Int := -1

/-- Whether `pat` is an initial segment of `s`. -/
def startsWith : List Char → List Char → Bool
  | [], _ => true
  | _ :: _, [] => false
  | p :: ps, c :: cs => p == c && startsWith ps cs

/-- First position at or after `k` (the position of the head of the list) where `pat`
occurs, or `kNPOS`. -/
def indexFrom (pat : List Char) : List Char → Nat → Int
  | [], _ => kNPOS
  | c :: cs, k => if startsWith pat (c :: cs) then (k : Int) else indexFrom pat cs (k + 1)

/-- The method `TString::Index(const char *pat)`: position of the first occurrence of
the non-empty `pat`, or `kNPOS`. -/
def Index (s pat : TString) : Int := indexFrom pat s 0

/-- The method `TString::Contains(const char *pat)`, which is `Index(pat) != kNPOS`. -/
def Contains (s pat : TString) : Bool := Index s pat != kNPOS

/-- The method `TString::EqualTo`, an exact comparison. -/
def EqualTo (s t : TString) : Bool := s == t

/-- Worker of `ReplaceAll`: the counter is the number of characters of a match still to
be dropped. -/
def replaceAllAux (s1 s2 : List Char) : Nat → List Char → List Char
  | _, [] => []
  | k + 1, _ :: cs => replaceAllAux s1 s2 k cs
  | 0, c :: cs =>
    if startsWith s1 (c :: cs) then s2 ++ replaceAllAux s1 s2 (s1.length - 1) cs
    else c :: replaceAllAux s1 s2 0 cs

/-- The method `TString::ReplaceAll(s1, s2)`: the occurrences of `s1` are replaced from
left to right, the search resuming after each inserted `s2`. -/
def ReplaceAll (s s1 s2 : TString) : TString :=
  if s1.isEmpty then s else replaceAllAux s1 s2 0 s

/-- The method `TString::Remove(pos, n)`, which is `Replace(pos, n, 0, 0)`: a position
outside the string is reported and the string left alone, and `n` is cut down to the
characters that remain.  A negative `n` (undefined in the library) removes nothing. -/
def Remove (s : TString) (pos n : Int) : TString :=
  if pos < 0 ∨ pos > (s.length : Int) then s
  else s.take pos.toNat ++ s.drop (pos.toNat + (min n ((s.length : Int) - pos)).toNat)

/-- The method `TString::Remove(pos)`: everything from `pos` on is removed. -/
def RemoveFrom (s : TString) (pos : Int) : TString :=
  if pos < 0 ∨ pos > (s.length : Int) then s else s.take pos.toNat

/-- The C predicate `isspace` in the "C" locale. -/
def isspace (c : Char) : Bool :=
  c == ' ' || c == '\t' || c == '\n' || c == '\x0b' || c == '\x0c' || c == '\r'

/-- Value of a run of decimal digits, read after the digits `acc`; reading stops at
the first character that is not a digit. -/
def digitsValue : Nat → List Char → Nat
  | acc, [] => acc
  | acc, c :: cs => if c.isDigit then digitsValue (acc * 10 + (c.toNat - '0'.toNat)) cs else acc

/-- The C function `atoi`: leading white space, an optional sign, decimal digits.
The result here is the exact integer the text denotes.  It is the value of the C
function, an `int` that the callers store in an `Int_t`, exactly when that integer lies
in the range `-2^31 .. 2^31 - 1`; outside the range the C function is undefined, and a
statement about a number read from arbitrary text carries the range as a hypothesis. -/
def atoi (s : List Char) : Int :=
  match s.dropWhile isspace with
  | '-' :: cs => -(digitsValue 0 cs : Int)
  | '+' :: cs => (digitsValue 0 cs : Int)
  | cs => (digitsValue 0 cs : Int)

/-- The method `TString::Atoi`: blanks are removed from the string, then `atoi`. -/
def Atoi (s : TString) : Int := atoi (s.filter (fun c => c != ' '))

/-- The method `TString::Tokenize(tok, from, delim)` for a one-character `delim`, which
ROOT turns into the regular expression `[delim]+`.  Returns `(found, tok, from)`.

* With an empty string or `from` outside `0..len-1` nothing is found and `from` is kept.
* `pos` is the first position at or after `from` holding `delim` and `ext` the length of
  the run of `delim` there.  Without one (`pos = kNPOS`) the token is the rest of the
  string and `from` becomes `kNPOS`.
* Otherwise the token is the text between `from` and `pos`, empty when `pos = from`,
  and `from` becomes `pos + ext`, cut down to `len`.  The call reports a token in this
  case even when the token is empty. -/
def Tokenize (s : TString) (frm : Int) (delim : Char) : Bool × TString × Int :=
  let len : Int := s.length
  if len ≤ 0 ∨ frm > len - 1 ∨ frm < 0 then (false, [], frm)
  else
    let rest := s.drop frm.toNat
    let before := rest.takeWhile (fun c => c != delim)
    if before.length = rest.length then
      (!rest.isEmpty, rest, kNPOS)
    else
      let pos : Int := frm + before.length
      let ext : Int := ((rest.drop before.length).takeWhile (fun c => c == delim)).length
      let tok := if pos > frm then before else []
      (true, tok, if pos + ext < len then pos + ext else len)

/-- The loop `while(s.Index(s1)>-1) s.ReplaceAll(s1,s2);`.  Every pass that finds `s1`
is counted against the fuel; `none` means the fuel ran out. -/
def replaceWhile (s1 s2 : TString) : Nat → TString → Option TString
  | 0, s => if Index s s1 > -1 then none else some s
  | n + 1, s => if Index s s1 > -1 then replaceWhile s1 s2 n (ReplaceAll s s1 s2) else some s

end TStr

section Orchestrator

variable {K : Type} [CommRing K]

/-! ## Correlator requests and `Calculate` -/

/-- The struct `AliGFW::CorrConfig`: four parallel vectors, one entry per subevent
clause, a label and the pT-differential flag. -/
structure CorrConfig where
  Regs : List (List Int)
  Hars : List (List Int)
  Overlap : List Int
  ptInd : List Int
  pTDif : Bool
  Head : TString
  deriving DecidableEq, Repr

/-- One pass through the body of the loop of
`AliGFW::Calculate(CorrConfig, Int_t, Bool_t, Bool_t)` at index `i`: `none` when the
body runs `return TComplex(0,0)`, otherwise the value by which `retval` is multiplied.
The function works on its own copy of `corconf`; entry `i` of `Hars`, which the body
overwrites and passes by reference, is not read by any later pass. -/
def CalculateClause (fCumulants : List (AliGFWCumulant K)) (corconf : CorrConfig)
    (ptbin : Int) (SetHarmsToZero DisableOverlap : Bool) (i : Nat) :
    Except GFWError (Option K) := do
  let regs ← atN corconf.Regs i
  if regs.length = 0 then pure none
  else
    let ptInd0 ← atN corconf.ptInd i
    let ptInd := if ptInd0 < 0 then ptbin else ptInd0
    let poi ← atN regs 0
    let ref ← (if regs.length > 1 then atN regs 1 else atN regs 0)
    let ovl ← atN corconf.Overlap i
    let qref ← atI fCumulants ref
    let qpoi ← atI fCumulants poi
    if !qref.IsPtBinFilled ptInd then pure none
    else if !qpoi.IsPtBinFilled ptInd then pure none
    else
      let hars ← atN corconf.Hars i
      let sz1 : Int := if poi ≠ ref then (hars.length : Int) - 1 else (hars.length : Int)
      if qref.GetN < sz1 then pure none
      else
        let qovl ← (if ovl > -1 then
            (if DisableOverlap then pure none else (atI fCumulants ovl).map some)
          else if ref = poi then pure (some qref) else pure none)
        let hars := if SetHarmsToZero then List.replicate hars.length (0 : Int) else hars
        let (r, _) ← RecursiveCorrUnit qpoi qref qovl ptInd hars
        pure (some r)

/-- The loop `for(Int_t i=0;i<(Int_t)corconf.Regs.size();i++)`: the first argument
counts the passes that remain, the second is `i`, the third `retval`. -/
def CalculateLoop (fCumulants : List (AliGFWCumulant K)) (corconf : CorrConfig)
    (ptbin : Int) (SetHarmsToZero DisableOverlap : Bool) : Nat → Nat → K → Except GFWError K
  | 0, _, retval => .ok retval
  | n + 1, i, retval => do
    match ← CalculateClause fCumulants corconf ptbin SetHarmsToZero DisableOverlap i with
    | none => pure 0
    | some r =>
      CalculateLoop fCumulants corconf ptbin SetHarmsToZero DisableOverlap n (i + 1) (retval * r)

/-- The function `AliGFW::Calculate(CorrConfig corconf, Int_t ptbin, Bool_t
SetHarmsToZero, Bool_t DisableOverlap)` (`Evaluate` in the specification), run on the
stores `fCumulants`. -/
def Calculate (fCumulants : List (AliGFWCumulant K)) (corconf : CorrConfig)
    (ptbin : Int) (SetHarmsToZero DisableOverlap : Bool) : Except GFWError K :=
  if corconf.Regs.length = 0 then .ok 0
  else CalculateLoop fCumulants corconf ptbin SetHarmsToZero DisableOverlap
    corconf.Regs.length 0 1

end Orchestrator

/-! ## Regions and the descriptor parser -/

/-- The struct `AliGFW::Region`.  The two `Double_t` bounds are idealised as rational
numbers. -/
structure Region where
  Nhar : Int
  Npar : Int
  NparVec : List Int
  EtaMin : Rat
  EtaMax : Rat
  NpT : Int
  rName : TString
  BitMask : Int
  deriving DecidableEq

/-- The loop of `FindRegionByName` from index `i` on. -/
def findRegionLoop (refName : TString) : List Region → Nat → Int
  | [], _ => -1
  | r :: rs, i => if TStr.EqualTo r.rName refName then (i : Int) else findRegionLoop refName rs (i + 1)

/-- The function `AliGFW::FindRegionByName`. -/
def FindRegionByName (fRegions : List Region) (refName : TString) : Int :=
  findRegionLoop refName fRegions 0

/-- A default-constructed `CorrConfig`: four empty vectors.  The label and the flag
are declared in the header; they are taken to be empty and false here, and the parser
overwrites both before it returns from the end of its loop. -/
def emptyCorrConfig : CorrConfig where
  Regs := []
  Hars := []
  Overlap := []
  ptInd := []
  pTDif := false
  Head := []

/-- The statement `v.at(v.size()-1).push_back(x)` on a vector of vectors; the parser
only runs it after a `push_back`, so the last entry exists. -/
def pushToLast (v : List (List Int)) (x : Int) : List (List Int) :=
  match v.reverse with
  | [] => []
  | l :: ls => (ls.reverse) ++ [l ++ [x]]

/-- The statement `v.at(v.size()-1) = x`. -/
def setLast (v : List Int) (x : Int) : List Int :=
  match v.reverse with
  | [] => []
  | _ :: ls => (ls.reverse) ++ [x]

/-- The loop `while(ts.Tokenize(ts2,sz1," "))` of `GetCorrelatorConfig` that fetches
the regions of the current clause.  The state is `sz1` and the request under
construction; `none` means the fuel ran out. -/
def regionLoop (fRegions : List Region) (ts : TString) (szend : Int) :
    Nat → Int → CorrConfig → Option CorrConfig
  | 0, _, _ => none
  | n + 1, sz1, rc =>
    match TStr.Tokenize ts sz1 ' ' with
    | (false, _, _) => some rc
    | (true, ts2, sz1) =>
      if sz1 ≥ szend then some rc
      else
        let isOverlap := TStr.Contains ts2 "|".toList
        let ts2 := if isOverlap then TStr.Remove ts2 0 1 else ts2
        let ind := FindRegionByName fRegions ts2
        if TStr.EqualTo ts2 " ".toList || TStr.EqualTo ts2 "".toList then
          regionLoop fRegions ts szend n sz1 rc
        else if ind < 0 then some rc
        else if !isOverlap then
          regionLoop fRegions ts szend n sz1 { rc with Regs := pushToLast rc.Regs ind }
        else
          regionLoop fRegions ts szend n sz1 { rc with Overlap := setLast rc.Overlap ind }

/-- The loop `while(harstr.Tokenize(ts,dummys," "))` that fetches the harmonics of the
current clause. -/
def harmonicLoop (harstr : TString) : Nat → Int → CorrConfig → Option CorrConfig
  | 0, _, _ => none
  | n + 1, dummys, rc =>
    match TStr.Tokenize harstr dummys ' ' with
    | (false, _, _) => some rc
    | (true, ts, dummys) =>
      harmonicLoop harstr n dummys { rc with Hars := pushToLast rc.Hars (TStr.Atoi ts) }

/-- The block of `GetCorrelatorConfig` that reads a pT bin written in parentheses.
From `(ts, config, szend)` it gives `(ptbin, ts, config, szend)`; `none` stands for the
`return ReturnConfig` taken when the closing parenthesis is missing. -/
def ptBinBlock (ts config : TString) (szend : Int) : Option (Int × TString × TString × Int) :=
  if TStr.Contains ts "(".toList then
    if !TStr.Contains ts ")".toList then none
    else
      let sz2 := TStr.Index ts "(".toList
      let sz1 := sz2 + 1
      match TStr.Tokenize ts sz1 ')' with
      | (_, ts2, sz1) =>
        let ptbin := TStr.Atoi ts2
        let ts := TStr.Remove ts sz2 (sz1 - sz2 + 1)
        let szend := szend - (sz1 - sz2)
        let sz2 := TStr.Index config "(".toList
        let sz1 := TStr.Index config ")".toList
        let config := TStr.Remove config sz2 (sz1 - sz2 + 1)
        some (ptbin, ts, config, szend)
  else some (-1, ts, config, szend)

/-- The loop `while(config.Tokenize(ts,szend,"{"))` of `GetCorrelatorConfig`, one pass
per clause.  The result is the request together with a flag telling whether the
function returned from inside the loop; `none` means the fuel ran out. -/
def clauseLoop (fRegions : List Region) :
    Nat → TString → Int → CorrConfig → Option (Bool × CorrConfig)
  | 0, _, _, _ => none
  | n + 1, config, szend, rc =>
    match TStr.Tokenize config szend '{' with
    | (false, _, _) => some (false, rc)
    | (true, ts, szend) =>
      let rc := { rc with Regs := rc.Regs ++ [[]], Hars := rc.Hars ++ [[]],
                          Overlap := rc.Overlap ++ [-1] }
      match ptBinBlock ts config szend with
      | none => some (true, rc)
      | some (ptbin, ts, config, szend) =>
        let rc := { rc with ptInd := rc.ptInd ++ [ptbin] }
        match regionLoop fRegions ts szend (ts.length + 1) 0 rc with
        | none => none
        | some rc =>
          match TStr.Tokenize config szend '}' with
          | (_, harstr, szend) =>
            match harmonicLoop harstr (harstr.length + 1) 0 rc with
            | none => none
            | some rc => clauseLoop fRegions n config szend rc

/-- The function `AliGFW::GetCorrelatorConfig(config, head, ptdif)`.  `none` means
that one of its loops exhausted the fuel, which is the length of the string it walks
through plus one. -/
def GetCorrelatorConfig (fRegions : List Region) (config head : TString) (ptdif : Bool) :
    Option CorrConfig :=
  let config := TStr.ReplaceAll config ",".toList " ".toList
  let config := TStr.ReplaceAll config ";".toList " ".toList
  let config := TStr.ReplaceAll config "| ".toList "|".toList
  match TStr.replaceWhile " (".toList "(".toList config.length config with
  | none => none
  | some config =>
    match TStr.replaceWhile "  ".toList " ".toList config.length config with
    | none => none
    | some config =>
      match TStr.Tokenize config 0 '{' with
      | (false, _, _) => some emptyCorrConfig
      | (true, _, _) =>
        match clauseLoop fRegions (config.length + 1) config 0 emptyCorrConfig with
        | none => none
        | some (true, rc) => some rc
        | some (false, rc) => some { rc with Head := head, pTDif := ptdif }

/-- The loop `while(instr.Tokenize(tmp,sz1," ")) indc++;` of `SetHarmonicsToZero`. -/
def countLoop (instr : TString) : Nat → Int → Nat → Option Nat
  | 0, _, _ => none
  | n + 1, sz1, indc =>
    match TStr.Tokenize instr sz1 ' ' with
    | (false, _, _) => some indc
    | (true, _, sz1) => countLoop instr n sz1 (indc + 1)

/-- The statements `for(Int_t i=0;i<indc;i++) instr.Append("0 ");`. -/
def appendZeros (instr : TString) : Nat → TString
  | 0 => instr
  | n + 1 => appendZeros (instr ++ "0 ".toList) n

/-- The function `AliGFW::SetHarmonicsToZero(TString &instr)`: the returned flag and
the string as the call leaves it. -/
def SetHarmonicsToZero (instr : TString) : Option (Bool × TString) :=
  match TStr.Tokenize instr 0 '{' with
  | (false, _, _) => some (false, instr)
  | (true, _, sz1) =>
    let sz2 := sz1
    match countLoop instr (instr.length + 1) sz1 0 with
    | none => none
    | some indc =>
      if indc = 0 then some (false, instr)
      else some (true, appendZeros (TStr.RemoveFrom instr sz2) indc)

section CorrelatorValue

variable {K : Type} [CommRing K]

/-! ## A value-only reading of `RecursiveCorr`

`corrVal` is the same recursion with the vectors passed by value.  `RecursiveCorr_eq`
shows that the in-place version computes it and hands both vectors back unchanged. -/

/-- Entry `i` of `v`, with a default outside the vector. -/
def nth (v : List Int) (i : Nat) (d : Int) : Int := v[i]?.getD d

/-- The list `v` with `d` added to entry `i`. -/
def mergeAt : List Int → Nat → Int → List Int
  | [], _, _ => []
  | x :: xs, 0, d => (x + d) :: xs
  | x :: xs, i + 1, d => x :: mergeAt xs i d

/-- Value of the loop of `RecursiveCorr`, the vectors being passed by value. -/
def loopVal (recV : List Int → List Int → K) (harlast powlast : Int) :
    Nat → K → Int → List Int → List Int → K
  | 0, formula, _, _, _ => formula
  | i + 1, formula, d, hars, pows =>
    if 2 < i ∧ nth hars i 0 = nth hars (i - 1) 0 ∧ nth pows i 0 = nth pows (i - 1) 0 then
      loopVal recV harlast powlast i formula (d + 1) hars pows
    else
      loopVal recV harlast powlast i
        (formula - (if 1 < d then recV (mergeAt hars i harlast) (mergeAt pows i powlast) * (d : K)
          else recV (mergeAt hars i harlast) (mergeAt pows i powlast)))
        (if 1 < d then 1 else d) hars pows

/-- Value of `RecursiveCorr`, the vectors being passed by value. -/
def corrVal : Nat → AliGFWCumulant K → AliGFWCumulant K → Option (AliGFWCumulant K) →
    Int → List Int → List Int → K
  | 0, _, _, _, _, _, _ => 0
  | fuel + 1, qpoi, qref, qol, ptbin, hars, pows =>
    let qpoi' := if nth pows 0 0 ≠ 1 then (match qol with | some o => o | none => qpoi) else qpoi
    if hars.length < 2 then qpoi'.Vec (nth hars 0 0) (nth pows 0 0) ptbin
    else if hars.length < 3 then
      TwoRec (nth hars 0 0) (nth hars 1 0) (nth pows 0 0) (nth pows 1 0) ptbin qpoi' qref qol
    else
      loopVal (corrVal fuel qpoi' qref qol ptbin)
        (nth hars (hars.length - 1) 0) (nth pows (pows.length - 1) 0)
        (hars.length - 1)
        (corrVal fuel qpoi' qref qol ptbin hars.dropLast pows.dropLast *
          qref.Vec2 (nth hars (hars.length - 1) 0) (nth pows (pows.length - 1) 0))
        1 hars.dropLast pows.dropLast

end CorrelatorValue

section BruteForce

variable {K : Type} [CommRing K]

/-! ## The brute-force sum over distinct particles -/

/-- The sum, over all maps `f` from the positions of `hars` to the `M` particles that
send different positions to different particles, of the product of the factors
`c (f j) (h_j) 1`: the direct enumeration of an `n`-particle correlator. -/
def bruteForce {M : Nat} (c : Fin M → Int → Int → K) (hars : List Int) : K :=
  ∑ f in (Finset.univ : Finset (Fin hars.length → Fin M)).filter Function.Injective,
    ∏ j : Fin hars.length, c (f j) (hars.get j) 1

/-- The same enumeration, one position at a time, for a list of (harmonic, power)
pairs: choose a particle of `s` for the first pair and continue without it. -/
def distinctSum {ι : Type} [DecidableEq ι] (c : ι → Int → Int → K) :
    Finset ι → List (Int × Int) → K
  | _, [] => 1
  | s, x :: L => ∑ k in s, c k x.1 x.2 * distinctSum c (s.erase k) L

/-- The list of pairs `L` with the pair `x` added to entry `i`. -/
def mergeP : List (Int × Int) → Nat → Int × Int → List (Int × Int)
  | [], _, _ => []
  | y :: L, 0, x => (y.1 + x.1, y.2 + x.2) :: L
  | y :: L, i + 1, x => y :: mergeP L i x

end BruteForce

section WitnessData

/-! ## Synthetic particle sets used to evaluate the correlator -/

/-- A multiplicative factor with values in `ℤ`: particle `0` contributes the sign
`(-1)^(n+p)`, every other particle contributes `1`. -/
def signC {M : Nat} (k : Fin M) (n p : Int) : Int :=
  if (n + p) % 2 = 0 then 1 else (if k.val = 0 then -1 else 1)

/-- The store filled with the `M` particles of `signC`: `Vec(n,p)` is their sum in
every pT bin. -/
def signStore (M : Nat) : AliGFWCumulant Int where
  Vec := fun n p _ => if (n + p) % 2 = 0 then (M : Int) else (M : Int) - 2
  IsPtBinFilled := fun _ => true
  GetN := M

end WitnessData

section OrchestratorSpec

variable {K : Type} [CommRing K]

/-! ## Vocabulary for the claims on `Calculate` -/

/-- The request made of clause `i` of `corconf` alone. -/
def singleClause (corconf : CorrConfig) (i : Nat) : CorrConfig where
  Regs := (corconf.Regs.drop i).take 1
  Hars := (corconf.Hars.drop i).take 1
  Overlap := (corconf.Overlap.drop i).take 1
  ptInd := (corconf.ptInd.drop i).take 1
  pTDif := corconf.pTDif
  Head := corconf.Head

/-- A request whose four vectors have one entry per clause and in which every clause
that names a region has region indices pointing at one of the `nStores` stores, an
overlap index that is negative (none) or points at a store, and a non-empty harmonic
list.  Nothing is asked of a clause with an empty region list. -/
def ValidRequest (nStores : Nat) (corconf : CorrConfig) : Prop :=
  corconf.Hars.length = corconf.Regs.length ∧
  corconf.Overlap.length = corconf.Regs.length ∧
  corconf.ptInd.length = corconf.Regs.length ∧
  ∀ i < corconf.Regs.length, corconf.Regs[i]?.getD [] ≠ [] →
    (∀ r ∈ corconf.Regs[i]?.getD [], 0 ≤ r ∧ r < (nStores : Int)) ∧
    corconf.Overlap[i]?.getD 0 < (nStores : Int) ∧
    corconf.Hars[i]?.getD [] ≠ []

instance (nStores : Nat) (corconf : CorrConfig) : Decidable (ValidRequest nStores corconf) := by
  unfold ValidRequest
  infer_instance

/-- The factor a pass of the loop contributes to the product: zero when the pass
returns zero. -/
def clauseFactor (r : Except GFWError (Option K)) : K :=
  match r with
  | .ok (some v) => v
  | _ => 0

/-- The overlap store as `Calculate` resolves it. -/
def overlapResolved (fCumulants : List (AliGFWCumulant K)) (ovl : Int) (DisableOverlap : Bool)
    (poi ref : Int) (qref : AliGFWCumulant K) : Option (AliGFWCumulant K) :=
  if 0 ≤ ovl then (if DisableOverlap then none else fCumulants[ovl.toNat]?)
  else if poi = ref then some qref else none

/-- The overlap store as the specification words it: the explicit one when its index
is given and the overlap is not disabled, otherwise the reference store when
poi = ref, otherwise none. -/
def overlapAsSpecified (fCumulants : List (AliGFWCumulant K)) (ovl : Int) (DisableOverlap : Bool)
    (poi ref : Int) (qref : AliGFWCumulant K) : Option (AliGFWCumulant K) :=
  if 0 ≤ ovl ∧ DisableOverlap = false then fCumulants[ovl.toNat]?
  else if poi = ref then some qref else none

end OrchestratorSpec

section WitnessRequests

/-! ## Concrete requests used to evaluate `Calculate` -/

/-- Two clauses over two stores: regions (0,1) with harmonics {2,-2}, and region 1
alone with harmonics {1,1,-2}. -/
def twoClauseRequest : CorrConfig where
  Regs := [[0, 1], [1]]
  Hars := [[2, -2], [1, 1, -2]]
  Overlap := [-1, -1]
  ptInd := [-1, -1]
  pTDif := false
  Head := []

/-- One clause on region 0 alone, with region 0 also given as the explicit overlap. -/
def selfOverlapRequest : CorrConfig where
  Regs := [[0]]
  Hars := [[1, 1]]
  Overlap := [0]
  ptInd := [-1]
  pTDif := false
  Head := []

/-- A request whose second clause names no region. -/
def emptyClauseRequest : CorrConfig where
  Regs := [[0, 1], []]
  Hars := [[2, -2], []]
  Overlap := [-1, -1]
  ptInd := [-1, -1]
  pTDif := false
  Head := []

/-- A store with the vectors of `signStore M` but only `n` entries counted. -/
def fewEntries (M : Nat) (n : Int) : AliGFWCumulant Int where
  Vec := (signStore M).Vec
  IsPtBinFilled := fun _ => true
  GetN := n

end WitnessRequests

section WitnessRegistry

/-! ## Concrete registries used to evaluate the parser -/

/-- A region with the given name and an otherwise fixed shape. -/
def regionNamed (name : String) : Region where
  Nhar := 3
  Npar := 3
  NparVec := []
  EtaMin := -1
  EtaMax := 1
  NpT := 1
  rName := name.toList
  BitMask := 1

/-- The registry holding regions A and B. -/
def regionsAB : List Region := [regionNamed "A", regionNamed "B"]

/-- The registry holding regions A, B and C. -/
def regionsABC : List Region := [regionNamed "A", regionNamed "B", regionNamed "C"]

/-- The region names "A X ", one blank after each. -/
def namesAX : List (TString × Nat) := [("A".toList, 1), ("X".toList, 1)]

/-- The harmonics "2 -2". -/
def harmonics22 : List (TString × Nat) := [("2".toList, 1), ("-2".toList, 0)]

end WitnessRegistry

section TokenText

/-! ## Descriptor fragments as lists of tokens -/

/-- The text of a list of tokens, each followed by a run of blanks of the given
length. -/
def tokenText : List (TString × Nat) → TString
  | [] => []
  | (t, n) :: rest => t ++ List.replicate n ' ' ++ tokenText rest

/-- Tokens as `Tokenize` separates them: every token is non-empty and has no blank,
and every token but the last is followed by at least one blank. -/
def TokensOK : List (TString × Nat) → Prop
  | [] => True
  | (t, n) :: rest => t ≠ [] ∧ ' ' ∉ t ∧ (rest ≠ [] → 1 ≤ n) ∧ TokensOK rest

/-- The text "0 " written `n` times. -/
def zeroTokens : Nat → TString
  | 0 => []
  | n + 1 => '0' :: ' ' :: zeroTokens n

/-- The three characters that structure a descriptor. -/
def isMark (c : Char) : Bool := c == '{' || c == '(' || c == ')'

/-- The regions kept by the region scan of a clause: the indices of the names up to,
and not including, the first one that is not registered. -/
def takeRegistered (fRegions : List Region) : List TString → List Int
  | [] => []
  | t :: rest =>
    if FindRegionByName fRegions t < 0 then []
    else FindRegionByName fRegions t :: takeRegistered fRegions rest

/-- The characters with a role in the descriptor grammar. -/
def isReserved (c : Char) : Bool :=
  c == ',' || c == ';' || c == '|' || c == '(' || c == '{' || c == '}'

/-- Plain tokens: well separated, by single blanks, and free of reserved characters. -/
def PlainTokens (items : List (TString × Nat)) : Prop :=
  TokensOK items ∧ (∀ it ∈ items, it.2 ≤ 1) ∧ ∀ it ∈ items, ∀ c ∈ it.1, isReserved c = false

/-- The descriptor of one clause: region names, then the harmonics in braces. -/
def plainClause (R H : List (TString × Nat)) : TString :=
  tokenText R ++ '{' :: (tokenText H ++ ['}'])

end TokenText

section Engine

variable {K : Type}

/-! ## The object state: registry, stores and result cache -/

/-- The operations of `AliGFWCumulant` by which `AliGFW.cxx` builds and changes a
store.  The class is not part of `AliGFW.cxx`; its operations are taken as arbitrary
functions.  The two `Create` operations stand for `new AliGFWCumulant()` followed by
the call; the `Double_t` arguments of `FillArray` are idealised as rational numbers. -/
structure CumulantOps (K : Type) where
  CreateComplexVectorArray : Int → Int → Int → AliGFWCumulant K
  CreateComplexVectorArrayVarPower : Int → List Int → Int → AliGFWCumulant K
  FillArray : Rat → Int → Rat → Rat → Rat → AliGFWCumulant K → AliGFWCumulant K
  ResetQs : AliGFWCumulant K → AliGFWCumulant K

/-- The data members of an `AliGFW` object. -/
structure AliGFWState (K : Type) where
  fRegions : List Region
  fCumulants : List (AliGFWCumulant K)
  fInitialized : Bool
  fCalculatedNames : List TString
  fCalculatedQs : List K

/-- The constructor `AliGFW::AliGFW()`. -/
def AliGFWState.new : AliGFWState K where
  fRegions := []
  fCumulants := []
  fInitialized := false
  fCalculatedNames := []
  fCalculatedQs := []

/-- Modelled from the spec: the overload `AddRegion(Region)` is defined in the header
`AliGFW.h`, which is not among the sources.  By the specification a region that passes
the checks is added to the catalogue of regions, so the overload appends it to
`fRegions`. -/
def AddRegionStruct (s : AliGFWState K) (inreg : Region) : AliGFWState K :=
  { s with fRegions := s.fRegions ++ [inreg] }

/-- The function `AliGFW::AddRegion(TString, Int_t lNhar, Int_t lNpar, Double_t,
Double_t, Int_t, Int_t)`: one power for all harmonics. -/
def AddRegion (s : AliGFWState K) (refName : TString) (lNhar lNpar : Int)
    (lEtaMin lEtaMax : Rat) (lNpT BitMask : Int) : AliGFWState K :=
  if lNpT < 1 then s
  else if lEtaMin ≥ lEtaMax then s
  else if TStr.EqualTo refName "".toList then s
  else
    AddRegionStruct s
      { Nhar := lNhar, Npar := lNpar, NparVec := [], EtaMin := lEtaMin, EtaMax := lEtaMax,
        NpT := lNpT, rName := refName, BitMask := BitMask }

/-- The function `AliGFW::AddRegion(TString, Int_t lNhar, Int_t *lNparVec, Double_t,
Double_t, Int_t, Int_t)`: one power per harmonic.  The array behind the pointer is
given as the function from offsets to its contents; the loop reads the offsets
`0 .. lNhar-1`. -/
def AddRegionPowers (s : AliGFWState K) (refName : TString) (lNhar : Int)
    (lNparVec : Nat → Int) (lEtaMin lEtaMax : Rat) (lNpT BitMask : Int) : AliGFWState K :=
  if lNpT < 1 then s
  else if lEtaMin ≥ lEtaMax then s
  else if TStr.EqualTo refName "".toList then s
  else
    AddRegionStruct s
      { Nhar := lNhar, Npar := 0, NparVec := (List.range lNhar.toNat).map lNparVec,
        EtaMin := lEtaMin, EtaMax := lEtaMax, NpT := lNpT, rName := refName,
        BitMask := BitMask }

/-- The loop of `CreateRegions`: one new store per region, pushed onto `fCumulants`. -/
def createLoop (ops : CumulantOps K) :
    List Region → List (AliGFWCumulant K) → List (AliGFWCumulant K)
  | [], fCumulants => fCumulants
  | r :: rs, fCumulants =>
    let lCumulant :=
      if r.NparVec.length ≠ 0 then ops.CreateComplexVectorArrayVarPower r.Nhar r.NparVec r.NpT
      else ops.CreateComplexVectorArray r.Nhar r.Npar r.NpT
    createLoop ops rs (fCumulants ++ [lCumulant])

/-- The function `AliGFW::CreateRegions`: the returned count and the new state. -/
def CreateRegions (ops : CumulantOps K) (s : AliGFWState K) : Int × AliGFWState K :=
  if s.fRegions.length < 1 then (0, s)
  else
    let nRegions : Int := s.fRegions.length
    (nRegions,
      { s with fCumulants := createLoop ops s.fRegions s.fCumulants,
               fInitialized := if nRegions ≠ 0 then true else s.fInitialized })

/-- The test of `Fill` on region `r`: the eta window strictly contains `eta` and the
bit masks share a bit. -/
def regionAccepts (r : Region) (eta : Rat) (mask : Int) : Bool :=
  decide (r.EtaMin < eta) && decide (r.EtaMax > eta) && decide (Int.land r.BitMask mask ≠ 0)

/-- The loop of `Fill`: the first argument counts the passes that remain, the second
is `i`. -/
def fillLoop (ops : CumulantOps K) (fRegions : List Region) (eta : Rat) (ptin : Int)
    (phi weight : Rat) (mask : Int) (SecondWeight : Rat) :
    Nat → Nat → List (AliGFWCumulant K) → Except GFWError (List (AliGFWCumulant K))
  | 0, _, fCumulants => .ok fCumulants
  | n + 1, i, fCumulants => do
    let r ← atN fRegions i
    if regionAccepts r eta mask then
      let q ← atN fCumulants i
      fillLoop ops fRegions eta ptin phi weight mask SecondWeight n (i + 1)
        (fCumulants.set i (ops.FillArray eta ptin phi weight SecondWeight q))
    else
      fillLoop ops fRegions eta ptin phi weight mask SecondWeight n (i + 1) fCumulants

/-- The function `AliGFW::Fill`. -/
def Fill (ops : CumulantOps K) (eta : Rat) (ptin : Int) (phi weight : Rat) (mask : Int)
    (SecondWeight : Rat) (s : AliGFWState K) : Except GFWError (AliGFWState K) :=
  let s := if !s.fInitialized then (CreateRegions ops s).2 else s
  if !s.fInitialized then .ok s
  else do
    let fCumulants ← fillLoop ops s.fRegions eta ptin phi weight mask SecondWeight
      s.fRegions.length 0 s.fCumulants
    pure { s with fCumulants := fCumulants }

/-- The function `AliGFW::Clear`. -/
def Clear (ops : CumulantOps K) (s : AliGFWState K) : AliGFWState K :=
  { s with fCumulants := s.fCumulants.map ops.ResetQs,
           fCalculatedNames := [],
           fCalculatedQs := [] }

/-- The loop of `FindCalculated` from index `i` on. -/
def findCalculatedLoop (identifier : TString) : List TString → Nat → Int
  | [], _ => -1
  | n :: ns, i =>
    if TStr.EqualTo n identifier then (i : Int) else findCalculatedLoop identifier ns (i + 1)

/-- The function `AliGFW::FindCalculated`. -/
def FindCalculated (s : AliGFWState K) (identifier : TString) : Int :=
  if s.fCalculatedNames.length = 0 then -1
  else findCalculatedLoop identifier s.fCalculatedNames 0

/-- A call of one of the two `AddRegion` functions with its arguments. -/
inductive AddCall where
  | uniform (refName : TString) (lNhar lNpar : Int) (lEtaMin lEtaMax : Rat)
      (lNpT BitMask : Int)
  | perHarmonic (refName : TString) (lNhar : Int) (lNparVec : Nat → Int)
      (lEtaMin lEtaMax : Rat) (lNpT BitMask : Int)

/-- Running one call on a state. -/
def AddCall.run (s : AliGFWState K) : AddCall → AliGFWState K
  | .uniform refName lNhar lNpar lEtaMin lEtaMax lNpT BitMask =>
    AddRegion s refName lNhar lNpar lEtaMin lEtaMax lNpT BitMask
  | .perHarmonic refName lNhar lNparVec lEtaMin lEtaMax lNpT BitMask =>
    AddRegionPowers s refName lNhar lNparVec lEtaMin lEtaMax lNpT BitMask

/-- The name a call gives. -/
def AddCall.name : AddCall → TString
  | .uniform refName _ _ _ _ _ _ => refName
  | .perHarmonic refName _ _ _ _ _ _ => refName

/-- The three checks of the specification on the arguments of a call: at least one pT
bin, an eta window with `min < max`, a non-empty name. -/
def AddCall.valid : AddCall → Bool
  | .uniform refName _ _ lEtaMin lEtaMax lNpT _ =>
    decide (1 ≤ lNpT) && decide (lEtaMin < lEtaMax) && decide (refName ≠ [])
  | .perHarmonic refName _ _ lEtaMin lEtaMax lNpT _ =>
    decide (1 ≤ lNpT) && decide (lEtaMin < lEtaMax) && decide (refName ≠ [])

/-- The region a valid call describes. -/
def AddCall.region : AddCall → Region
  | .uniform refName lNhar lNpar lEtaMin lEtaMax lNpT BitMask =>
    { Nhar := lNhar, Npar := lNpar, NparVec := [], EtaMin := lEtaMin, EtaMax := lEtaMax,
      NpT := lNpT, rName := refName, BitMask := BitMask }
  | .perHarmonic refName lNhar lNparVec lEtaMin lEtaMax lNpT BitMask =>
    { Nhar := lNhar, Npar := 0, NparVec := (List.range lNhar.toNat).map lNparVec,
      EtaMin := lEtaMin, EtaMax := lEtaMax, NpT := lNpT, rName := refName,
      BitMask := BitMask }

/-- The state reached from `s` by a sequence of `AddRegion` calls. -/
def runCalls (s : AliGFWState K) (calls : List AddCall) : AliGFWState K :=
  calls.foldl AddCall.run s

end Engine

section WitnessEngine

/-! ## A concrete object used to evaluate `Fill` -/

/-- A store without entries. -/
def emptyStore : AliGFWCumulant Int where
  Vec := fun _ _ _ => 0
  IsPtBinFilled := fun _ => false
  GetN := 0

/-- Store operations with values in `ℤ`: a new or reset store is empty, and filling
adds one to every vector entry and to the entry count. -/
def countingOps : CumulantOps Int where
  CreateComplexVectorArray := fun _ _ _ => emptyStore
  CreateComplexVectorArrayVarPower := fun _ _ _ => emptyStore
  FillArray := fun _ _ _ _ _ q =>
    { Vec := fun n p b => q.Vec n p b + 1, IsPtBinFilled := fun _ => true, GetN := q.GetN + 1 }
  ResetQs := fun _ => emptyStore

/-- An initialised object with region A on the eta window (-1, 1) and region B on the
window (0, 2), each with its store. -/
def twoWindows : AliGFWState Int :=
  (CreateRegions countingOps
    (AddRegion (AddRegion AliGFWState.new "A".toList 3 3 (-1) 1 1 1) "B".toList 3 3 0 2 1 1)).2

/-- A store whose vectors are `v` at pT bin 0 and 1 at every other bin. -/
def binStore (v : Int) : AliGFWCumulant Int where
  Vec := fun _ _ b => if b = 0 then v else 1
  IsPtBinFilled := fun _ => true
  GetN := 3

end WitnessEngine

section PlainRecursion

variable {K : Type} [CommRing K]

/-! ## The recursion without the degeneracy check -/

/-- Entry `i` of a list of (harmonic, power) pairs, with a default outside the list. -/
def nthP (L : List (Int × Int)) (i : Nat) : Int × Int := L[i]?.getD (0, 0)

/-- The statement `if((pows.at(0)!=1) && qol) qpoi=qol;` as a function of the first
power. -/
def effectivePoi (qpoi : AliGFWCumulant K) (qol : Option (AliGFWCumulant K)) (p0 : Int) :
    AliGFWCumulant K :=
  if p0 ≠ 1 then (match qol with | some o => o | none => qpoi) else qpoi

/-- The plain recursion on a list of (harmonic, power) pairs: `RecursiveCorr` without
its degeneracy check.  On three or more pairs the last pair is removed; the value on
the shortened list is multiplied by the reference vector of the removed pair, and for
every position `i` of the shortened list the removed pair is merged into entry `i`,
the recursion is run on the merged list, and that one result is subtracted. -/
def plainCorr : Nat → AliGFWCumulant K → AliGFWCumulant K → Option (AliGFWCumulant K) →
    Int → List (Int × Int) → K
  | 0, _, _, _, _, _ => 0
  | fuel + 1, qpoi, qref, qol, ptbin, L =>
    if L.length < 2 then
      (effectivePoi qpoi qol (nthP L 0).2).Vec (nthP L 0).1 (nthP L 0).2 ptbin
    else if L.length < 3 then
      TwoRec (nthP L 0).1 (nthP L 1).1 (nthP L 0).2 (nthP L 1).2 ptbin
        (effectivePoi qpoi qol (nthP L 0).2) qref qol
    else
      plainCorr fuel (effectivePoi qpoi qol (nthP L 0).2) qref qol ptbin L.dropLast *
          qref.Vec2 (nthP L (L.length - 1)).1 (nthP L (L.length - 1)).2 -
        ∑ i in Finset.range (L.length - 1),
          plainCorr fuel (effectivePoi qpoi qol (nthP L 0).2) qref qol ptbin
            (mergeP L.dropLast i (nthP L (L.length - 1)))

/-- The plain recursion with the fuel its depth needs: one unit per pair. -/
def plainRecursion (qpoi qref : AliGFWCumulant K) (qol : Option (AliGFWCumulant K))
    (ptbin : Int) (L : List (Int × Int)) : K :=
  plainCorr L.length qpoi qref qol ptbin L

end PlainRecursion

section Differential

variable {K : Type} [CommRing K]

/-! ## The brute-force sum with a point of interest -/

/-- The sum, over all maps `f` from the positions of `hars` to the particles that send
different positions to different particles, position 0 to a particle of `P` and every
other position to a particle of `R`, of the product of the factors `c (f j) (h_j) 1`. -/
def bruteForceDiff {ι : Type} [Fintype ι] [DecidableEq ι] (c : ι → Int → Int → K)
    (P R : Finset ι) (hars : List Int) : K :=
  ∑ f in (Finset.univ : Finset (Fin hars.length → ι)).filter
      (fun f => Function.Injective f ∧ ∀ j, f j ∈ (if j.val = 0 then P else R)),
    ∏ j : Fin hars.length, c (f j) (hars.get j) 1

/-- The same enumeration, one position at a time, for a list of (harmonic, power)
pairs: a particle of `P` for the first pair, then particles of `R` other than those
already chosen. -/
def distinctSumDiff {ι : Type} [DecidableEq ι] (c : ι → Int → Int → K) (P R : Finset ι) :
    List (Int × Int) → K
  | [] => 1
  | x :: L => ∑ k in P, c k x.1 x.2 * distinctSum c (R.erase k) L

/-- The store that holds, in every pT bin, the sums of the factors of the particles of
`S`. -/
def sumStore {ι : Type} (c : ι → Int → Int → K) (S : Finset ι) : AliGFWCumulant K where
  Vec := fun n p _ => ∑ k in S, c k n p
  IsPtBinFilled := fun _ => true
  GetN := S.card

end Differential

section Decimal

/-! ## Decimal notation and the region-first descriptor -/

/-- The decimal notation of an integer: the digits of its absolute value, after a
minus sign when it is negative. -/
def decimal (h : Int) : TString :=
  if h < 0 then '-' :: Nat.toDigits 10 h.natAbs else Nat.toDigits 10 h.toNat

/-- The descriptor "P R |O (k) {h_1 h_2 ... h_n}": two region names, the overlap
region after a bar, the pT bin in parentheses, and the harmonics in braces, separated
by single blanks. -/
def regionFirstDescriptor (P R O : TString) (k : Nat) (hs : List Int) : TString :=
  P ++ " ".toList ++ R ++ " |".toList ++ O ++ " (".toList ++ Nat.toDigits 10 k ++
    ") \x7b".toList ++ " ".toList.intercalate (hs.map decimal) ++ "\x7d".toList

/-- A region name as the claim on the descriptor admits it: non-empty, without a blank
and without any of the characters `, ; | ( ) { }`. -/
def PlainName (t : TString) : Prop :=
  t ≠ [] ∧ ∀ c ∈ t, c ≠ ' ' ∧ c ≠ ',' ∧ c ≠ ';' ∧ c ≠ '|' ∧ c ≠ '(' ∧ c ≠ ')' ∧ c ≠ '{' ∧
    c ≠ '}'

/-- The harmonics as tokens: each notation followed by one blank, the last by none. -/
def harmonicTokens : List Int → List (TString × Nat)
  | [] => []
  | [h] => [(decimal h, 0)]
  | h :: h' :: rest => (decimal h, 1) :: harmonicTokens (h' :: rest)

end Decimal

section CorrelatorLemmas

variable {K : Type} [CommRing K]

theorem atN_of_lt (v : List Int) (i : Nat) (d : Int) (h : i < v.length) :
    atN v i = .ok (nth v i d) := by
  simp [atN, nth, List.getElem?_eq_getElem h]

theorem length_mergeAt (v : List Int) (i : Nat) (d : Int) :
    (mergeAt v i d).length = v.length := by
  induction v generalizing i with
  | nil => rfl
  | cons x xs ih => cases i <;> simp [mergeAt, ih]

theorem set_eq_mergeAt (v : List Int) (i : Nat) (d : Int) (h : i < v.length) :
    v.set i (nth v i 0 + d) = mergeAt v i d := by
  induction v generalizing i with
  | nil => simp at h
  | cons x xs ih =>
    cases i with
    | zero => simp [mergeAt, nth]
    | succ j =>
      have hj : j < xs.length := by simpa using h
      have := ih j hj
      simp [mergeAt, nth] at this ⊢
      exact this

theorem addAt_of_lt (v : List Int) (i : Nat) (d : Int) (h : i < v.length) :
    addAt v i d = .ok (mergeAt v i d) := by
  have := set_eq_mergeAt v i d h
  simp only [addAt, List.getElem?_eq_getElem h, nth, Option.getD_some] at this ⊢
  rw [this]

theorem mergeAt_mergeAt_neg (v : List Int) (i : Nat) (d : Int) :
    mergeAt (mergeAt v i d) i (-d) = v := by
  induction v generalizing i with
  | nil => rfl
  | cons x xs ih => cases i <;> simp [mergeAt, ih]

theorem subAt_mergeAt (v : List Int) (i : Nat) (d : Int) (h : i < v.length) :
    subAt (mergeAt v i d) i d = .ok v := by
  have h' : i < (mergeAt v i d).length := by rw [length_mergeAt]; exact h
  have := set_eq_mergeAt (mergeAt v i d) i (-d) h'
  rw [mergeAt_mergeAt_neg] at this
  simp only [subAt, List.getElem?_eq_getElem h', nth, Option.getD_some, sub_eq_add_neg] at this ⊢
  rw [this]

theorem isPermutation_of_lt (hars pows : List Int) (i : Nat)
    (hh : i < hars.length) (hp : i < pows.length) :
    isPermutation hars pows i =
      .ok (decide (nth hars i 0 = nth hars (i - 1) 0 ∧ nth pows i 0 = nth pows (i - 1) 0)) := by
  have h1 : i - 1 < hars.length := by omega
  have h2 : i - 1 < pows.length := by omega
  unfold isPermutation
  rw [atN_of_lt hars i 0 hh, atN_of_lt hars (i - 1) 0 h1, atN_of_lt pows i 0 hp,
    atN_of_lt pows (i - 1) 0 h2]
  by_cases hab : nth hars i 0 = nth hars (i - 1) 0
  · simp only [hab, bind, Except.bind, pure, Except.pure, if_true, true_and]
  · simp only [hab, bind, Except.bind, pure, Except.pure, if_false, false_and, decide_False]

theorem corrLoop_eq (rec : List Int → List Int → Except GFWError (K × List Int × List Int))
    (recV : List Int → List Int → K) (m : Nat) (harlast powlast : Int)
    (hrec : ∀ h p, h.length = m → p.length = m → rec h p = .ok (recV h p, h, p)) :
    ∀ (i : Nat) (formula : K) (d : Int) (hars pows : List Int),
      i ≤ m → hars.length = m → pows.length = m →
      corrLoop rec harlast powlast i formula d hars pows =
        .ok (loopVal recV harlast powlast i formula d hars pows, hars, pows) := by
  intro i
  induction i with
  | zero => intro formula d hars pows _ _ _; rfl
  | succ i ih =>
    intro formula d hars pows hi hh hp
    have hih : i < hars.length := by omega
    have hip : i < pows.length := by omega
    unfold corrLoop loopVal
    by_cases h2 : 2 < i
    · rw [if_pos h2, isPermutation_of_lt hars pows i hih hip]
      by_cases hperm : nth hars i 0 = nth hars (i - 1) 0 ∧ nth pows i 0 = nth pows (i - 1) 0
      · rw [if_pos (And.intro h2 hperm)]
        simp only [hperm, and_self, decide_True, bind, Except.bind, if_true]
        exact ih formula (d + 1) hars pows (by omega) hh hp
      · rw [if_neg (show ¬ (2 < i ∧ _) from fun h => hperm h.2)]
        simp only [hperm, decide_False, bind, Except.bind, Bool.false_eq_true, if_false]
        rw [addAt_of_lt hars i harlast hih, addAt_of_lt pows i powlast hip]
        simp only []
        rw [hrec _ _ (by rw [length_mergeAt]; exact hh) (by rw [length_mergeAt]; exact hp)]
        simp only []
        rw [subAt_mergeAt hars i harlast hih, subAt_mergeAt pows i powlast hip]
        simp only []
        exact ih _ _ hars pows (by omega) hh hp
    · rw [if_neg h2, if_neg (show ¬ (2 < i ∧ _) from fun h => h2 h.1)]
      simp only [bind, Except.bind, pure, Except.pure, Bool.false_eq_true, if_false]
      rw [addAt_of_lt hars i harlast hih, addAt_of_lt pows i powlast hip]
      simp only []
      rw [hrec _ _ (by rw [length_mergeAt]; exact hh) (by rw [length_mergeAt]; exact hp)]
      simp only []
      rw [subAt_mergeAt hars i harlast hih, subAt_mergeAt pows i powlast hip]
      simp only []
      exact ih _ _ hars pows (by omega) hh hp

theorem dropLast_append_nth (v : List Int) (h : 0 < v.length) :
    v.dropLast ++ [nth v (v.length - 1) 0] = v := by
  have hne : v ≠ [] := by intro h0; simp [h0] at h
  have h1 : v.length - 1 < v.length := by omega
  have : nth v (v.length - 1) 0 = v.getLast hne := by
    simp [nth, List.getElem?_eq_getElem h1, List.getLast_eq_getElem]
  rw [this]
  exact List.dropLast_append_getLast hne

theorem RecursiveCorr_succ (fuel : Nat) (qpoi qref : AliGFWCumulant K)
    (qol : Option (AliGFWCumulant K)) (ptbin : Int) (hars pows : List Int) :
    RecursiveCorr (fuel + 1) qpoi qref qol ptbin hars pows =
      (atN pows 0).bind (fun p0 =>
        if hars.length < 2 then
          (atN hars 0).bind (fun h0 => (atN pows 0).bind (fun p0' =>
            .ok ((if p0 ≠ 1 then (match qol with | some o => o | none => qpoi) else qpoi).Vec h0 p0' ptbin,
              hars, pows)))
        else if hars.length < 3 then
          (atN hars 0).bind (fun h0 => (atN hars 1).bind (fun h1 =>
            (atN pows 0).bind (fun p0' => (atN pows 1).bind (fun p1 =>
              .ok (TwoRec h0 h1 p0' p1 ptbin
                (if p0 ≠ 1 then (match qol with | some o => o | none => qpoi) else qpoi) qref qol,
                hars, pows)))))
        else
          (atN hars (hars.length - 1)).bind (fun harlast =>
            (atN pows (pows.length - 1)).bind (fun powlast =>
              (RecursiveCorr fuel
                (if p0 ≠ 1 then (match qol with | some o => o | none => qpoi) else qpoi)
                qref qol ptbin hars.dropLast pows.dropLast).bind (fun r =>
                (corrLoop (RecursiveCorr fuel
                    (if p0 ≠ 1 then (match qol with | some o => o | none => qpoi) else qpoi)
                    qref qol ptbin) harlast powlast r.2.1.length
                    (r.1 * qref.Vec2 harlast powlast) 1 r.2.1 r.2.2).bind (fun r' =>
                  .ok (r'.1, r'.2.1 ++ [harlast], r'.2.2 ++ [powlast])))))) := by
  rfl

theorem corrVal_succ (fuel : Nat) (qpoi qref : AliGFWCumulant K)
    (qol : Option (AliGFWCumulant K)) (ptbin : Int) (hars pows : List Int) :
    corrVal (fuel + 1) qpoi qref qol ptbin hars pows =
      if hars.length < 2 then
        (if nth pows 0 0 ≠ 1 then (match qol with | some o => o | none => qpoi) else qpoi).Vec
          (nth hars 0 0) (nth pows 0 0) ptbin
      else if hars.length < 3 then
        TwoRec (nth hars 0 0) (nth hars 1 0) (nth pows 0 0) (nth pows 1 0) ptbin
          (if nth pows 0 0 ≠ 1 then (match qol with | some o => o | none => qpoi) else qpoi) qref qol
      else
        loopVal (corrVal fuel
            (if nth pows 0 0 ≠ 1 then (match qol with | some o => o | none => qpoi) else qpoi)
            qref qol ptbin)
          (nth hars (hars.length - 1) 0) (nth pows (pows.length - 1) 0)
          (hars.length - 1)
          (corrVal fuel
              (if nth pows 0 0 ≠ 1 then (match qol with | some o => o | none => qpoi) else qpoi)
              qref qol ptbin hars.dropLast pows.dropLast *
            qref.Vec2 (nth hars (hars.length - 1) 0) (nth pows (pows.length - 1) 0))
          1 hars.dropLast pows.dropLast := by
  rfl

/-- The in-place recursion computes `corrVal` and restores both vectors. -/
theorem RecursiveCorr_eq (qref : AliGFWCumulant K) (qol : Option (AliGFWCumulant K))
    (ptbin : Int) :
    ∀ (fuel : Nat) (qpoi : AliGFWCumulant K) (hars pows : List Int),
      hars.length = pows.length → 0 < hars.length → hars.length ≤ fuel →
      RecursiveCorr fuel qpoi qref qol ptbin hars pows =
        .ok (corrVal fuel qpoi qref qol ptbin hars pows, hars, pows) := by
  intro fuel
  induction fuel with
  | zero => intro qpoi hars pows _ h0 hf; omega
  | succ fuel ih =>
    intro qpoi hars pows hlen h0 hf
    have hp0 : 0 < pows.length := by omega
    rw [RecursiveCorr_succ, corrVal_succ, atN_of_lt pows 0 0 hp0]
    simp only [Except.bind]
    by_cases h2 : hars.length < 2
    · rw [if_pos h2, if_pos h2, atN_of_lt hars 0 0 h0]
    · rw [if_neg h2, if_neg h2]
      by_cases h3 : hars.length < 3
      · rw [if_pos h3, if_pos h3, atN_of_lt hars 0 0 h0, atN_of_lt hars 1 0 (by omega),
          atN_of_lt pows 1 0 (by omega)]
      · rw [if_neg h3, if_neg h3, atN_of_lt hars (hars.length - 1) 0 (by omega),
          atN_of_lt pows (pows.length - 1) 0 (by omega)]
        simp only [Except.bind]
        have hdl : hars.dropLast.length = hars.length - 1 := by simp
        have hdp : pows.dropLast.length = hars.length - 1 := by simp [hlen]
        rw [ih _ hars.dropLast pows.dropLast (by rw [hdl, hdp]) (by omega) (by omega)]
        simp only [Except.bind]
        rw [corrLoop_eq _ (corrVal fuel _ qref qol ptbin) (hars.length - 1) _ _
          (fun h p hh hp => ih _ h p (by omega) (by omega) (by omega))
          _ _ _ hars.dropLast pows.dropLast (by omega) hdl hdp]
        simp only [Except.bind]
        rw [hdl, dropLast_append_nth hars h0, dropLast_append_nth pows hp0]

end CorrelatorLemmas

section BruteForceLemmas

variable {K : Type} [CommRing K] {ι : Type} [DecidableEq ι]

theorem distinctSum_swap (c : ι → Int → Int → K) (s : Finset ι) (a b : Int × Int)
    (L : List (Int × Int)) :
    distinctSum c s (a :: b :: L) = distinctSum c s (b :: a :: L) := by
  simp only [distinctSum, Finset.mul_sum]
  have hmem : ∀ (k j : ι), k ∈ s ∧ j ∈ s.erase k ↔ k ∈ s.erase j ∧ j ∈ s := by
    intro k j
    simp only [Finset.mem_erase]
    tauto
  rw [Finset.sum_comm' hmem]
  refine Finset.sum_congr rfl (fun j _ => Finset.sum_congr rfl (fun k _ => ?_))
  rw [Finset.erase_right_comm]
  ring

theorem distinctSum_perm (c : ι → Int → Int → K) {L L' : List (Int × Int)} (h : L.Perm L') :
    ∀ s : Finset ι, distinctSum c s L = distinctSum c s L' := by
  induction h with
  | nil => intro s; rfl
  | cons x _ ih =>
    intro s
    simp only [distinctSum]
    exact Finset.sum_congr rfl (fun k _ => by rw [ih])
  | swap x y l => intro s; exact distinctSum_swap c s y x l
  | trans _ _ ih1 ih2 => intro s; rw [ih1, ih2]

theorem distinctSum_merge (c : ι → Int → Int → K)
    (hmul : ∀ k n n' p p', c k (n + n') (p + p') = c k n p * c k n' p')
    (x : Int × Int) (L : List (Int × Int)) :
    ∀ s : Finset ι, distinctSum c s (x :: L) =
      (∑ k in s, c k x.1 x.2) * distinctSum c s L -
        ∑ i in Finset.range L.length, distinctSum c s (mergeP L i x) := by
  induction L with
  | nil => intro s; simp [distinctSum]
  | cons y L ih =>
    intro s
    rw [distinctSum_swap]
    simp only [List.length_cons, Finset.sum_range_succ', mergeP]
    rw [distinctSum.eq_2 c s y (x :: L), distinctSum.eq_2 c s y L,
      distinctSum.eq_2 c s (y.1 + x.1, y.2 + x.2) L]
    have hstep : ∀ i, distinctSum c s (y :: mergeP L i x) =
        ∑ k in s, c k y.1 y.2 * distinctSum c (s.erase k) (mergeP L i x) := fun i => rfl
    simp only [hstep]
    rw [Finset.sum_comm, Finset.mul_sum, ← Finset.sum_add_distrib, ← Finset.sum_sub_distrib]
    refine Finset.sum_congr rfl (fun k hk => ?_)
    rw [ih (s.erase k), ← Finset.mul_sum, hmul]
    have hQ : ∑ j in s.erase k, c j x.1 x.2 = (∑ j in s, c j x.1 x.2) - c k x.1 x.2 := by
      rw [← Finset.add_sum_erase s _ hk]; ring
    rw [hQ]
    ring

end BruteForceLemmas

section CorrelatorBrute

variable {K : Type} [CommRing K]

theorem loopVal_succ (recV : List Int → List Int → K) (harlast powlast : Int)
    (i : Nat) (formula : K) (d : Int) (hars pows : List Int) :
    loopVal recV harlast powlast (i + 1) formula d hars pows =
      if 2 < i ∧ nth hars i 0 = nth hars (i - 1) 0 ∧ nth pows i 0 = nth pows (i - 1) 0 then
        loopVal recV harlast powlast i formula (d + 1) hars pows
      else
        loopVal recV harlast powlast i
          (formula - (if 1 < d then recV (mergeAt hars i harlast) (mergeAt pows i powlast) * (d : K)
            else recV (mergeAt hars i harlast) (mergeAt pows i powlast)))
          (if 1 < d then 1 else d) hars pows := by
  rfl

/-- The loop subtracts every merged term once, provided the terms it skips are equal
to the one it then multiplies by the degeneracy counter. -/
theorem loopVal_eq (recV : List Int → List Int → K) (harlast powlast : Int)
    (hars pows : List Int)
    (hsym : ∀ i, 2 < i → i < hars.length → nth hars i 0 = nth hars (i - 1) 0 →
      nth pows i 0 = nth pows (i - 1) 0 →
      recV (mergeAt hars i harlast) (mergeAt pows i powlast) =
        recV (mergeAt hars (i - 1) harlast) (mergeAt pows (i - 1) powlast)) :
    ∀ (i : Nat) (formula : K) (d : Int), i ≤ hars.length → 1 ≤ d → (i = 0 → d = 1) →
      loopVal recV harlast powlast i formula d hars pows =
        formula - ((d : K) - 1) *
            recV (mergeAt hars (i - 1) harlast) (mergeAt pows (i - 1) powlast) -
          ∑ j in Finset.range i, recV (mergeAt hars j harlast) (mergeAt pows j powlast) := by
  intro i
  induction i with
  | zero =>
    intro formula d _ _ h0
    rw [h0 rfl]
    simp [loopVal]
  | succ i ih =>
    intro formula d hi hd _
    rw [loopVal_succ, Finset.sum_range_succ, Nat.add_sub_cancel]
    by_cases hc : 2 < i ∧ nth hars i 0 = nth hars (i - 1) 0 ∧ nth pows i 0 = nth pows (i - 1) 0
    · rw [if_pos hc, ih formula (d + 1) (by omega) (by omega) (by omega),
        hsym i hc.1 (by omega) hc.2.1 hc.2.2]
      push_cast
      ring
    · rw [if_neg hc]
      by_cases h1 : 1 < d
      · rw [if_pos h1, if_pos h1, ih _ 1 (by omega) (by omega) (fun _ => rfl)]
        push_cast
        ring
      · have hd1 : d = 1 := by omega
        rw [if_neg h1, if_neg h1, hd1, ih _ 1 (by omega) (by omega) (fun _ => rfl)]
        push_cast
        ring

theorem zip_mergeAt (a b : Int) :
    ∀ (hars pows : List Int) (i : Nat),
      List.zip (mergeAt hars i a) (mergeAt pows i b) = mergeP (List.zip hars pows) i (a, b)
  | [], pows, i => by cases pows <;> cases i <;> simp [mergeAt, mergeP]
  | _ :: _, [], i => by cases i <;> simp [mergeAt, mergeP]
  | x :: xs, y :: ys, 0 => by simp [mergeAt, mergeP, List.zip]
  | x :: xs, y :: ys, i + 1 => by
    have := zip_mergeAt a b xs ys i
    simp only [List.zip] at this
    simp [mergeAt, mergeP, List.zip, this]

theorem mergeP_perm (x : Int × Int) :
    ∀ (L : List (Int × Int)) (i : Nat), i + 1 < L.length → L[i + 1]? = L[i]? →
      (mergeP L (i + 1) x).Perm (mergeP L i x)
  | [], _, h, _ => by simp at h
  | [_], _, h, _ => by simp at h
  | a :: b :: L, 0, _, he => by
    simp only [List.getElem?_cons_succ, List.getElem?_cons_zero, Option.some.injEq] at he
    subst he
    simp only [mergeP]
    exact List.Perm.swap _ _ _
  | a :: b :: L, i + 1, h, he => by
    simp only [mergeP]
    refine List.Perm.cons a ?_
    have h' : i + 1 < (b :: L).length := by simpa using h
    have he' : (b :: L)[i + 1]? = (b :: L)[i]? := by simpa using he
    exact mergeP_perm x (b :: L) i h' he'

theorem zip_getElem?_eq (hars pows : List Int) (i j : Nat)
    (hi : i < hars.length) (hj : j < hars.length) (hlen : hars.length = pows.length)
    (hh : nth hars i 0 = nth hars j 0) (hp : nth pows i 0 = nth pows j 0) :
    (List.zip hars pows)[i]? = (List.zip hars pows)[j]? := by
  have hi' : i < pows.length := by omega
  have hj' : j < pows.length := by omega
  simp only [nth, List.getElem?_eq_getElem hi, List.getElem?_eq_getElem hj,
    List.getElem?_eq_getElem hi', List.getElem?_eq_getElem hj', Option.getD_some] at hh hp
  rw [List.getElem?_eq_getElem (by simp; omega), List.getElem?_eq_getElem (by simp; omega)]
  simp [hh, hp]

theorem zip_dropLast_append (hars pows : List Int) (hlen : hars.length = pows.length)
    (h0 : 0 < hars.length) :
    List.zip hars pows = List.zip hars.dropLast pows.dropLast ++
      [(nth hars (hars.length - 1) 0, nth pows (pows.length - 1) 0)] := by
  have hp0 : 0 < pows.length := by omega
  conv_lhs => rw [← dropLast_append_nth hars h0, ← dropLast_append_nth pows hp0]
  rw [List.zip_append (by simp [hlen])]
  rfl

/-- With one store holding sums of multiplicative factors, the value of
`RecursiveCorr` is the sum over tuples of distinct particles. -/
theorem corrVal_eq_distinctSum {ι : Type} [DecidableEq ι] (c : ι → Int → Int → K)
    (hmul : ∀ k n n' p p', c k (n + n') (p + p') = c k n p * c k n' p')
    (s : Finset ι) (q : AliGFWCumulant K) (hq : ∀ n p, q.Vec n p 0 = ∑ k in s, c k n p) :
    ∀ (fuel : Nat) (hars pows : List Int),
      hars.length = pows.length → 0 < hars.length → hars.length ≤ fuel →
      corrVal fuel q q (some q) 0 hars pows = distinctSum c s (List.zip hars pows) := by
  intro fuel
  induction fuel with
  | zero => intro hars pows _ h0 hf; omega
  | succ fuel ih =>
    intro hars pows hlen h0 hf
    rw [corrVal_succ]
    simp only [ite_self]
    by_cases h2 : hars.length < 2
    · rw [if_pos h2]
      obtain ⟨h, rfl⟩ := List.length_eq_one.mp (show hars.length = 1 by omega)
      obtain ⟨p, rfl⟩ := List.length_eq_one.mp (show pows.length = 1 by rw [← hlen]; rfl)
      simp [nth, distinctSum, hq]
    · rw [if_neg h2]
      by_cases h3 : hars.length < 3
      · rw [if_pos h3]
        obtain ⟨a0, a1, rfl⟩ := List.length_eq_two.mp (show hars.length = 2 by omega)
        obtain ⟨p0, p1, rfl⟩ := List.length_eq_two.mp (show pows.length = 2 by rw [← hlen]; rfl)
        have hm := distinctSum_merge c hmul (a0, p0) [(a1, p1)] s
        simp only [List.zip_cons_cons, List.zip_nil_right]
        rw [hm]
        simp [nth, distinctSum, mergeP, TwoRec, hq, add_comm]
      · rw [if_neg h3]
        have hdl : hars.dropLast.length = hars.length - 1 := by simp
        have hdp : pows.dropLast.length = hars.length - 1 := by simp [hlen]
        have hrec : ∀ j, j < hars.length - 1 →
            corrVal fuel q q (some q) 0
                (mergeAt hars.dropLast j (nth hars (hars.length - 1) 0))
                (mergeAt pows.dropLast j (nth pows (pows.length - 1) 0)) =
              distinctSum c s (mergeP (List.zip hars.dropLast pows.dropLast) j
                (nth hars (hars.length - 1) 0, nth pows (pows.length - 1) 0)) := by
          intro j _
          rw [ih _ _ (by rw [length_mergeAt, length_mergeAt, hdl, hdp])
            (by rw [length_mergeAt]; omega) (by rw [length_mergeAt]; omega), zip_mergeAt]
        rw [loopVal_eq _ _ _ _ _ ?_ _ _ _ (by omega) (le_refl _) (fun _ => rfl)]
        · rw [ih _ _ (by rw [hdl, hdp]) (by omega) (by omega), zip_dropLast_append hars pows hlen h0,
            distinctSum_perm c (List.perm_append_singleton _ _) s,
            distinctSum_merge c hmul, AliGFWCumulant.Vec2, hq, List.length_zip, hdl, hdp,
            Nat.min_self]
          rw [Finset.sum_congr rfl (fun j hj => hrec j (Finset.mem_range.mp hj))]
          push_cast
          ring
        · intro i hi2 hil hh hp
          rw [hdl] at hil
          rw [show i = (i - 1) + 1 by omega, hrec _ (by omega),
            show i - 1 + 1 - 1 = i - 1 by omega, hrec _ (by omega)]
          refine distinctSum_perm c (mergeP_perm _ _ _ (by simp [hlen]; omega) ?_) s
          rw [show i - 1 + 1 = i by omega]
          exact zip_getElem?_eq _ _ _ _ (by omega) (by omega) (by rw [hdl, hdp]) hh hp

end CorrelatorBrute

section Literal

variable {K : Type} [CommRing K] {ι : Type} [DecidableEq ι] [Fintype ι]

/-- The enumeration one position at a time is the sum over injective maps from the
positions into the chosen set of particles. -/
theorem distinctSum_eq_sum_injective (c : ι → Int → Int → K) :
    ∀ (L : List Int) (s : Finset ι),
      distinctSum c s (L.map (fun h => (h, (1 : Int)))) =
        ∑ f in (Finset.univ : Finset (Fin L.length → ι)).filter
            (fun f => Function.Injective f ∧ ∀ j, f j ∈ s),
          ∏ j : Fin L.length, c (f j) (L.get j) 1 := by
  intro L
  induction L with
  | nil =>
    intro s
    rw [Finset.sum_filter]
    simp [distinctSum, Function.injective_of_subsingleton]
  | cons x L ih =>
    intro s
    rw [Finset.sum_filter]
    have hre := (Fin.consEquiv (fun _ : Fin (L.length + 1) => ι)).sum_comp
      (fun f : Fin (L.length + 1) → ι =>
        if Function.Injective f ∧ ∀ j, f j ∈ s then
          ∏ j : Fin (L.length + 1), c (f j) ((x :: L).get j) 1 else 0)
    rw [show (∑ f : Fin (x :: L).length → ι,
          if Function.Injective f ∧ ∀ j, f j ∈ s then
            ∏ j : Fin (x :: L).length, c (f j) ((x :: L).get j) 1 else 0) =
        ∑ f : Fin (L.length + 1) → ι,
          if Function.Injective f ∧ ∀ j, f j ∈ s then
            ∏ j : Fin (L.length + 1), c (f j) ((x :: L).get j) 1 else 0
        from rfl, ← hre, Fintype.sum_prod_type]
    rw [List.map_cons, distinctSum.eq_2]
    symm
    rw [← Finset.sum_subset (Finset.subset_univ s)]
    · refine Finset.sum_congr rfl (fun k hk => ?_)
      rw [ih, Finset.sum_filter, Finset.mul_sum]
      refine Finset.sum_congr rfl (fun g _ => ?_)
      have hcons : (Fin.consEquiv (fun _ : Fin (L.length + 1) => ι)) (k, g) = Fin.cons k g := rfl
      rw [hcons]
      have hiff : (Function.Injective (Fin.cons k g : Fin (L.length + 1) → ι) ∧
          ∀ j : Fin (L.length + 1), (Fin.cons k g : Fin (L.length + 1) → ι) j ∈ s) ↔
          (Function.Injective g ∧ ∀ j, g j ∈ s.erase k) := by
        rw [Fin.cons_injective_iff, Fin.forall_fin_succ]
        simp only [Fin.cons_zero, Fin.cons_succ, Finset.mem_erase, Set.mem_range, not_exists]
        constructor
        · rintro ⟨⟨h1, h2⟩, _, h4⟩
          exact ⟨h2, fun j => ⟨h1 j, h4 j⟩⟩
        · rintro ⟨h1, h2⟩
          exact ⟨⟨fun j => (h2 j).1, h1⟩, hk, fun j => (h2 j).2⟩
      by_cases hP : Function.Injective g ∧ ∀ j, g j ∈ s.erase k
      · rw [if_pos hP, if_pos (hiff.mpr hP), Fin.prod_univ_succ]
        rfl
      · rw [if_neg hP, if_neg (fun h => hP (hiff.mp h)), mul_zero]
    · intro k _ hk
      refine Finset.sum_eq_zero (fun g _ => ?_)
      rw [if_neg]
      rintro ⟨_, h2⟩
      exact hk (h2 0)

end Literal

section CalculateLemmas

variable {K : Type} [CommRing K]

/-- On a non-empty harmonic list the unit-power overload returns a value and the
list it was given. -/
theorem RecursiveCorrUnit_eq (qpoi qref : AliGFWCumulant K) (qol : Option (AliGFWCumulant K))
    (ptbin : Int) (hars : List Int) (hne : hars ≠ []) :
    RecursiveCorrUnit qpoi qref qol ptbin hars =
      .ok (corrVal (hars.length + 1) qpoi qref qol ptbin hars (List.replicate hars.length 1),
        hars) := by
  have h0 : 0 < hars.length := List.length_pos.mpr hne
  unfold RecursiveCorrUnit
  simp only [bind, Except.bind, pure, Except.pure]
  rw [RecursiveCorr_eq qref qol ptbin _ qpoi hars _ (by simp) h0 (Nat.le_succ _)]

theorem atN_eq_ok {α : Type} (v : List α) (i : Nat) (x : α) (h : v[i]? = some x) :
    atN v i = .ok x := by
  simp [atN, h]

theorem atI_eq_ok {α : Type} (v : List α) (i : Int) (x : α) (h0 : 0 ≤ i)
    (h : v[i.toNat]? = some x) : atI v i = .ok x := by
  simp [atI, atN, h, not_lt.mpr h0]

theorem atI_of_valid {α : Type} (v : List α) (i : Int) (h0 : 0 ≤ i) (h1 : i < (v.length : Int)) :
    ∃ x, v[i.toNat]? = some x ∧ atI v i = .ok x := by
  have hlt : i.toNat < v.length := by omega
  exact ⟨v[i.toNat], List.getElem?_eq_getElem hlt,
    atI_eq_ok v i _ h0 (List.getElem?_eq_getElem hlt)⟩

/-- The loop body on a clause with at least one region, valid store indices and a
non-empty harmonic list: the three guards, then the correlator of the resolved
stores. -/
theorem CalculateClause_eq (fCumulants : List (AliGFWCumulant K)) (corconf : CorrConfig)
    (ptbin : Int) (z d : Bool) (i : Nat) (poi : Int) (rest : List Int) (H : List Int)
    (ovl ptOv : Int) (qpoi qref : AliGFWCumulant K)
    (hR : corconf.Regs[i]? = some (poi :: rest)) (hH : corconf.Hars[i]? = some H)
    (hO : corconf.Overlap[i]? = some ovl) (hP : corconf.ptInd[i]? = some ptOv)
    (hHne : H ≠ [])
    (hqp : 0 ≤ poi ∧ fCumulants[poi.toNat]? = some qpoi)
    (hqr : 0 ≤ rest.headD poi ∧ fCumulants[(rest.headD poi).toNat]? = some qref)
    (hov : ovl < (fCumulants.length : Int)) :
    CalculateClause fCumulants corconf ptbin z d i =
      .ok (if qref.IsPtBinFilled (if ptOv < 0 then ptbin else ptOv) = false ∨
            qpoi.IsPtBinFilled (if ptOv < 0 then ptbin else ptOv) = false ∨
            qref.GetN < (if poi ≠ rest.headD poi then (H.length : Int) - 1 else (H.length : Int))
          then none
          else some (corrVal (H.length + 1) qpoi qref
            (overlapResolved fCumulants ovl d poi (rest.headD poi) qref)
            (if ptOv < 0 then ptbin else ptOv)
            (if z then List.replicate H.length 0 else H) (List.replicate H.length 1))) := by
  have href : (if rest.length + 1 > 1 then atN (poi :: rest) 1 else Except.ok poi) =
      (.ok (rest.headD poi) : Except GFWError Int) := by
    cases rest with
    | nil => simp
    | cons r rs => simp [atN]
  have hlen : (if z = true then List.replicate H.length (0 : Int) else H).length = H.length := by
    cases z <;> simp
  have hne : (if z = true then List.replicate H.length (0 : Int) else H) ≠ [] := by
    intro h0
    have := congrArg List.length h0
    rw [hlen] at this
    exact hHne (List.length_eq_zero.mp this)
  unfold CalculateClause
  rw [atN_eq_ok _ _ _ hR, atN_eq_ok _ _ _ hH, atN_eq_ok _ _ _ hO, atN_eq_ok _ _ _ hP]
  simp only [bind, Except.bind, pure, Except.pure, List.length_cons, Nat.succ_ne_zero,
    if_false, atN_eq_ok (poi :: rest) 0 poi (by simp), atI_eq_ok _ _ _ hqp.1 hqp.2]
  rw [href]
  simp only [atI_eq_ok _ _ _ hqr.1 hqr.2]
  generalize (if ptOv < 0 then ptbin else ptOv) = pt
  cases h1 : qref.IsPtBinFilled pt
  · simp only [Bool.not_false, ↓reduceIte, true_or]
  cases h2 : qpoi.IsPtBinFilled pt
  · simp only [Bool.not_false, Bool.not_true, Bool.false_eq_true, ↓reduceIte, true_or, or_true]
  simp only [Bool.not_true, Bool.false_eq_true, ↓reduceIte, false_or]
  by_cases h3 : qref.GetN < (if poi ≠ rest.headD poi then (H.length : Int) - 1 else (H.length : Int))
  · rw [if_pos h3, if_pos (Or.inr (Or.inr h3))]
  have h3' : ¬ (true = false ∨ true = false ∨
      qref.GetN < (if poi ≠ rest.headD poi then (H.length : Int) - 1 else (H.length : Int))) := by
    rintro (h | h | h)
    · exact Bool.noConfusion h
    · exact Bool.noConfusion h
    · exact h3 h
  rw [if_neg h3, if_neg h3']
  have hovl : (if ovl > -1 then
        (if d = true then Except.ok none else Except.map some (atI fCumulants ovl))
      else if rest.headD poi = poi then Except.ok (some qref) else Except.ok none) =
      (.ok (overlapResolved fCumulants ovl d poi (rest.headD poi) qref) :
        Except GFWError (Option (AliGFWCumulant K))) := by
    unfold overlapResolved
    by_cases ho : 0 ≤ ovl
    · have ho' : ovl > -1 := by omega
      obtain ⟨qo, hq1, hq2⟩ := atI_of_valid fCumulants ovl ho hov
      rw [if_pos ho', if_pos ho, hq1, hq2]
      cases d <;> rfl
    · have ho' : ¬ ovl > -1 := by omega
      rw [if_neg ho', if_neg ho]
      by_cases hpr : rest.headD poi = poi
      · rw [if_pos hpr, if_pos hpr.symm]
      · rw [if_neg hpr, if_neg (Ne.symm hpr)]
  rw [hovl]
  simp only []
  rw [RecursiveCorrUnit_eq _ _ _ _ _ hne, hlen]

theorem atN_take_drop {α : Type} (l : List α) (i : Nat) :
    atN ((l.drop i).take 1) 0 = atN l i := by
  unfold atN
  have : ((l.drop i).take 1)[0]? = l[i]? := by
    simp [List.getElem?_take, List.getElem?_drop]
  rw [this]

theorem CalculateClause_singleClause (fCumulants : List (AliGFWCumulant K)) (corconf : CorrConfig)
    (ptbin : Int) (z d : Bool) (i : Nat) :
    CalculateClause fCumulants (singleClause corconf i) ptbin z d 0 =
      CalculateClause fCumulants corconf ptbin z d i := by
  unfold CalculateClause
  simp only [singleClause, atN_take_drop]

theorem CalculateClause_nil (fCumulants : List (AliGFWCumulant K)) (corconf : CorrConfig)
    (ptbin : Int) (z d : Bool) (i : Nat) (hR : corconf.Regs[i]? = some []) :
    CalculateClause fCumulants corconf ptbin z d i = .ok none := by
  unfold CalculateClause
  rw [atN_eq_ok _ _ _ hR]
  rfl

/-- On a valid request no pass of the loop throws. -/
theorem CalculateClause_ok (fCumulants : List (AliGFWCumulant K)) (corconf : CorrConfig)
    (ptbin : Int) (z d : Bool) (hv : ValidRequest fCumulants.length corconf)
    (i : Nat) (hi : i < corconf.Regs.length) :
    ∃ o, CalculateClause fCumulants corconf ptbin z d i = .ok o := by
  obtain ⟨hlH, hlO, hlP, hcl⟩ := hv
  have hR : corconf.Regs[i]? = some corconf.Regs[i] := List.getElem?_eq_getElem hi
  cases hregs : corconf.Regs[i] with
  | nil =>
    rw [hregs] at hR
    exact ⟨none, CalculateClause_nil _ _ _ _ _ _ hR⟩
  | cons poi rest =>
    rw [hregs] at hR
    obtain ⟨H, hH⟩ : ∃ H, corconf.Hars[i]? = some H :=
      ⟨_, List.getElem?_eq_getElem (by omega)⟩
    obtain ⟨ovl, hO⟩ : ∃ o, corconf.Overlap[i]? = some o :=
      ⟨_, List.getElem?_eq_getElem (by omega)⟩
    obtain ⟨ptOv, hP⟩ : ∃ p, corconf.ptInd[i]? = some p :=
      ⟨_, List.getElem?_eq_getElem (by omega)⟩
    have hcl' := hcl i hi
    rw [hR, hO, hH] at hcl'
    obtain ⟨hr, ho, hh⟩ := hcl' (by simp)
    simp only [Option.getD_some] at hr ho hh
    have hpoi := hr poi (by simp)
    have href : 0 ≤ rest.headD poi ∧ rest.headD poi < (fCumulants.length : Int) := by
      cases rest with
      | nil => exact hpoi
      | cons r rs => exact hr r (by simp)
    obtain ⟨qpoi, hqp, _⟩ := atI_of_valid fCumulants poi hpoi.1 hpoi.2
    obtain ⟨qref, hqr, _⟩ := atI_of_valid fCumulants _ href.1 href.2
    exact ⟨_, CalculateClause_eq fCumulants corconf ptbin z d i poi rest _ _ _ qpoi qref
      hR hH hO hP hh ⟨hpoi.1, hqp⟩ ⟨href.1, hqr⟩ ho⟩

theorem CalculateLoop_succ (fCumulants : List (AliGFWCumulant K)) (corconf : CorrConfig)
    (ptbin : Int) (z d : Bool) (n i : Nat) (retval : K) :
    CalculateLoop fCumulants corconf ptbin z d (n + 1) i retval =
      (CalculateClause fCumulants corconf ptbin z d i).bind (fun o =>
        match o with
        | none => .ok 0
        | some r => CalculateLoop fCumulants corconf ptbin z d n (i + 1) (retval * r)) := by
  rfl

/-- The loop returns the running product times the factors of the passes it makes,
when none of them throws. -/
theorem CalculateLoop_eq (fCumulants : List (AliGFWCumulant K)) (corconf : CorrConfig)
    (ptbin : Int) (z d : Bool) :
    ∀ (n i : Nat) (retval : K),
      (∀ j, i ≤ j → j < i + n → ∃ o, CalculateClause fCumulants corconf ptbin z d j = .ok o) →
      CalculateLoop fCumulants corconf ptbin z d n i retval =
        .ok (retval * ((List.range n).map (fun j =>
          clauseFactor (CalculateClause fCumulants corconf ptbin z d (i + j)))).prod) := by
  intro n
  induction n with
  | zero => intro i retval _; simp [CalculateLoop]
  | succ n ih =>
    intro i retval hok
    obtain ⟨o, ho⟩ := hok i (le_refl _) (by omega)
    have hext : List.map ((fun j => clauseFactor
          (CalculateClause fCumulants corconf ptbin z d (i + j))) ∘ Nat.succ) (List.range n) =
        List.map (fun j => clauseFactor
          (CalculateClause fCumulants corconf ptbin z d (i + 1 + j))) (List.range n) := by
      apply List.map_congr_left
      intro j _
      simp only [Function.comp]
      rw [show i + Nat.succ j = i + 1 + j by omega]
    rw [CalculateLoop_succ, List.range_succ_eq_map, List.map_cons, List.prod_cons,
      List.map_map, hext]
    simp only [Nat.add_zero, ho]
    cases o with
    | none => simp [Except.bind, clauseFactor]
    | some v =>
      have hv : clauseFactor (Except.ok (some v) : Except GFWError (Option K)) = v := rfl
      rw [hv]
      simp only [Except.bind]
      rw [ih (i + 1) (retval * v) (fun j h1 h2 => hok j (by omega) (by omega)), mul_assoc]

theorem Calculate_eq_prod (fCumulants : List (AliGFWCumulant K)) (corconf : CorrConfig)
    (ptbin : Int) (z d : Bool) (hm : 0 < corconf.Regs.length)
    (hok : ∀ j, j < corconf.Regs.length →
      ∃ o, CalculateClause fCumulants corconf ptbin z d j = .ok o) :
    Calculate fCumulants corconf ptbin z d =
      .ok ((List.range corconf.Regs.length).map (fun j =>
        clauseFactor (CalculateClause fCumulants corconf ptbin z d j))).prod := by
  unfold Calculate
  rw [if_neg (by omega), CalculateLoop_eq _ _ _ _ _ _ 0 1 (fun j _ h => hok j (by omega)), one_mul]
  simp only [Nat.zero_add]

theorem Calculate_singleClause (fCumulants : List (AliGFWCumulant K)) (corconf : CorrConfig)
    (ptbin : Int) (z d : Bool) (i : Nat) (hi : i < corconf.Regs.length)
    (hok : ∃ o, CalculateClause fCumulants corconf ptbin z d i = .ok o) :
    Calculate fCumulants (singleClause corconf i) ptbin z d =
      .ok (clauseFactor (CalculateClause fCumulants corconf ptbin z d i)) := by
  have hlen : (singleClause corconf i).Regs.length = 1 := by
    simp only [singleClause, List.length_take, List.length_drop]
    omega
  rw [Calculate_eq_prod _ _ _ _ _ (by omega)
    (fun j hj => by
      rw [hlen] at hj
      rw [show j = 0 by omega, CalculateClause_singleClause]
      exact hok), hlen]
  simp [List.range_succ, CalculateClause_singleClause]

end CalculateLemmas

section ParserLemmas

/-! ## Stepping through the parser -/

theorem regionLoop_succ (fRegions : List Region) (ts : TString) (szend : Int) (n : Nat)
    (sz1 : Int) (rc : CorrConfig) :
    regionLoop fRegions ts szend (n + 1) sz1 rc =
      match TStr.Tokenize ts sz1 ' ' with
      | (false, _, _) => some rc
      | (true, ts2, sz1) =>
        if sz1 ≥ szend then some rc
        else
          if (TStr.EqualTo (if TStr.Contains ts2 "|".toList then TStr.Remove ts2 0 1 else ts2)
                " ".toList ||
              TStr.EqualTo (if TStr.Contains ts2 "|".toList then TStr.Remove ts2 0 1 else ts2)
                "".toList) = true then
            regionLoop fRegions ts szend n sz1 rc
          else if FindRegionByName fRegions
              (if TStr.Contains ts2 "|".toList then TStr.Remove ts2 0 1 else ts2) < 0 then some rc
          else if (!TStr.Contains ts2 "|".toList) = true then
            regionLoop fRegions ts szend n sz1
              { Regs := pushToLast rc.Regs (FindRegionByName fRegions
                  (if TStr.Contains ts2 "|".toList then TStr.Remove ts2 0 1 else ts2)),
                Hars := rc.Hars, Overlap := rc.Overlap, ptInd := rc.ptInd, pTDif := rc.pTDif,
                Head := rc.Head }
          else
            regionLoop fRegions ts szend n sz1
              { Regs := rc.Regs, Hars := rc.Hars,
                Overlap := setLast rc.Overlap (FindRegionByName fRegions
                  (if TStr.Contains ts2 "|".toList then TStr.Remove ts2 0 1 else ts2)),
                ptInd := rc.ptInd, pTDif := rc.pTDif, Head := rc.Head } := by
  rfl

theorem clauseLoop_succ (fRegions : List Region) (n : Nat) (config : TString) (szend : Int)
    (rc : CorrConfig) :
    clauseLoop fRegions (n + 1) config szend rc =
      match TStr.Tokenize config szend '{' with
      | (false, _, _) => some (false, rc)
      | (true, ts, szend) =>
        match ptBinBlock ts config szend with
        | none =>
          some (true,
            { Regs := rc.Regs ++ [[]], Hars := rc.Hars ++ [[]], Overlap := rc.Overlap ++ [-1],
              ptInd := rc.ptInd, pTDif := rc.pTDif, Head := rc.Head })
        | some (ptbin, ts, config, szend) =>
          match regionLoop fRegions ts szend (ts.length + 1) 0
              { Regs := rc.Regs ++ [[]], Hars := rc.Hars ++ [[]], Overlap := rc.Overlap ++ [-1],
                ptInd := rc.ptInd ++ [ptbin], pTDif := rc.pTDif, Head := rc.Head } with
          | none => none
          | some rc =>
            match TStr.Tokenize config szend '}' with
            | (_, harstr, szend) =>
              match harmonicLoop harstr (harstr.length + 1) 0 rc with
              | none => none
              | some rc => clauseLoop fRegions n config szend rc := by
  rfl

theorem regionLoop_end (fRegions : List Region) (ts : TString) (szend : Int) (n : Nat)
    (sz1 : Int) (rc : CorrConfig) (tok : TString) (sz1' : Int)
    (hT : TStr.Tokenize ts sz1 ' ' = (false, tok, sz1')) :
    regionLoop fRegions ts szend (n + 1) sz1 rc = some rc := by
  rw [regionLoop_succ]
  rw [hT]

theorem regionLoop_break (fRegions : List Region) (ts : TString) (szend : Int) (n : Nat)
    (sz1 : Int) (rc : CorrConfig) (tok : TString) (sz1' : Int)
    (hT : TStr.Tokenize ts sz1 ' ' = (true, tok, sz1')) (hge : sz1' ≥ szend) :
    regionLoop fRegions ts szend (n + 1) sz1 rc = some rc := by
  rw [regionLoop_succ]
  rw [hT]
  simp only []
  rw [if_pos hge]

theorem regionLoop_blank (fRegions : List Region) (ts : TString) (szend : Int) (n : Nat)
    (sz1 : Int) (rc : CorrConfig) (sz1' : Int)
    (hT : TStr.Tokenize ts sz1 ' ' = (true, [], sz1')) (hlt : sz1' < szend) :
    regionLoop fRegions ts szend (n + 1) sz1 rc = regionLoop fRegions ts szend n sz1' rc := by
  rw [regionLoop_succ]
  rw [hT]
  simp only []
  rw [if_neg (not_le.mpr hlt), if_pos (by decide)]

theorem regionLoop_region (fRegions : List Region) (ts : TString) (szend : Int) (n : Nat)
    (sz1 : Int) (rc : CorrConfig) (tok : TString) (sz1' : Int) (ind : Int)
    (hT : TStr.Tokenize ts sz1 ' ' = (true, tok, sz1')) (hlt : sz1' < szend)
    (hbar : TStr.Contains tok "|".toList = false)
    (hne : (TStr.EqualTo tok " ".toList || TStr.EqualTo tok "".toList) = false)
    (hfind : FindRegionByName fRegions tok = ind) (hind : 0 ≤ ind) :
    regionLoop fRegions ts szend (n + 1) sz1 rc =
      regionLoop fRegions ts szend n sz1'
        { Regs := pushToLast rc.Regs ind, Hars := rc.Hars, Overlap := rc.Overlap,
          ptInd := rc.ptInd, pTDif := rc.pTDif, Head := rc.Head } := by
  rw [regionLoop_succ]
  rw [hT]
  simp only [hbar, Bool.false_eq_true, if_false, hne, hfind, Bool.not_false, if_true]
  rw [if_neg (not_le.mpr hlt), if_neg (not_lt.mpr hind)]

theorem regionLoop_overlap (fRegions : List Region) (ts : TString) (szend : Int) (n : Nat)
    (sz1 : Int) (rc : CorrConfig) (tok : TString) (sz1' : Int) (ind : Int)
    (hT : TStr.Tokenize ts sz1 ' ' = (true, tok, sz1')) (hlt : sz1' < szend)
    (hbar : TStr.Contains tok "|".toList = true)
    (hne : (TStr.EqualTo (TStr.Remove tok 0 1) " ".toList ||
      TStr.EqualTo (TStr.Remove tok 0 1) "".toList) = false)
    (hfind : FindRegionByName fRegions (TStr.Remove tok 0 1) = ind) (hind : 0 ≤ ind) :
    regionLoop fRegions ts szend (n + 1) sz1 rc =
      regionLoop fRegions ts szend n sz1'
        { Regs := rc.Regs, Hars := rc.Hars, Overlap := setLast rc.Overlap ind,
          ptInd := rc.ptInd, pTDif := rc.pTDif, Head := rc.Head } := by
  rw [regionLoop_succ]
  rw [hT]
  simp only [hbar, if_true, hne, hfind, Bool.not_true, Bool.false_eq_true, if_false]
  rw [if_neg (not_le.mpr hlt), if_neg (not_lt.mpr hind)]

theorem regionLoop_unknown (fRegions : List Region) (ts : TString) (szend : Int) (n : Nat)
    (sz1 : Int) (rc : CorrConfig) (tok : TString) (sz1' : Int)
    (hT : TStr.Tokenize ts sz1 ' ' = (true, tok, sz1')) (hlt : sz1' < szend)
    (hbar : TStr.Contains tok "|".toList = false)
    (hne : (TStr.EqualTo tok " ".toList || TStr.EqualTo tok "".toList) = false)
    (hfind : FindRegionByName fRegions tok < 0) :
    regionLoop fRegions ts szend (n + 1) sz1 rc = some rc := by
  rw [regionLoop_succ]
  rw [hT]
  simp only [hbar, Bool.false_eq_true, if_false, hne]
  rw [if_neg (not_le.mpr hlt), if_pos hfind]

theorem clauseLoop_stop (fRegions : List Region) (n : Nat) (config : TString) (szend : Int)
    (rc : CorrConfig) (tok : TString) (szend' : Int)
    (hT : TStr.Tokenize config szend '{' = (false, tok, szend')) :
    clauseLoop fRegions (n + 1) config szend rc = some (false, rc) := by
  rw [clauseLoop_succ]
  rw [hT]

theorem clauseLoop_return (fRegions : List Region) (n : Nat) (config : TString) (szend : Int)
    (rc : CorrConfig) (ts : TString) (szend1 : Int)
    (hT : TStr.Tokenize config szend '{' = (true, ts, szend1))
    (hpt : ptBinBlock ts config szend1 = none) :
    clauseLoop fRegions (n + 1) config szend rc =
      some (true,
        { Regs := rc.Regs ++ [[]], Hars := rc.Hars ++ [[]], Overlap := rc.Overlap ++ [-1],
          ptInd := rc.ptInd, pTDif := rc.pTDif, Head := rc.Head }) := by
  rw [clauseLoop_succ]
  rw [hT]
  simp only []
  rw [hpt]

theorem clauseLoop_step (fRegions : List Region) (n : Nat) (config : TString) (szend : Int)
    (rc : CorrConfig) (ts : TString) (szend1 : Int) (ptbin : Int) (ts' config' : TString)
    (szend2 : Int) (rc2 : CorrConfig) (b : Bool) (harstr : TString) (szend3 : Int)
    (rc3 : CorrConfig)
    (hT : TStr.Tokenize config szend '{' = (true, ts, szend1))
    (hpt : ptBinBlock ts config szend1 = some (ptbin, ts', config', szend2))
    (hreg : regionLoop fRegions ts' szend2 (ts'.length + 1) 0
      { Regs := rc.Regs ++ [[]], Hars := rc.Hars ++ [[]], Overlap := rc.Overlap ++ [-1],
        ptInd := rc.ptInd ++ [ptbin], pTDif := rc.pTDif, Head := rc.Head } = some rc2)
    (hT2 : TStr.Tokenize config' szend2 '}' = (b, harstr, szend3))
    (hhar : harmonicLoop harstr (harstr.length + 1) 0 rc2 = some rc3) :
    clauseLoop fRegions (n + 1) config szend rc = clauseLoop fRegions n config' szend3 rc3 := by
  rw [clauseLoop_succ]
  rw [hT]
  simp only []
  rw [hpt]
  simp only []
  rw [hreg]
  simp only []
  rw [hT2]
  simp only []
  rw [hhar]

theorem GetCorrelatorConfig_eq (fRegions : List Region) (config head : TString) (ptdif : Bool)
    (c1 c2 tok : TString) (sz : Int)
    (h1 : TStr.replaceWhile " (".toList "(".toList
      (TStr.ReplaceAll (TStr.ReplaceAll (TStr.ReplaceAll config ",".toList " ".toList)
        ";".toList " ".toList) "| ".toList "|".toList).length
      (TStr.ReplaceAll (TStr.ReplaceAll (TStr.ReplaceAll config ",".toList " ".toList)
        ";".toList " ".toList) "| ".toList "|".toList) = some c1)
    (h2 : TStr.replaceWhile "  ".toList " ".toList c1.length c1 = some c2)
    (hT : TStr.Tokenize c2 0 '{' = (true, tok, sz)) :
    GetCorrelatorConfig fRegions config head ptdif =
      match clauseLoop fRegions (c2.length + 1) c2 0 emptyCorrConfig with
      | none => none
      | some (true, rc) => some rc
      | some (false, rc) =>
        some { Regs := rc.Regs, Hars := rc.Hars, Overlap := rc.Overlap, ptInd := rc.ptInd,
               pTDif := ptdif, Head := head } := by
  unfold GetCorrelatorConfig
  simp only []
  rw [h1]
  simp only []
  rw [h2]
  simp only []
  rw [hT]

end ParserLemmas

section TokenizeLemmas

/-! ## `Tokenize` on a text made of tokens -/

theorem takeWhile_ne_append (d : Char) (t rest : List Char) (hd : d ∉ t) :
    (t ++ d :: rest).takeWhile (fun c => c != d) = t := by
  induction t with
  | nil => simp [List.takeWhile]
  | cons x xs ih =>
    have hx : x ≠ d := fun h => hd (by simp [h])
    have hxs : d ∉ xs := fun h => hd (by simp [h])
    have hb : (fun c => c != d) x = true := by simp [hx]
    rw [List.cons_append, List.takeWhile_cons_of_pos (p := fun c => c != d) hb, ih hxs]

theorem takeWhile_ne_self (d : Char) (t : List Char) (hd : d ∉ t) :
    t.takeWhile (fun c => c != d) = t := by
  induction t with
  | nil => rfl
  | cons x xs ih =>
    have hx : x ≠ d := fun h => hd (by simp [h])
    have hxs : d ∉ xs := fun h => hd (by simp [h])
    have hb : (fun c => c != d) x = true := by simp [hx]
    rw [List.takeWhile_cons_of_pos (p := fun c => c != d) hb, ih hxs]

theorem takeWhile_eq_replicate (d : Char) (n : Nat) (r : List Char) (hr : r.head? ≠ some d) :
    (List.replicate n d ++ r).takeWhile (fun c => c == d) = List.replicate n d := by
  induction n with
  | zero =>
    cases r with
    | nil => rfl
    | cons x xs =>
      have hx : x ≠ d := fun h => hr (by simp [h])
      have hb : ¬ (fun c => c == d) x = true := by simp [hx]
      rw [List.replicate_zero, List.nil_append,
        List.takeWhile_cons_of_neg (p := fun c => c == d) hb]
  | succ n ih =>
    have hb : (fun c => c == d) d = true := by simp
    rw [List.replicate_succ, List.cons_append,
      List.takeWhile_cons_of_pos (p := fun c => c == d) hb, ih]

/-- A token `t` standing at position `pre.length` and followed by a run of `n >= 1`
delimiters: `Tokenize` returns it and moves past the run. -/
theorem Tokenize_token (pre t r : List Char) (d : Char) (n : Nat) (hd : d ∉ t) (hn : 1 ≤ n)
    (hr : r.head? ≠ some d) :
    TStr.Tokenize (pre ++ t ++ List.replicate n d ++ r) (pre.length : Int) d =
      (true, t, ((pre.length + t.length + n : Nat) : Int)) := by
  obtain ⟨m, rfl⟩ : ∃ m, n = m + 1 := ⟨n - 1, by omega⟩
  have hdrop : List.drop pre.length (pre ++ t ++ List.replicate (m + 1) d ++ r) =
      t ++ d :: (List.replicate m d ++ r) := by
    rw [List.append_assoc, List.append_assoc, List.drop_left]
    simp [List.replicate_succ]
  have hbefore : (t ++ d :: (List.replicate m d ++ r)).takeWhile (fun c => c != d) = t :=
    takeWhile_ne_append d t _ hd
  have hext : ((t ++ d :: (List.replicate m d ++ r)).drop t.length).takeWhile (fun c => c == d) =
      List.replicate (m + 1) d := by
    rw [List.drop_left]
    have := takeWhile_eq_replicate d (m + 1) r hr
    simpa [List.replicate_succ] using this
  unfold TStr.Tokenize
  simp only [Int.toNat_ofNat, hdrop, hbefore, hext]
  have hlen : ((pre ++ t ++ List.replicate (m + 1) d ++ r).length : Int) =
      (pre.length : Int) + t.length + (m + 1) + r.length := by
    simp only [List.length_append, List.length_replicate]
    push_cast
    ring
  rw [hlen]
  rw [if_neg (by omega), if_neg (by simp)]
  simp only [List.length_replicate]
  congr 2
  · cases t with
    | nil => simp
    | cons x xs => simp
  · push_cast
    split_ifs <;> omega

/-- The last token of a text, with no delimiter after it: `Tokenize` returns it and
sets the position to `kNPOS`. -/
theorem Tokenize_last (pre t : List Char) (d : Char) (hd : d ∉ t) (ht : t ≠ []) :
    TStr.Tokenize (pre ++ t) (pre.length : Int) d = (true, t, TStr.kNPOS) := by
  have hpos : 0 < t.length := List.length_pos.mpr ht
  unfold TStr.Tokenize
  simp only [Int.toNat_ofNat, List.drop_left, takeWhile_ne_self d t hd, if_true]
  rw [if_neg (by simp only [List.length_append]; push_cast; omega)]
  cases t with
  | nil => exact absurd rfl ht
  | cons x xs => rfl

/-- At the end of the text, or at `kNPOS`, `Tokenize` finds nothing. -/
theorem Tokenize_none (s : List Char) (frm : Int) (d : Char)
    (h : frm = (s.length : Int) ∨ frm < 0) :
    (TStr.Tokenize s frm d).1 = false := by
  unfold TStr.Tokenize
  rw [if_pos (by omega)]

end TokenizeLemmas

section SetHarmonicsToZeroLemmas

theorem countLoop_succ (instr : TString) (n : Nat) (sz1 : Int) (indc : Nat) :
    countLoop instr (n + 1) sz1 indc =
      match TStr.Tokenize instr sz1 ' ' with
      | (false, _, _) => some indc
      | (true, _, sz1) => countLoop instr n sz1 (indc + 1) := by
  rfl

theorem countLoop_stop (instr : TString) (n : Nat) (sz1 : Int) (indc : Nat)
    (h : (TStr.Tokenize instr sz1 ' ').1 = false) :
    countLoop instr (n + 1) sz1 indc = some indc := by
  rw [countLoop_succ]
  rcases hT : TStr.Tokenize instr sz1 ' ' with ⟨b, tok, s⟩
  rw [hT] at h
  simp only at h
  subst h
  rfl

theorem countLoop_next (instr : TString) (n : Nat) (sz1 : Int) (indc : Nat) (tok : TString)
    (sz1' : Int) (h : TStr.Tokenize instr sz1 ' ' = (true, tok, sz1')) :
    countLoop instr (n + 1) sz1 indc = countLoop instr n sz1' (indc + 1) := by
  rw [countLoop_succ, h]

theorem tokenText_head (items : List (TString × Nat)) (hok : TokensOK items) (d : Char)
    (hd : ∀ it ∈ items, d ∉ it.1) : (tokenText items).head? ≠ some d := by
  cases items with
  | nil => simp [tokenText]
  | cons it rest =>
    obtain ⟨t, n⟩ := it
    obtain ⟨hne, _, _, _⟩ := hok
    cases t with
    | nil => exact absurd rfl hne
    | cons x xs =>
      have hx : d ∉ x :: xs := hd (x :: xs, n) (by simp)
      simp only [tokenText, List.cons_append, List.head?_cons, ne_eq, Option.some.injEq]
      intro h
      exact hx (by simp [h])

theorem TokensOK_no_blank (items : List (TString × Nat)) (hok : TokensOK items) :
    ∀ it ∈ items, ' ' ∉ it.1 := by
  induction items with
  | nil => intro it hit; simp at hit
  | cons a rest ih =>
    obtain ⟨t, n⟩ := a
    obtain ⟨_, hsp, _, hrest⟩ := hok
    intro it hit
    rcases List.mem_cons.mp hit with h | h
    · subst h; exact hsp
    · exact ih hrest it h

theorem length_tokenText_ge (items : List (TString × Nat)) (hok : TokensOK items) :
    items.length ≤ (tokenText items).length := by
  induction items with
  | nil => simp
  | cons it rest ih =>
    obtain ⟨t, n⟩ := it
    obtain ⟨hne, _, _, hrest⟩ := hok
    have := ih hrest
    have hpos : 0 < t.length := List.length_pos.mpr hne
    simp only [tokenText, List.length_cons, List.length_append, List.length_replicate]
    omega

/-- The counting loop of `SetHarmonicsToZero` counts the tokens of a well-formed
text. -/
theorem countLoop_tokens (items : List (TString × Nat)) (hok : TokensOK items) :
    ∀ (pre : TString) (indc fuel : Nat), items.length + 1 ≤ fuel →
      countLoop (pre ++ tokenText items) fuel (pre.length : Int) indc =
        some (indc + items.length) := by
  induction items with
  | nil =>
    intro pre indc fuel hf
    obtain ⟨f, rfl⟩ : ∃ f, fuel = f + 1 := ⟨fuel - 1, by omega⟩
    rw [countLoop_stop _ _ _ _ (Tokenize_none _ _ _ (Or.inl (by simp [tokenText])))]
    rfl
  | cons it rest ih =>
    intro pre indc fuel hf
    obtain ⟨t, n⟩ := it
    obtain ⟨hne, hsp, hn, hrest⟩ := hok
    obtain ⟨f, rfl⟩ : ∃ f, fuel = f + 1 := ⟨fuel - 1, by omega⟩
    have hf' : rest.length + 1 ≤ f := by simpa using hf
    by_cases hn0 : n = 0
    · have hnil : rest = [] := by
        by_contra hc
        have := hn hc
        omega
      subst hnil
      subst hn0
      obtain ⟨g, rfl⟩ : ∃ g, f = g + 1 := ⟨f - 1, by omega⟩
      have htext : pre ++ tokenText [(t, 0)] = pre ++ t := by simp [tokenText]
      rw [htext, countLoop_next _ _ _ _ t TStr.kNPOS (Tokenize_last pre t ' ' hsp hne),
        countLoop_stop _ _ _ _ (Tokenize_none _ _ _ (Or.inr (by decide)))]
      rfl
    · have htext : pre ++ tokenText ((t, n) :: rest) =
          pre ++ t ++ List.replicate n ' ' ++ tokenText rest := by
        simp [tokenText, List.append_assoc]
      have hhead : (tokenText rest).head? ≠ some ' ' := by
        cases rest with
        | nil => simp [tokenText]
        | cons it2 rest2 =>
          obtain ⟨t2, n2⟩ := it2
          obtain ⟨hne2, hsp2, _, _⟩ := hrest
          cases t2 with
          | nil => exact absurd rfl hne2
          | cons x xs =>
            simp only [tokenText, List.cons_append, List.head?_cons, ne_eq, Option.some.injEq]
            intro h
            exact hsp2 (by simp [h])
      rw [htext, countLoop_next _ _ _ _ t _
        (Tokenize_token pre t (tokenText rest) ' ' n hsp (by omega) hhead)]
      have hpre : ((pre.length + t.length + n : Nat) : Int) =
          ((pre ++ t ++ List.replicate n ' ').length : Int) := by
        simp only [List.length_append, List.length_replicate]
      rw [hpre, ih hrest (pre ++ t ++ List.replicate n ' ') (indc + 1) f hf']
      simp only [List.length_cons]
      congr 1
      omega

theorem appendZeros_eq (s : TString) (n : Nat) : appendZeros s n = s ++ zeroTokens n := by
  induction n generalizing s with
  | zero => simp [appendZeros, zeroTokens]
  | succ n ih =>
    rw [appendZeros, ih]
    simp [zeroTokens, List.append_assoc]

end SetHarmonicsToZeroLemmas

section Normalisation

/-! ## The normalisation of a descriptor -/

theorem startsWith_eq_append : ∀ (s1 l : List Char), TStr.startsWith s1 l = true →
    l = s1 ++ l.drop s1.length
  | [], _, _ => rfl
  | _ :: _, [], h => by simp [TStr.startsWith] at h
  | p :: ps, c :: cs, h => by
    simp only [TStr.startsWith, Bool.and_eq_true, beq_iff_eq] at h
    have := startsWith_eq_append ps cs h.2
    simp only [List.length_cons, List.drop_succ_cons, List.cons_append]
    rw [← this, h.1]

theorem replaceAllAux_skip (s1 s2 : List Char) :
    ∀ (k : Nat) (l : List Char),
      TStr.replaceAllAux s1 s2 k l = TStr.replaceAllAux s1 s2 0 (l.drop k)
  | 0, l => by simp
  | k + 1, [] => by simp [TStr.replaceAllAux]
  | k + 1, _ :: cs => by
    rw [TStr.replaceAllAux, replaceAllAux_skip s1 s2 k cs]
    rfl

theorem replaceAllAux_cons (s1 s2 : List Char) (c : Char) (cs : List Char) (h1 : s1 ≠ []) :
    TStr.replaceAllAux s1 s2 0 (c :: cs) =
      if TStr.startsWith s1 (c :: cs) then
        s2 ++ TStr.replaceAllAux s1 s2 0 ((c :: cs).drop s1.length)
      else c :: TStr.replaceAllAux s1 s2 0 cs := by
  rw [TStr.replaceAllAux, replaceAllAux_skip s1 s2 (s1.length - 1) cs]
  obtain ⟨n, hn⟩ : ∃ n, s1.length = n + 1 :=
    ⟨s1.length - 1, by have := List.length_pos.mpr h1; omega⟩
  rw [hn]
  rfl

/-- Replacing `s1` by `s2` keeps the characters selected by `p`, when `s1` and `s2`
hold the same ones. -/
theorem filter_replaceAllAux (s1 s2 : List Char) (p : Char → Bool) (h1 : s1 ≠ [])
    (hp : s1.filter p = s2.filter p) :
    ∀ (n : Nat) (l : List Char), l.length ≤ n →
      (TStr.replaceAllAux s1 s2 0 l).filter p = l.filter p := by
  intro n
  induction n with
  | zero =>
    intro l hl
    have : l = [] := List.length_eq_zero.mp (by omega)
    subst this
    rfl
  | succ n ih =>
    intro l hl
    cases l with
    | nil => rfl
    | cons c cs =>
      rw [replaceAllAux_cons s1 s2 c cs h1]
      by_cases hs : TStr.startsWith s1 (c :: cs) = true
      · rw [if_pos hs]
        have hsplit := startsWith_eq_append s1 (c :: cs) hs
        have hlen : ((c :: cs).drop s1.length).length ≤ n := by
          have := List.length_pos.mpr h1
          simp only [List.length_drop, List.length_cons] at hl ⊢
          omega
        rw [List.filter_append, ih _ hlen, ← hp, ← List.filter_append, ← hsplit]
      · rw [if_neg hs, List.filter_cons, List.filter_cons, ih cs (by simpa using hl)]

theorem length_replaceAllAux_le (s1 s2 : List Char) (h1 : s1 ≠ [])
    (hlen : s2.length ≤ s1.length) :
    ∀ (n : Nat) (l : List Char), l.length ≤ n →
      (TStr.replaceAllAux s1 s2 0 l).length ≤ l.length := by
  intro n
  induction n with
  | zero =>
    intro l hl
    have : l = [] := List.length_eq_zero.mp (by omega)
    subst this
    simp [TStr.replaceAllAux]
  | succ n ih =>
    intro l hl
    cases l with
    | nil => simp [TStr.replaceAllAux]
    | cons c cs =>
      rw [replaceAllAux_cons s1 s2 c cs h1]
      by_cases hs : TStr.startsWith s1 (c :: cs) = true
      · rw [if_pos hs]
        have hsplit := congrArg List.length (startsWith_eq_append s1 (c :: cs) hs)
        have hpos := List.length_pos.mpr h1
        have hd : ((c :: cs).drop s1.length).length ≤ n := by
          simp only [List.length_drop, List.length_cons] at hl ⊢
          omega
        have := ih _ hd
        simp only [List.length_append] at hsplit ⊢
        omega
      · rw [if_neg hs]
        have := ih cs (by simpa using hl)
        simp only [List.length_cons]
        omega

theorem length_replaceAllAux_lt (s1 s2 : List Char) (h1 : s1 ≠ [])
    (hlen : s2.length < s1.length) :
    ∀ (l : List Char) (k : Nat), TStr.indexFrom s1 l k > -1 →
      (TStr.replaceAllAux s1 s2 0 l).length < l.length := by
  intro l
  induction l with
  | nil => intro k h; simp [TStr.indexFrom, TStr.kNPOS] at h
  | cons c cs ih =>
    intro k h
    rw [replaceAllAux_cons s1 s2 c cs h1]
    by_cases hs : TStr.startsWith s1 (c :: cs) = true
    · rw [if_pos hs]
      have hsplit := congrArg List.length (startsWith_eq_append s1 (c :: cs) hs)
      have := length_replaceAllAux_le s1 s2 h1 (by omega) _ ((c :: cs).drop s1.length)
        (le_refl _)
      simp only [List.length_append] at hsplit ⊢
      omega
    · rw [if_neg hs]
      rw [TStr.indexFrom, if_neg hs] at h
      have := ih (k + 1) h
      simp only [List.length_cons]
      omega

/-- The loop `while(s.Index(s1)>-1) s.ReplaceAll(s1,s2);` ends within `s.length`
passes when `s2` is shorter than `s1`, and keeps the characters selected by `p`. -/
theorem replaceWhile_some (s1 s2 : List Char) (p : Char → Bool) (h1 : s1 ≠ [])
    (hlen : s2.length < s1.length) (hp : s1.filter p = s2.filter p) :
    ∀ (fuel : Nat) (s : List Char), s.length ≤ fuel →
      ∃ s', TStr.replaceWhile s1 s2 fuel s = some s' ∧ s'.filter p = s.filter p := by
  intro fuel
  induction fuel with
  | zero =>
    intro s hs
    have : s = [] := List.length_eq_zero.mp (by omega)
    subst this
    exact ⟨[], rfl, rfl⟩
  | succ n ih =>
    intro s hs
    rw [TStr.replaceWhile]
    by_cases hi : TStr.Index s s1 > -1
    · rw [if_pos hi]
      have hlt : (TStr.ReplaceAll s s1 s2).length < s.length := by
        unfold TStr.ReplaceAll
        rw [if_neg (by simpa using h1)]
        exact length_replaceAllAux_lt s1 s2 h1 hlen s 0 hi
      obtain ⟨s', hs', hf⟩ := ih (TStr.ReplaceAll s s1 s2) (by omega)
      refine ⟨s', hs', ?_⟩
      rw [hf]
      unfold TStr.ReplaceAll
      rw [if_neg (by simpa using h1)]
      exact filter_replaceAllAux s1 s2 p h1 hp _ s (le_refl _)
    · rw [if_neg hi]
      exact ⟨s, rfl, rfl⟩

theorem filter_ReplaceAll (s s1 s2 : List Char) (p : Char → Bool)
    (hp : s1.filter p = s2.filter p) : (TStr.ReplaceAll s s1 s2).filter p = s.filter p := by
  unfold TStr.ReplaceAll
  by_cases h1 : s1 = []
  · simp [h1]
  · rw [if_neg (by simpa using h1)]
    exact filter_replaceAllAux s1 s2 p h1 hp _ s (le_refl _)

end Normalisation

section Unclosed

theorem indexFrom_single (c : Char) :
    ∀ (l : List Char) (k : Nat),
      (c ∈ l → (k : Int) ≤ TStr.indexFrom [c] l k) ∧ (c ∉ l → TStr.indexFrom [c] l k = -1)
  | [], k => ⟨fun h => by simp at h, fun _ => rfl⟩
  | x :: xs, k => by
    have ih := indexFrom_single c xs (k + 1)
    by_cases hx : c = x
    · subst hx
      have : TStr.startsWith [c] (c :: xs) = true := by simp [TStr.startsWith]
      simp [TStr.indexFrom, this]
    · have : ¬ TStr.startsWith [c] (x :: xs) = true := by simp [TStr.startsWith, hx]
      rw [TStr.indexFrom, if_neg this]
      constructor
      · intro h
        have hm : c ∈ xs := by
          rcases List.mem_cons.mp h with h | h
          · exact absurd h hx
          · exact h
        have := ih.1 hm
        push_cast at this
        omega
      · intro h
        exact ih.2 (fun hm => h (List.mem_cons_of_mem _ hm))

theorem Contains_single (c : Char) (l : List Char) :
    TStr.Contains l [c] = decide (c ∈ l) := by
  unfold TStr.Contains TStr.Index
  have h := indexFrom_single c l 0
  by_cases hm : c ∈ l
  · have := h.1 hm
    simp only [hm, decide_True, bne_iff_ne, ne_eq, TStr.kNPOS]
    push_cast at this
    omega
  · rw [h.2 hm]
    simp [hm, TStr.kNPOS]

theorem mem_takeWhile_filter (p : Char → Bool) (d x : Char) (hd : p d = true) (hx : p x = true) :
    ∀ l : List Char,
      x ∈ (l.filter p).takeWhile (fun c => c != d) ↔ x ∈ l.takeWhile (fun c => c != d)
  | [] => by simp
  | c :: cs => by
    have ih := mem_takeWhile_filter p d x hd hx cs
    by_cases hc : p c = true
    · rw [List.filter_cons_of_pos hc]
      by_cases hcd : c = d
      · have hb : ¬ (fun c => c != d) c = true := by simp [hcd]
        rw [List.takeWhile_cons_of_neg (p := fun c => c != d) hb,
          List.takeWhile_cons_of_neg (p := fun c => c != d) hb]
      · have hb : (fun c => c != d) c = true := by simp [hcd]
        rw [List.takeWhile_cons_of_pos (p := fun c => c != d) hb,
          List.takeWhile_cons_of_pos (p := fun c => c != d) hb, List.mem_cons, List.mem_cons, ih]
    · rw [List.filter_cons_of_neg hc]
      have hcd : c ≠ d := fun h => hc (h ▸ hd)
      have hxc : x ≠ c := fun h => hc (h ▸ hx)
      have hb : (fun c => c != d) c = true := by simp [hcd]
      rw [List.takeWhile_cons_of_pos (p := fun c => c != d) hb, List.mem_cons, ih]
      constructor
      · exact Or.inr
      · rintro (h | h)
        · exact absurd h hxc
        · exact h

theorem takeWhile_eq_of_length {α : Type} (p : α → Bool) :
    ∀ l : List α, (l.takeWhile p).length = l.length → l.takeWhile p = l
  | [], _ => rfl
  | c :: cs, h => by
    by_cases hc : p c = true
    · rw [List.takeWhile_cons_of_pos hc] at h ⊢
      rw [takeWhile_eq_of_length p cs (by simpa using h)]
    · rw [List.takeWhile_cons_of_neg hc] at h
      simp at h

/-- At position 0 of a text that does not begin with the delimiter, `Tokenize` returns
the text before the first delimiter. -/
theorem Tokenize_zero (s : List Char) (d : Char)
    (hne : s.takeWhile (fun c => c != d) ≠ []) :
    ∃ sz, TStr.Tokenize s 0 d = (true, s.takeWhile (fun c => c != d), sz) := by
  have hs : s ≠ [] := by
    intro h
    rw [h] at hne
    exact hne rfl
  have hpos : 0 < s.length := List.length_pos.mpr hs
  have hposb : 0 < (s.takeWhile (fun c => c != d)).length := List.length_pos.mpr hne
  unfold TStr.Tokenize
  rw [if_neg (by omega)]
  simp only [Int.toNat_zero, List.drop_zero]
  by_cases hl : (s.takeWhile (fun c => c != d)).length = s.length
  · rw [if_pos hl, takeWhile_eq_of_length _ s hl]
    cases s with
    | nil => exact absurd rfl hs
    | cons c cs => exact ⟨_, rfl⟩
  · rw [if_neg hl, if_pos (by omega)]
    exact ⟨_, rfl⟩

theorem ptBinBlock_unclosed (ts config : TString) (szend : Int)
    (h1 : '(' ∈ ts) (h2 : ')' ∉ ts) : ptBinBlock ts config szend = none := by
  unfold ptBinBlock
  have e1 : TStr.Contains ts "(".toList = true := by
    rw [show "(".toList = ['('] from rfl, Contains_single]
    simpa using h1
  have e2 : TStr.Contains ts ")".toList = false := by
    rw [show ")".toList = [')'] from rfl, Contains_single]
    simpa using h2
  rw [e1, e2]
  rfl

/-- A descriptor whose text before the first opening brace holds an opening
parenthesis and no closing one: `GetCorrelatorConfig` returns from inside its first
pass, with the clause it has just created. -/
theorem GetCorrelatorConfig_unclosed (fRegions : List Region) (d head : TString) (ptdif : Bool)
    (hopen : '(' ∈ d.takeWhile (fun c => c != '{'))
    (hclose : ')' ∉ d.takeWhile (fun c => c != '{')) :
    GetCorrelatorConfig fRegions d head ptdif =
      some { Regs := [[]], Hars := [[]], Overlap := [-1], ptInd := [],
             pTDif := emptyCorrConfig.pTDif, Head := emptyCorrConfig.Head } := by
  obtain ⟨c1, hc1, hf1⟩ := replaceWhile_some " (".toList "(".toList isMark (by decide)
    (by decide) (by decide) _
    (TStr.ReplaceAll (TStr.ReplaceAll (TStr.ReplaceAll d ",".toList " ".toList)
      ";".toList " ".toList) "| ".toList "|".toList) (le_refl _)
  obtain ⟨c2, hc2, hf2⟩ := replaceWhile_some "  ".toList " ".toList isMark (by decide)
    (by decide) (by decide) _ c1 (le_refl _)
  have hf : c2.filter isMark = d.filter isMark := by
    rw [hf2, hf1, filter_ReplaceAll _ _ _ _ (by decide), filter_ReplaceAll _ _ _ _ (by decide),
      filter_ReplaceAll _ _ _ _ (by decide)]
  have hopen2 : '(' ∈ c2.takeWhile (fun c => c != '{') := by
    rw [← mem_takeWhile_filter isMark '{' '(' rfl rfl, hf,
      mem_takeWhile_filter isMark '{' '(' rfl rfl]
    exact hopen
  have hclose2 : ')' ∉ c2.takeWhile (fun c => c != '{') := by
    rw [← mem_takeWhile_filter isMark '{' ')' rfl rfl, hf,
      mem_takeWhile_filter isMark '{' ')' rfl rfl]
    exact hclose
  obtain ⟨sz, hT⟩ := Tokenize_zero c2 '{' (List.ne_nil_of_mem hopen2)
  rw [GetCorrelatorConfig_eq fRegions d head ptdif c1 c2 _ sz hc1 hc2 hT,
    clauseLoop_return fRegions _ c2 0 emptyCorrConfig _ sz hT
      (ptBinBlock_unclosed _ _ _ hopen2 hclose2)]
  rfl

end Unclosed

section PlainClause

/-! ## A clause written with plain tokens -/

theorem indexFrom_none_of_not_mem (s1 : List Char) (c : Char) (hc : c ∈ s1) :
    ∀ (l : List Char) (k : Nat), c ∉ l → TStr.indexFrom s1 l k = -1
  | [], _, _ => rfl
  | x :: xs, k, hl => by
    have hs : ¬ TStr.startsWith s1 (x :: xs) = true := by
      intro h
      have := startsWith_eq_append s1 (x :: xs) h
      exact hl (by rw [this]; exact List.mem_append_left _ hc)
    rw [TStr.indexFrom, if_neg hs]
    exact indexFrom_none_of_not_mem s1 c hc xs (k + 1) (fun h => hl (List.mem_cons_of_mem _ h))

theorem replaceAllAux_id (s1 s2 : List Char) (h1 : s1 ≠ []) :
    ∀ (l : List Char) (k : Nat), TStr.indexFrom s1 l k = -1 →
      TStr.replaceAllAux s1 s2 0 l = l
  | [], _, _ => rfl
  | x :: xs, k, h => by
    rw [TStr.indexFrom] at h
    by_cases hs : TStr.startsWith s1 (x :: xs) = true
    · rw [if_pos hs] at h
      omega
    · rw [if_neg hs] at h
      rw [replaceAllAux_cons s1 s2 x xs h1, if_neg hs, replaceAllAux_id s1 s2 h1 xs (k + 1) h]

theorem ReplaceAll_id (s s1 s2 : List Char) (h : TStr.Index s s1 = -1) :
    TStr.ReplaceAll s s1 s2 = s := by
  unfold TStr.ReplaceAll
  by_cases h1 : s1 = []
  · simp [h1]
  · rw [if_neg (by simpa using h1)]
    exact replaceAllAux_id s1 s2 h1 s 0 h

theorem replaceWhile_id (s s1 s2 : List Char) (fuel : Nat) (h : TStr.Index s s1 = -1) :
    TStr.replaceWhile s1 s2 fuel s = some s := by
  cases fuel with
  | zero => rw [TStr.replaceWhile, if_neg (by omega)]
  | succ n => rw [TStr.replaceWhile, if_neg (by omega)]

theorem mem_tokenText (c : Char) :
    ∀ items : List (TString × Nat), c ∈ tokenText items → c = ' ' ∨ ∃ it ∈ items, c ∈ it.1
  | [], h => by simp [tokenText] at h
  | (t, n) :: rest, h => by
    simp only [tokenText, List.mem_append, List.mem_replicate] at h
    rcases h with (h | h) | h
    · exact Or.inr ⟨(t, n), by simp, h⟩
    · exact Or.inl h.2
    · rcases mem_tokenText c rest h with h' | ⟨it, hit, hc⟩
      · exact Or.inl h'
      · exact Or.inr ⟨it, List.mem_cons_of_mem _ hit, hc⟩

theorem not_mem_tokenText (c : Char) (items : List (TString × Nat)) (hc : c ≠ ' ')
    (h : ∀ it ∈ items, c ∉ it.1) : c ∉ tokenText items := by
  intro hm
  rcases mem_tokenText c items hm with h' | ⟨it, hit, hc'⟩
  · exact hc h'
  · exact h it hit hc'

theorem indexFrom_double_skip (t r : List Char) (ht : ' ' ∉ t) :
    ∀ k : Nat, TStr.indexFrom "  ".toList r (k + t.length) = -1 →
      TStr.indexFrom "  ".toList (t ++ r) k = -1 := by
  induction t with
  | nil => intro k h; simpa using h
  | cons x xs ih =>
    intro k h
    have hx : x ≠ ' ' := fun e => ht (by simp [e])
    have hs : ¬ TStr.startsWith "  ".toList (x :: (xs ++ r)) = true := by
      simp [TStr.startsWith, Ne.symm hx]
    rw [List.cons_append, TStr.indexFrom, if_neg hs]
    apply ih (fun e => ht (List.mem_cons_of_mem _ e))
    rw [show k + 1 + xs.length = k + (x :: xs).length by simp; omega]
    exact h

/-- A text of tokens separated by single blanks holds no two blanks in a row. -/
theorem indexFrom_double_tokenText (r : List Char) (hr : r.head? ≠ some ' ')
    (hri : ∀ k, TStr.indexFrom "  ".toList r k = -1) :
    ∀ (items : List (TString × Nat)), TokensOK items → (∀ it ∈ items, it.2 ≤ 1) →
      ∀ k, TStr.indexFrom "  ".toList (tokenText items ++ r) k = -1 := by
  intro items
  induction items with
  | nil => intro _ _ k; simpa [tokenText] using hri k
  | cons it rest ih =>
    obtain ⟨t, n⟩ := it
    intro hok hgap k
    obtain ⟨hne, hsp, hn, hrest⟩ := hok
    have hgap' : ∀ it ∈ rest, it.2 ≤ 1 := fun it hit => hgap it (List.mem_cons_of_mem _ hit)
    have hn1 : n ≤ 1 := hgap (t, n) (by simp)
    have hhead : (tokenText rest ++ r).head? ≠ some ' ' := by
      cases rest with
      | nil => simpa [tokenText] using hr
      | cons it2 rest2 =>
        obtain ⟨t2, n2⟩ := it2
        obtain ⟨hne2, hsp2, _, _⟩ := hrest
        cases t2 with
        | nil => exact absurd rfl hne2
        | cons x xs =>
          simp only [tokenText, List.cons_append, List.head?_cons, ne_eq, Option.some.injEq]
          intro h
          exact hsp2 (by simp [h])
    rw [show tokenText ((t, n) :: rest) ++ r = t ++ (List.replicate n ' ' ++ (tokenText rest ++ r))
      by simp [tokenText, List.append_assoc]]
    apply indexFrom_double_skip t _ hsp
    rcases Nat.le_one_iff_eq_zero_or_eq_one.mp hn1 with h0 | h1
    · subst h0
      simpa using ih hrest hgap' _
    · subst h1
      have hs : ¬ TStr.startsWith "  ".toList (' ' :: (tokenText rest ++ r)) = true := by
        cases hq : tokenText rest ++ r with
        | nil => simp [TStr.startsWith]
        | cons y ys =>
          rw [hq] at hhead
          have hy : y ≠ ' ' := fun e => hhead (by simp [e])
          simp [TStr.startsWith, Ne.symm hy]
      rw [show List.replicate 1 ' ' ++ (tokenText rest ++ r) = ' ' :: (tokenText rest ++ r)
        from rfl, TStr.indexFrom, if_neg hs]
      exact ih hrest hgap' _

theorem pushToLast_append (ls : List (List Int)) (l : List Int) (x : Int) :
    pushToLast (ls ++ [l]) x = ls ++ [l ++ [x]] := by
  simp [pushToLast]

theorem foldl_pushToLast (ls : List (List Int)) (l : List Int) :
    ∀ xs : List Int, xs.foldl pushToLast (ls ++ [l]) = ls ++ [l ++ xs]
  | [] => by simp
  | x :: xs => by
    rw [List.foldl_cons, pushToLast_append, foldl_pushToLast ls (l ++ [x]) xs]
    simp

theorem regionLoop_none (fRegions : List Region) (ts : TString) (szend : Int) (n : Nat)
    (sz1 : Int) (rc : CorrConfig) (h : (TStr.Tokenize ts sz1 ' ').1 = false) :
    regionLoop fRegions ts szend (n + 1) sz1 rc = some rc := by
  rcases hT : TStr.Tokenize ts sz1 ' ' with ⟨b, tok, s⟩
  rw [hT] at h
  simp only at h
  subst h
  exact regionLoop_end fRegions ts szend n sz1 rc tok s hT

theorem clauseLoop_none (fRegions : List Region) (n : Nat) (config : TString) (szend : Int)
    (rc : CorrConfig) (h : (TStr.Tokenize config szend '{').1 = false) :
    clauseLoop fRegions (n + 1) config szend rc = some (false, rc) := by
  rcases hT : TStr.Tokenize config szend '{' with ⟨b, tok, s⟩
  rw [hT] at h
  simp only at h
  subst h
  exact clauseLoop_stop fRegions n config szend rc tok s hT

theorem EqualTo_blank_false (t : List Char) (hne : t ≠ []) (hsp : ' ' ∉ t) :
    (TStr.EqualTo t " ".toList || TStr.EqualTo t "".toList) = false := by
  have h1 : t ≠ [' '] := fun h => hsp (by rw [h]; simp)
  simp only [TStr.EqualTo, Bool.or_eq_false_iff, beq_eq_false_iff_ne, ne_eq]
  exact ⟨h1, hne⟩

/-- The region scan on a text of plain tokens keeps the names up to the first one
that is not registered. -/
theorem regionLoop_tokens (fRegions : List Region) (szend : Int) :
    ∀ (items : List (TString × Nat)), TokensOK items → (∀ it ∈ items, '|' ∉ it.1) →
      ∀ (pre : TString) (rc : CorrConfig) (fuel : Nat), items.length + 1 ≤ fuel →
        ((pre ++ tokenText items).length : Int) < szend →
        regionLoop fRegions (pre ++ tokenText items) szend fuel (pre.length : Int) rc =
          some { Regs := (takeRegistered fRegions (items.map Prod.fst)).foldl pushToLast rc.Regs,
                 Hars := rc.Hars, Overlap := rc.Overlap, ptInd := rc.ptInd,
                 pTDif := rc.pTDif, Head := rc.Head } := by
  intro items
  induction items with
  | nil =>
    intro _ _ pre rc fuel hf _
    obtain ⟨f, rfl⟩ : ∃ f, fuel = f + 1 := ⟨fuel - 1, by omega⟩
    rw [regionLoop_none _ _ _ _ _ _ (Tokenize_none _ _ _ (Or.inl (by simp [tokenText])))]
    rfl
  | cons it rest ih =>
    obtain ⟨t, n⟩ := it
    intro hok hbar pre rc fuel hf hsz
    obtain ⟨hne, hsp, hn, hrest⟩ := hok
    obtain ⟨f, rfl⟩ : ∃ f, fuel = f + 1 := ⟨fuel - 1, by omega⟩
    have hf' : rest.length + 1 ≤ f := by simpa using hf
    have hbt : TStr.Contains t "|".toList = false := by
      rw [show "|".toList = ['|'] from rfl, Contains_single]
      simpa using hbar (t, n) (by simp)
    have hbl := EqualTo_blank_false t hne hsp
    have hbar' : ∀ it ∈ rest, '|' ∉ it.1 := fun it hit => hbar it (List.mem_cons_of_mem _ hit)
    by_cases hn0 : n = 0
    · have hnil : rest = [] := by
        by_contra hc
        have := hn hc
        omega
      subst hnil
      subst hn0
      have htext : pre ++ tokenText [(t, 0)] = pre ++ t := by simp [tokenText]
      rw [htext] at hsz ⊢
      have hT := Tokenize_last pre t ' ' hsp hne
      have hlt : TStr.kNPOS < szend := by
        have : (0 : Int) ≤ ((pre ++ t).length : Int) := Int.ofNat_nonneg _
        simp only [TStr.kNPOS]
        omega
      by_cases hfind : FindRegionByName fRegions t < 0
      · rw [regionLoop_unknown fRegions _ _ _ _ _ t _ hT hlt hbt hbl hfind]
        simp [takeRegistered, hfind]
      · obtain ⟨g, rfl⟩ : ∃ g, f = g + 1 := ⟨f - 1, by omega⟩
        rw [regionLoop_region fRegions _ _ _ _ _ t _ _ hT hlt hbt hbl rfl (by omega),
          regionLoop_none _ _ _ _ _ _ (Tokenize_none _ _ _ (Or.inr (by decide)))]
        simp [takeRegistered, hfind]
    · have htext : pre ++ tokenText ((t, n) :: rest) =
          pre ++ t ++ List.replicate n ' ' ++ tokenText rest := by
        simp [tokenText, List.append_assoc]
      have hhead : (tokenText rest).head? ≠ some ' ' :=
        tokenText_head rest hrest ' ' (TokensOK_no_blank rest hrest)
      have hT := Tokenize_token pre t (tokenText rest) ' ' n hsp (by omega) hhead
      have hpre : ((pre.length + t.length + n : Nat) : Int) =
          ((pre ++ t ++ List.replicate n ' ').length : Int) := by
        simp only [List.length_append, List.length_replicate]
      rw [htext] at hsz ⊢
      have hlt : ((pre.length + t.length + n : Nat) : Int) < szend := by
        simp only [List.length_append, List.length_replicate] at hsz
        push_cast at hsz ⊢
        omega
      by_cases hfind : FindRegionByName fRegions t < 0
      · rw [regionLoop_unknown fRegions _ _ _ _ _ t _ hT hlt hbt hbl hfind]
        simp [takeRegistered, hfind]
      · rw [regionLoop_region fRegions _ _ _ _ _ t _ _ hT hlt hbt hbl rfl (by omega), hpre,
          ih hrest hbar' (pre ++ t ++ List.replicate n ' ') _ f hf' hsz]
        simp [takeRegistered, hfind]

theorem harmonicLoop_succ (harstr : TString) (n : Nat) (dummys : Int) (rc : CorrConfig) :
    harmonicLoop harstr (n + 1) dummys rc =
      match TStr.Tokenize harstr dummys ' ' with
      | (false, _, _) => some rc
      | (true, ts, dummys) =>
        harmonicLoop harstr n dummys
          { Regs := rc.Regs, Hars := pushToLast rc.Hars (TStr.Atoi ts), Overlap := rc.Overlap,
            ptInd := rc.ptInd, pTDif := rc.pTDif, Head := rc.Head } := by
  rfl

theorem harmonicLoop_none (harstr : TString) (n : Nat) (dummys : Int) (rc : CorrConfig)
    (h : (TStr.Tokenize harstr dummys ' ').1 = false) :
    harmonicLoop harstr (n + 1) dummys rc = some rc := by
  rw [harmonicLoop_succ]
  rcases hT : TStr.Tokenize harstr dummys ' ' with ⟨b, tok, s⟩
  rw [hT] at h
  simp only at h
  subst h
  rfl

theorem harmonicLoop_next (harstr : TString) (n : Nat) (dummys : Int) (rc : CorrConfig)
    (tok : TString) (d' : Int) (h : TStr.Tokenize harstr dummys ' ' = (true, tok, d')) :
    harmonicLoop harstr (n + 1) dummys rc =
      harmonicLoop harstr n d'
        { Regs := rc.Regs, Hars := pushToLast rc.Hars (TStr.Atoi tok), Overlap := rc.Overlap,
          ptInd := rc.ptInd, pTDif := rc.pTDif, Head := rc.Head } := by
  rw [harmonicLoop_succ, h]

/-- The harmonic scan on a text of tokens reads every token with `Atoi`. -/
theorem harmonicLoop_tokens :
    ∀ (items : List (TString × Nat)), TokensOK items →
      ∀ (pre : TString) (rc : CorrConfig) (fuel : Nat), items.length + 1 ≤ fuel →
        harmonicLoop (pre ++ tokenText items) fuel (pre.length : Int) rc =
          some { Regs := rc.Regs,
                 Hars := (items.map (fun it => TStr.Atoi it.1)).foldl pushToLast rc.Hars,
                 Overlap := rc.Overlap, ptInd := rc.ptInd, pTDif := rc.pTDif,
                 Head := rc.Head } := by
  intro items
  induction items with
  | nil =>
    intro _ pre rc fuel hf
    obtain ⟨f, rfl⟩ : ∃ f, fuel = f + 1 := ⟨fuel - 1, by omega⟩
    rw [harmonicLoop_none _ _ _ _ (Tokenize_none _ _ _ (Or.inl (by simp [tokenText])))]
    rfl
  | cons it rest ih =>
    obtain ⟨t, n⟩ := it
    intro hok pre rc fuel hf
    obtain ⟨hne, hsp, hn, hrest⟩ := hok
    obtain ⟨f, rfl⟩ : ∃ f, fuel = f + 1 := ⟨fuel - 1, by omega⟩
    have hf' : rest.length + 1 ≤ f := by simpa using hf
    by_cases hn0 : n = 0
    · have hnil : rest = [] := by
        by_contra hc
        have := hn hc
        omega
      subst hnil
      subst hn0
      obtain ⟨g, rfl⟩ : ∃ g, f = g + 1 := ⟨f - 1, by omega⟩
      have htext : pre ++ tokenText [(t, 0)] = pre ++ t := by simp [tokenText]
      rw [htext, harmonicLoop_next _ _ _ _ t TStr.kNPOS (Tokenize_last pre t ' ' hsp hne),
        harmonicLoop_none _ _ _ _ (Tokenize_none _ _ _ (Or.inr (by decide)))]
      rfl
    · have htext : pre ++ tokenText ((t, n) :: rest) =
          pre ++ t ++ List.replicate n ' ' ++ tokenText rest := by
        simp [tokenText, List.append_assoc]
      have hhead : (tokenText rest).head? ≠ some ' ' :=
        tokenText_head rest hrest ' ' (TokensOK_no_blank rest hrest)
      have hpre : ((pre.length + t.length + n : Nat) : Int) =
          ((pre ++ t ++ List.replicate n ' ').length : Int) := by
        simp only [List.length_append, List.length_replicate]
      rw [htext, harmonicLoop_next _ _ _ _ t _
        (Tokenize_token pre t (tokenText rest) ' ' n hsp (by omega) hhead), hpre,
        ih hrest (pre ++ t ++ List.replicate n ' ') _ f hf']
      rfl

theorem PlainTokens_not_mem (items : List (TString × Nat)) (h : PlainTokens items) (c : Char)
    (hc : isReserved c = true) : c ∉ tokenText items := by
  apply not_mem_tokenText c items
  · intro e
    rw [e] at hc
    exact absurd hc (by decide)
  · intro it hit hm
    have := h.2.2 it hit c hm
    rw [hc] at this
    exact absurd this (by decide)

theorem head?_append_ne (l r : List Char) (c : Char) (hl : c ∉ l) (hr : r.head? ≠ some c) :
    (l ++ r).head? ≠ some c := by
  cases l with
  | nil => simpa using hr
  | cons x xs =>
    simp only [List.cons_append, List.head?_cons, ne_eq, Option.some.injEq]
    intro e
    exact hl (by simp [e])

/-- A descriptor of one clause written with plain tokens.  The request has one clause:
its regions are the registered names up to the first one that is not registered, its
harmonics are all the tokens between the braces. -/
theorem GetCorrelatorConfig_plain (fRegions : List Region) (R H : List (TString × Nat))
    (head : TString) (ptdif : Bool) (hR : PlainTokens R) (hH : PlainTokens H) :
    GetCorrelatorConfig fRegions (plainClause R H) head ptdif =
      some { Regs := [takeRegistered fRegions (R.map Prod.fst)],
             Hars := [H.map (fun it => TStr.Atoi it.1)],
             Overlap := [-1], ptInd := [-1], pTDif := ptdif, Head := head } := by
  have hmem : ∀ c, isReserved c = true → c ≠ '{' → c ≠ '}' → c ∉ plainClause R H := by
    intro c hc h1 h2 hm
    simp only [plainClause, List.mem_append, List.mem_cons, List.mem_singleton,
      List.not_mem_nil, or_false] at hm
    rcases hm with hm | hm | hm | hm
    · exact PlainTokens_not_mem R hR c hc hm
    · exact h1 hm
    · exact PlainTokens_not_mem H hH c hc hm
    · exact h2 hm
  have hcomma : TStr.Index (plainClause R H) ",".toList = -1 :=
    indexFrom_none_of_not_mem _ ',' (by decide) _ 0 (hmem _ rfl (by decide) (by decide))
  have hsemi : TStr.Index (plainClause R H) ";".toList = -1 :=
    indexFrom_none_of_not_mem _ ';' (by decide) _ 0 (hmem _ rfl (by decide) (by decide))
  have hbar : TStr.Index (plainClause R H) "| ".toList = -1 :=
    indexFrom_none_of_not_mem _ '|' (by decide) _ 0 (hmem _ rfl (by decide) (by decide))
  have hpar : TStr.Index (plainClause R H) " (".toList = -1 :=
    indexFrom_none_of_not_mem _ '(' (by decide) _ 0 (hmem _ rfl (by decide) (by decide))
  have hclose : ∀ k, TStr.indexFrom "  ".toList ['}'] k = -1 := fun k =>
    indexFrom_none_of_not_mem _ ' ' (by decide) _ k (by decide)
  have hH2 : ∀ k, TStr.indexFrom "  ".toList (tokenText H ++ ['}']) k = -1 :=
    indexFrom_double_tokenText ['}'] (by decide) hclose H hH.1 hH.2.1
  have hbrace : ∀ k, TStr.indexFrom "  ".toList ('{' :: (tokenText H ++ ['}'])) k = -1 :=
    fun k => indexFrom_double_skip ['{'] _ (by decide) k (hH2 _)
  have hdbl : TStr.Index (plainClause R H) "  ".toList = -1 :=
    indexFrom_double_tokenText _ (by simp) hbrace R hR.1 hR.2.1 0
  have hRopen : '{' ∉ tokenText R := PlainTokens_not_mem R hR _ rfl
  have hHopen : '{' ∉ tokenText H := PlainTokens_not_mem H hH _ rfl
  have hHclose : '}' ∉ tokenText H := PlainTokens_not_mem H hH _ rfl
  have hRpar : '(' ∉ tokenText R := PlainTokens_not_mem R hR _ rfl
  have hT : TStr.Tokenize (plainClause R H) 0 '{' =
      (true, tokenText R, (((tokenText R).length + 1 : Nat) : Int)) := by
    have := Tokenize_token [] (tokenText R) (tokenText H ++ ['}']) '{' 1 hRopen (le_refl 1)
      (head?_append_ne _ _ _ hHopen (by decide))
    simpa [plainClause] using this
  have hlen : (plainClause R H).length = (tokenText R).length + 1 + (tokenText H).length + 1 := by
    simp [plainClause]
    omega
  have hT2 : TStr.Tokenize (plainClause R H) (((tokenText R).length + 1 : Nat) : Int) '}' =
      (true, tokenText H, ((plainClause R H).length : Int)) := by
    have := Tokenize_token (tokenText R ++ ['{']) (tokenText H) [] '}' 1 hHclose (le_refl 1)
      (by simp)
    rw [hlen]
    simpa [plainClause] using this
  have hpt : ptBinBlock (tokenText R) (plainClause R H) (((tokenText R).length + 1 : Nat) : Int) =
      some (-1, tokenText R, plainClause R H, (((tokenText R).length + 1 : Nat) : Int)) := by
    unfold ptBinBlock
    rw [show "(".toList = ['('] from rfl, Contains_single]
    simp [hRpar]
  have hRbar : ∀ it ∈ R, '|' ∉ it.1 := by
    intro it hit hm
    have := hR.2.2 it hit _ hm
    exact absurd this (by decide)
  have hreg := regionLoop_tokens fRegions (((tokenText R).length + 1 : Nat) : Int) R hR.1 hRbar []
    { Regs := emptyCorrConfig.Regs ++ [[]], Hars := emptyCorrConfig.Hars ++ [[]],
      Overlap := emptyCorrConfig.Overlap ++ [-1], ptInd := emptyCorrConfig.ptInd ++ [-1],
      pTDif := emptyCorrConfig.pTDif, Head := emptyCorrConfig.Head }
    ((tokenText R).length + 1) (by have := length_tokenText_ge R hR.1; omega)
    (by simp only [List.nil_append]; push_cast; omega)
  simp only [List.nil_append, List.length_nil, Nat.cast_zero] at hreg
  have hhar := harmonicLoop_tokens H hH.1 []
    { Regs := (takeRegistered fRegions (R.map Prod.fst)).foldl pushToLast
        (emptyCorrConfig.Regs ++ [[]]),
      Hars := emptyCorrConfig.Hars ++ [[]],
      Overlap := emptyCorrConfig.Overlap ++ [-1], ptInd := emptyCorrConfig.ptInd ++ [-1],
      pTDif := emptyCorrConfig.pTDif, Head := emptyCorrConfig.Head }
    ((tokenText H).length + 1) (by have := length_tokenText_ge H hH.1; omega)
  simp only [List.nil_append, List.length_nil, Nat.cast_zero] at hhar
  obtain ⟨m, hm⟩ : ∃ m, (plainClause R H).length = m + 1 := ⟨_, hlen⟩
  rw [GetCorrelatorConfig_eq fRegions _ head ptdif (plainClause R H) (plainClause R H) _ _
      (by rw [ReplaceAll_id _ _ _ hcomma, ReplaceAll_id _ _ _ hsemi, ReplaceAll_id _ _ _ hbar]
          exact replaceWhile_id _ _ _ _ hpar)
      (replaceWhile_id _ _ _ _ hdbl) hT,
    clauseLoop_step fRegions _ _ 0 emptyCorrConfig _ _ _ _ _ _ _ _ _ _ _ hT hpt hreg hT2 hhar,
    hm, clauseLoop_none fRegions m _ _ _ (Tokenize_none _ _ _ (Or.inl (by rw [hm])))]
  simp only [emptyCorrConfig, List.nil_append]
  have h1 := foldl_pushToLast [] [] (takeRegistered fRegions (R.map Prod.fst))
  have h2 := foldl_pushToLast [] [] (H.map (fun it => TStr.Atoi it.1))
  simp only [List.nil_append] at h1 h2
  rw [h1, h2]

end PlainClause

section ClaimsCorrelator

variable {K : Type} [CommRing K]

theorem zip_replicate_one (hars : List Int) :
    List.zip hars (List.replicate hars.length (1 : Int)) = hars.map (fun h => (h, (1 : Int))) := by
  induction hars with
  | nil => rfl
  | cons x xs ih => simp [List.replicate_succ, ih]

theorem distinctSum_univ_eq_bruteForce {M : Nat} (c : Fin M → Int → Int → K) (hars : List Int) :
    distinctSum c Finset.univ (hars.map (fun h => (h, (1 : Int)))) = bruteForce c hars := by
  rw [distinctSum_eq_sum_injective, bruteForce]
  refine Finset.sum_congr ?_ (fun _ _ => rfl)
  ext f
  simp

theorem signC_mul {M : Nat} (k : Fin M) (n n' p p' : Int) :
    signC k (n + n') (p + p') = signC k n p * signC k n' p' := by
  unfold signC
  have h1 : (n + p) % 2 = 0 ∨ (n + p) % 2 = 1 := by omega
  have h2 : (n' + p') % 2 = 0 ∨ (n' + p') % 2 = 1 := by omega
  rcases h1 with h1 | h1 <;> rcases h2 with h2 | h2 <;>
    by_cases hk : k.val = 0 <;>
    simp [h1, h2, hk, show (n + n' + (p + p')) % 2 = ((n + p) % 2 + (n' + p') % 2) % 2 by omega]

/-- C1. With one store holding, at pT bin 0, the sums of multiplicative one-particle
factors, `RecursiveCorr` on unit powers with poi = ref = overlap returns, for every
non-empty harmonic list, the brute-force sum over tuples of pairwise distinct
particles, and hands the list back unchanged; the degenerate lists are included. -/
theorem RecursiveCorr_bruteForce {M : Nat} (c : Fin M → Int → Int → K)
    (hmul : ∀ k n n' p p', c k (n + n') (p + p') = c k n p * c k n' p')
    (q : AliGFWCumulant K) (hq : ∀ n p, q.Vec n p 0 = ∑ k, c k n p)
    (hars : List Int) (hne : hars ≠ []) :
    (∀ fuel, hars.length ≤ fuel →
      RecursiveCorr fuel q q (some q) 0 hars (List.replicate hars.length 1) =
        .ok (bruteForce c hars, hars, List.replicate hars.length 1)) ∧
    RecursiveCorrUnit q q (some q) 0 hars = .ok (bruteForce c hars, hars) := by
  have h0 : 0 < hars.length := List.length_pos.mpr hne
  have key : ∀ fuel, hars.length ≤ fuel →
      RecursiveCorr fuel q q (some q) 0 hars (List.replicate hars.length 1) =
        .ok (bruteForce c hars, hars, List.replicate hars.length 1) := by
    intro fuel hf
    rw [RecursiveCorr_eq q (some q) 0 fuel q hars _ (by simp) h0 hf,
      corrVal_eq_distinctSum c hmul Finset.univ q hq fuel hars _ (by simp) h0 hf,
      zip_replicate_one, distinctSum_univ_eq_bruteForce]
  refine ⟨key, ?_⟩
  unfold RecursiveCorrUnit
  simp only [bind, Except.bind, pure, Except.pure]
  rw [key _ (Nat.le_succ _)]

/-- Four particles, harmonics {2,2,-2,-2}: the recursion returns -24, which is the
brute-force sum over the 24 orderings of the four particles. -/
theorem RecursiveCorr_bruteForce_witness :
    RecursiveCorrUnit (signStore 4) (signStore 4) (some (signStore 4)) 0 [2, 2, -2, -2] =
        .ok (-24, [2, 2, -2, -2]) ∧
      bruteForce (signC : Fin 4 → Int → Int → Int) [2, 2, -2, -2] = -24 := by
  have h := (RecursiveCorr_bruteForce (signC : Fin 4 → Int → Int → Int) signC_mul (signStore 4)
    (by
      intro n p
      simp only [signStore, signC, Fin.sum_univ_four]
      by_cases h : (n + p) % 2 = 0 <;> simp only [h, if_true, if_false] <;> rfl)
    [2, 2, -2, -2] (by simp)).2
  have e : RecursiveCorrUnit (signStore 4) (signStore 4) (some (signStore 4)) 0 [2, 2, -2, -2] =
      .ok (-24, [2, 2, -2, -2]) := rfl
  refine ⟨e, ?_⟩
  rw [e] at h
  simp only [Except.ok.injEq, Prod.mk.injEq] at h
  exact h.1.symm

/-- A list on which the degeneracy branch fires (entries 2 and 3 of the shortened
list are equal): five particles, harmonics {1,1,2,2,3}. -/
theorem RecursiveCorr_degenerate_example :
    RecursiveCorrUnit (signStore 5) (signStore 5) (some (signStore 5)) 0 [1, 1, 2, 2, 3] =
      .ok (24, [1, 1, 2, 2, 3]) := by
  rfl

/-- C9. On two harmonics `RecursiveCorr` is `TwoRec`: without an overlap store it is
`poi.Vec(h1,p1)*ref.Vec(h2,p2)`; with one it is `q.Vec(h1,p1)*ref.Vec(h2,p2) -
ovl.Vec(h1+h2,p1+p2)`, where `q` is `poi` when `p1 = 1` and `ovl` otherwise.  All
vectors are read at the given pT bin and the lists are handed back unchanged. -/
theorem RecursiveCorr_two (fuel : Nat) (poi ref : AliGFWCumulant K) (ptbin h1 h2 p1 p2 : Int) :
    RecursiveCorr (fuel + 1) poi ref none ptbin [h1, h2] [p1, p2] =
        .ok (poi.Vec h1 p1 ptbin * ref.Vec h2 p2 ptbin, [h1, h2], [p1, p2]) ∧
      ∀ ovl : AliGFWCumulant K,
        RecursiveCorr (fuel + 1) poi ref (some ovl) ptbin [h1, h2] [p1, p2] =
          .ok ((if p1 = 1 then poi else ovl).Vec h1 p1 ptbin * ref.Vec h2 p2 ptbin -
            ovl.Vec (h1 + h2) (p1 + p2) ptbin, [h1, h2], [p1, p2]) := by
  constructor
  · rw [RecursiveCorr_succ]
    simp [atN, TwoRec, Except.bind]
  · intro ovl
    rw [RecursiveCorr_succ]
    by_cases hp : p1 = 1 <;> simp [atN, TwoRec, Except.bind, hp]

end ClaimsCorrelator

section ClaimsCalculate

variable {K : Type} [CommRing K]

theorem Calculate_zero_of_none (fCumulants : List (AliGFWCumulant K)) (corconf : CorrConfig)
    (ptbin : Int) (z d : Bool) (hv : ValidRequest fCumulants.length corconf)
    (j : Nat) (hj : j < corconf.Regs.length)
    (hnone : CalculateClause fCumulants corconf ptbin z d j = .ok none) :
    Calculate fCumulants corconf ptbin z d = .ok 0 := by
  rw [Calculate_eq_prod _ _ _ _ _ (by omega)
    (fun i hi => CalculateClause_ok _ _ _ _ _ hv i hi)]
  congr 1
  apply List.prod_eq_zero
  rw [List.mem_map]
  exact ⟨j, List.mem_range.mpr hj, by rw [hnone]; rfl⟩

theorem lt_length_of_getElem? {α : Type} (l : List α) (i : Nat) (x : α) (h : l[i]? = some x) :
    i < l.length := by
  by_contra hc
  rw [List.getElem?_eq_none (by omega)] at h
  cases h

theorem validRequest_twoClause : ValidRequest 2 twoClauseRequest := by
  decide

/-- C5, the claim as stated fails.  One clause on region 0 with region 0 also given as
explicit overlap, overlap disabled: `Calculate` runs the correlator without an overlap
store (16), whereas the specified resolution falls back to the reference store because
poi = ref and would subtract the overlap term (12). -/
theorem Calculate_overlap_counterexample :
    Calculate [signStore 4] selfOverlapRequest 0 false true = .ok 16 ∧
      RecursiveCorrUnit (signStore 4) (signStore 4)
        (overlapAsSpecified [signStore 4] 0 true 0 0 (signStore 4)) 0 [1, 1] = .ok (12, [1, 1]) :=
  ⟨rfl, rfl⟩

/-- C5, amended.  For a one-clause request with valid store indices and a non-empty
harmonic list `H` whose guards pass, `Calculate` returns the value of `RecursiveCorr`
with unit powers on: the pT-bin override if it is >= 0, else the default bin; the store
of the first region as poi; the store of the second region (or of the first, when
there is one only) as ref; `H`, or as many zeros when `zeroHarmonics` is set; and as
overlap the store of the explicit overlap index when that index is >= 0 and the
overlap is not disabled, NO store when that index is >= 0 and the overlap is disabled,
and, when the index is negative, the reference store if poi = ref and no store
otherwise. -/
theorem Calculate_single_clause (fCumulants : List (AliGFWCumulant K))
    (poi : Int) (rest H : List Int) (ovl ptOv ptbin : Int) (z d ptdif : Bool) (head : TString)
    (qpoi qref : AliGFWCumulant K)
    (hHne : H ≠ [])
    (hqp : 0 ≤ poi ∧ fCumulants[poi.toNat]? = some qpoi)
    (hqr : 0 ≤ rest.headD poi ∧ fCumulants[(rest.headD poi).toNat]? = some qref)
    (hov : ovl < (fCumulants.length : Int))
    (hfr : qref.IsPtBinFilled (if 0 ≤ ptOv then ptOv else ptbin) = true)
    (hfp : qpoi.IsPtBinFilled (if 0 ≤ ptOv then ptOv else ptbin) = true)
    (hN : ¬ qref.GetN < (if poi ≠ rest.headD poi then (H.length : Int) - 1 else (H.length : Int))) :
    ∃ v : K,
      RecursiveCorrUnit qpoi qref (overlapResolved fCumulants ovl d poi (rest.headD poi) qref)
          (if 0 ≤ ptOv then ptOv else ptbin) (if z then List.replicate H.length 0 else H) =
        .ok (v, if z then List.replicate H.length 0 else H) ∧
      Calculate fCumulants
          { Regs := [poi :: rest], Hars := [H], Overlap := [ovl], ptInd := [ptOv],
            pTDif := ptdif, Head := head } ptbin z d = .ok v := by
  have hpt : (if ptOv < 0 then ptbin else ptOv) = (if 0 ≤ ptOv then ptOv else ptbin) := by
    by_cases h : 0 ≤ ptOv
    · rw [if_pos h, if_neg (by omega)]
    · rw [if_neg h, if_pos (by omega)]
  have hlen : (if z = true then List.replicate H.length (0 : Int) else H).length = H.length := by
    cases z <;> simp
  have hne : (if z = true then List.replicate H.length (0 : Int) else H) ≠ [] := by
    intro h0
    have := congrArg List.length h0
    rw [hlen] at this
    exact hHne (List.length_eq_zero.mp this)
  have hcl := CalculateClause_eq fCumulants
    { Regs := [poi :: rest], Hars := [H], Overlap := [ovl], ptInd := [ptOv],
      pTDif := ptdif, Head := head } ptbin z d 0 poi rest H ovl ptOv qpoi qref
    rfl rfl rfl rfl hHne hqp hqr hov
  rw [hpt, if_neg (by
    rintro (h | h | h)
    · rw [hfr] at h; exact Bool.noConfusion h
    · rw [hfp] at h; exact Bool.noConfusion h
    · exact hN h)] at hcl
  refine ⟨corrVal (H.length + 1) qpoi qref
    (overlapResolved fCumulants ovl d poi (rest.headD poi) qref)
    (if 0 ≤ ptOv then ptOv else ptbin) (if z = true then List.replicate H.length 0 else H)
    (List.replicate H.length 1), ?_, ?_⟩
  · rw [RecursiveCorrUnit_eq _ _ _ _ _ hne, hlen]
  · rw [Calculate_eq_prod _ _ _ _ _ (by simp)
      (fun j hj => by
        have hj0 : j = 0 := by simpa using hj
        rw [hj0]
        exact ⟨_, hcl⟩)]
    simp [List.range_succ, hcl, clauseFactor]

/-- The amended C5 at the request of the counterexample: region 0 alone, explicit
overlap index 0, overlap disabled.  No overlap store is used and the value is 16. -/
theorem Calculate_single_clause_witness :
    RecursiveCorrUnit (signStore 4) (signStore 4)
        (overlapResolved [signStore 4] 0 true 0 0 (signStore 4)) 0 [1, 1] = .ok (16, [1, 1]) ∧
      Calculate [signStore 4]
          { Regs := [[0]], Hars := [[1, 1]], Overlap := [0], ptInd := [-1],
            pTDif := false, Head := [] } 0 false true = .ok 16 := by
  have h := Calculate_single_clause [signStore 4] 0 [] [1, 1] 0 (-1) 0
    false true false [] (signStore 4) (signStore 4) (by decide) ⟨by decide, rfl⟩
    ⟨by decide, rfl⟩ (by decide) rfl rfl (by decide)
  simp only [List.headD_nil, Bool.false_eq_true, if_false] at h
  obtain ⟨v, h1, h2⟩ := h
  have e : RecursiveCorrUnit (signStore 4) (signStore 4)
      (overlapResolved [signStore 4] 0 true 0 0 (signStore 4)) 0 [1, 1] = .ok (16, [1, 1]) := rfl
  have hv : v = 16 := by
    have h3 := h1.symm.trans e
    simp only [Except.ok.injEq, Prod.mk.injEq] at h3
    exact h3.1
  subst hv
  exact ⟨e, h2⟩

/-- C6. On a valid request with at least one clause `Calculate` returns the product of
the values it returns on the one-clause requests made of each clause alone; each of
these is a value, and a clause whose guard fails contributes the factor zero. -/
theorem Calculate_multiplicative (fCumulants : List (AliGFWCumulant K)) (corconf : CorrConfig)
    (ptbin : Int) (z d : Bool) (hv : ValidRequest fCumulants.length corconf)
    (hm : 1 ≤ corconf.Regs.length) :
    ∃ vs : List K, vs.length = corconf.Regs.length ∧
      (∀ (i : Nat) (hi : i < vs.length),
        Calculate fCumulants (singleClause corconf i) ptbin z d = .ok (vs.get ⟨i, hi⟩)) ∧
      Calculate fCumulants corconf ptbin z d = .ok vs.prod := by
  refine ⟨(List.range corconf.Regs.length).map (fun j =>
    clauseFactor (CalculateClause fCumulants corconf ptbin z d j)), by simp, ?_, ?_⟩
  · intro i hi
    have hi' : i < corconf.Regs.length := by simpa using hi
    rw [Calculate_singleClause _ _ _ _ _ i hi' (CalculateClause_ok _ _ _ _ _ hv i hi')]
    simp
  · exact Calculate_eq_prod _ _ _ _ _ (by omega)
      (fun i hi => CalculateClause_ok _ _ _ _ _ hv i hi)

/-- C6 at a concrete request of two clauses: the factors are 6 and 36, the value 216. -/
theorem Calculate_multiplicative_witness :
    (∃ vs : List Int, vs.length = twoClauseRequest.Regs.length ∧
      (∀ (i : Nat) (hi : i < vs.length),
        Calculate [signStore 4, signStore 5] (singleClause twoClauseRequest i) 0 false false =
          .ok (vs.get ⟨i, hi⟩)) ∧
      Calculate [signStore 4, signStore 5] twoClauseRequest 0 false false = .ok vs.prod) ∧
    Calculate [signStore 4, signStore 5] (singleClause twoClauseRequest 0) 0 false false = .ok 6 ∧
    Calculate [signStore 4, signStore 5] (singleClause twoClauseRequest 1) 0 false false = .ok 36 ∧
    Calculate [signStore 4, signStore 5] twoClauseRequest 0 false false = .ok 216 :=
  ⟨Calculate_multiplicative [signStore 4, signStore 5] twoClauseRequest 0 false false
    (by decide) (by decide), rfl, rfl, rfl⟩

/-- C7. On a valid request, if some clause has a reference store whose entry count is
below the clause's number of harmonics (that number minus one when poi and ref
differ), `Calculate` returns zero. -/
theorem Calculate_entry_guard (fCumulants : List (AliGFWCumulant K)) (corconf : CorrConfig)
    (ptbin : Int) (z d : Bool) (hv : ValidRequest fCumulants.length corconf)
    (j : Nat) (poi : Int) (rest H : List Int) (qref : AliGFWCumulant K)
    (hR : corconf.Regs[j]? = some (poi :: rest)) (hH : corconf.Hars[j]? = some H)
    (hq : fCumulants[(rest.headD poi).toNat]? = some qref)
    (hN : qref.GetN < (if poi ≠ rest.headD poi then (H.length : Int) - 1 else (H.length : Int))) :
    Calculate fCumulants corconf ptbin z d = .ok 0 := by
  have hj : j < corconf.Regs.length := lt_length_of_getElem? _ _ _ hR
  obtain ⟨hlH, hlO, hlP, hcl⟩ := hv
  obtain ⟨ovl, hO⟩ : ∃ o, corconf.Overlap[j]? = some o :=
    ⟨_, List.getElem?_eq_getElem (by omega)⟩
  obtain ⟨ptOv, hP⟩ : ∃ p, corconf.ptInd[j]? = some p :=
    ⟨_, List.getElem?_eq_getElem (by omega)⟩
  have hcl' := hcl j hj
  rw [hR, hO, hH] at hcl'
  obtain ⟨hr, ho, hh⟩ := hcl' (by simp)
  simp only [Option.getD_some] at hr ho hh
  have hpoi := hr poi (by simp)
  have href : 0 ≤ rest.headD poi ∧ rest.headD poi < (fCumulants.length : Int) := by
    cases rest with
    | nil => exact hpoi
    | cons r rs => exact hr r (by simp)
  obtain ⟨qpoi, hqp, _⟩ := atI_of_valid fCumulants poi hpoi.1 hpoi.2
  have hcalc := CalculateClause_eq fCumulants corconf ptbin z d j poi rest H _ _ qpoi qref
    hR hH hO hP hh ⟨hpoi.1, hqp⟩ ⟨href.1, hq⟩ ho
  rw [if_pos (Or.inr (Or.inr hN))] at hcalc
  exact Calculate_zero_of_none _ _ _ _ _ ⟨hlH, hlO, hlP, hcl⟩ j hj hcalc

/-- C7 at a concrete request: the second clause needs three entries in store 1, which
counts two. -/
theorem Calculate_entry_guard_witness :
    Calculate [signStore 4, fewEntries 5 2] twoClauseRequest 0 false false = .ok 0 :=
  Calculate_entry_guard [signStore 4, fewEntries 5 2] twoClauseRequest 0 false false
    (by decide) 1 1 [] [1, 1, -2] (fewEntries 5 2) rfl rfl rfl (by decide)

/-- C8. `Calculate` returns zero on a request with zero clauses, and on every valid
request in which some clause has an empty region list (nothing is asked of that
clause's other entries). -/
theorem Calculate_fail_fast (fCumulants : List (AliGFWCumulant K)) (corconf : CorrConfig)
    (ptbin : Int) (z d : Bool) :
    (corconf.Regs = [] → Calculate fCumulants corconf ptbin z d = .ok 0) ∧
    (ValidRequest fCumulants.length corconf → (∃ i : Nat, corconf.Regs[i]? = some []) →
      Calculate fCumulants corconf ptbin z d = .ok 0) := by
  constructor
  · intro h
    unfold Calculate
    rw [h]
    rfl
  · rintro hv ⟨i, hi⟩
    exact Calculate_zero_of_none _ _ _ _ _ hv i (lt_length_of_getElem? _ _ _ hi)
      (CalculateClause_nil _ _ _ _ _ _ hi)

/-- C8 at two concrete requests: no clause at all, and a second clause without a
region. -/
theorem Calculate_fail_fast_witness :
    Calculate [signStore 4, signStore 5]
        { Regs := [], Hars := [], Overlap := [], ptInd := [], pTDif := false, Head := [] }
        0 false false = .ok 0 ∧
      Calculate [signStore 4, signStore 5] emptyClauseRequest 0 false false = .ok 0 :=
  ⟨(Calculate_fail_fast [signStore 4, signStore 5]
      { Regs := [], Hars := [], Overlap := [], ptInd := [], pTDif := false, Head := [] }
      0 false false).1 rfl,
    (Calculate_fail_fast [signStore 4, signStore 5] emptyClauseRequest 0 false false).2
      (by decide) ⟨1, rfl⟩⟩

end ClaimsCalculate

section ClaimsParser

/-- C2, the claim as stated fails.  On the descriptor "{A B}2 -2" the parser reads the
(empty) text before the first brace as the regions of a first clause and "A B" as its
harmonics, then "2 -2" as the regions of a second clause: two clauses, no region in
either. -/
theorem GetCorrelatorConfig_braces_first_counterexample :
    GetCorrelatorConfig regionsAB "{A B}2 -2".toList "".toList false =
      some { Regs := [[], []], Hars := [[0, 0], []], Overlap := [-1, -1], ptInd := [-1, -1],
             pTDif := false, Head := [] } := by
  rfl

/-- C2, amended.  With regions named A and B registered, the descriptor "A B {2 -2}"
(region names first, harmonics inside the braces) parses to exactly one clause:
region list [index(A), index(B)], overlap -1, harmonics [2,-2], pT-bin override -1,
with the label and the flag passed in. -/
theorem GetCorrelatorConfig_regions_first (fRegions : List Region) (head : TString)
    (ptdif : Bool)
    (hA : 0 ≤ FindRegionByName fRegions "A".toList)
    (hB : 0 ≤ FindRegionByName fRegions "B".toList) :
    GetCorrelatorConfig fRegions "A B {2 -2}".toList head ptdif =
      some { Regs := [[FindRegionByName fRegions "A".toList,
                       FindRegionByName fRegions "B".toList]],
             Hars := [[2, -2]], Overlap := [-1], ptInd := [-1],
             pTDif := ptdif, Head := head } := by
  have hreg : regionLoop fRegions "A B ".toList 5 ("A B ".toList.length + 1) 0
      { Regs := emptyCorrConfig.Regs ++ [[]], Hars := emptyCorrConfig.Hars ++ [[]],
        Overlap := emptyCorrConfig.Overlap ++ [-1], ptInd := emptyCorrConfig.ptInd ++ [-1],
        pTDif := emptyCorrConfig.pTDif, Head := emptyCorrConfig.Head } =
      some { Regs := [[FindRegionByName fRegions "A".toList,
                       FindRegionByName fRegions "B".toList]],
             Hars := [[]], Overlap := [-1], ptInd := [-1], pTDif := false, Head := [] } := by
    rw [show "A B ".toList.length + 1 = 2 + 1 + 1 + 1 from rfl,
      regionLoop_region fRegions _ _ _ 0 _ "A".toList 2 _ (by decide) (by decide) (by decide)
        (by decide) rfl hA,
      regionLoop_region fRegions _ _ _ 2 _ "B".toList 4 _ (by decide) (by decide) (by decide)
        (by decide) rfl hB,
      regionLoop_end fRegions _ _ _ 4 _ [] 4 (by decide)]
    rfl
  rw [GetCorrelatorConfig_eq fRegions _ head ptdif "A B {2 -2}".toList "A B {2 -2}".toList
      "A B ".toList 5 (by decide) (by decide) (by decide),
    show "A B {2 -2}".toList.length + 1 = 9 + 1 + 1 from rfl,
    clauseLoop_step fRegions _ _ 0 emptyCorrConfig "A B ".toList 5 (-1) "A B ".toList
      "A B {2 -2}".toList 5 _ true "2 -2".toList 10
      { Regs := [[FindRegionByName fRegions "A".toList, FindRegionByName fRegions "B".toList]],
        Hars := [[2, -2]], Overlap := [-1], ptInd := [-1], pTDif := false, Head := [] }
      (by decide) (by decide) hreg (by decide) rfl,
    clauseLoop_stop fRegions _ _ 10 _ [] 10 (by decide)]

/-- The amended C2 on the registry holding exactly A and B. -/
theorem GetCorrelatorConfig_regions_first_witness :
    GetCorrelatorConfig regionsAB "A B {2 -2}".toList "c22".toList true =
      some { Regs := [[0, 1]], Hars := [[2, -2]], Overlap := [-1], ptInd := [-1],
             pTDif := true, Head := "c22".toList } :=
  GetCorrelatorConfig_regions_first regionsAB "c22".toList true (by decide) (by decide)

/-- C3, the code at the failing inputs.  On the registry holding A, B and C no parse
failure gives a request with zero clauses.  Without a brace ("A B 2 -2") the guard on
the first token does not fire and the request has one clause with an empty region list
and an empty harmonic list.  With the unknown region X ("A X {2 -2}") the request has
one clause that keeps region A and both harmonics; when X stands in a second clause
("A B {2 -2} X {3 -3}") the first clause is complete and the second has an empty region
list.  With an unclosed parenthesis ("A (3 {2 -2}") the clause pushed before the check
is returned: an empty region list, an empty harmonic list, overlap -1 and no pT-bin
entry. -/
theorem GetCorrelatorConfig_failure_keeps_clauses :
    GetCorrelatorConfig regionsABC "A B 2 -2".toList "c22".toList true =
        some { Regs := [[]], Hars := [[]], Overlap := [-1], ptInd := [-1],
               pTDif := true, Head := "c22".toList } ∧
      GetCorrelatorConfig regionsABC "A X {2 -2}".toList "c22".toList true =
        some { Regs := [[0]], Hars := [[2, -2]], Overlap := [-1], ptInd := [-1],
               pTDif := true, Head := "c22".toList } ∧
      GetCorrelatorConfig regionsABC "A B {2 -2} X {3 -3}".toList "c22".toList true =
        some { Regs := [[0, 1], []], Hars := [[2, -2], [3, -3]], Overlap := [-1, -1],
               ptInd := [-1, -1], pTDif := true, Head := "c22".toList } ∧
      (GetCorrelatorConfig regionsABC "A (3 {2 -2}".toList "c22".toList true).map
          (fun c => (c.Regs, c.Hars, c.Overlap, c.ptInd)) = some ([[]], [[]], [-1], []) := by
  decide

/-- Two failing paths of the parser, for every registry, label and flag.  When the text
before the first brace holds a "(" and no ")", the parser returns at once the request
built so far: one clause with an empty region list, an empty harmonic list, overlap -1
and no pT-bin entry.  In a descriptor of one clause written with plain tokens (names,
then the harmonics in braces, single blanks between them, no reserved character in a
token), a name that is not registered ends the region scan of its clause only: the
clause keeps the registered names before it and every harmonic is still read. -/
theorem GetCorrelatorConfig_failing_paths (fRegions : List Region) (head : TString)
    (ptdif : Bool) (d : TString) (R H : List (TString × Nat))
    (hopen : '(' ∈ d.takeWhile (fun c => c != '{'))
    (hclose : ')' ∉ d.takeWhile (fun c => c != '{'))
    (hR : PlainTokens R) (hH : PlainTokens H) :
    (GetCorrelatorConfig fRegions d head ptdif).map
          (fun c => (c.Regs, c.Hars, c.Overlap, c.ptInd)) = some ([[]], [[]], [-1], []) ∧
      GetCorrelatorConfig fRegions (plainClause R H) head ptdif =
        some { Regs := [takeRegistered fRegions (R.map Prod.fst)],
               Hars := [H.map (fun it => TStr.Atoi it.1)],
               Overlap := [-1], ptInd := [-1], pTDif := ptdif, Head := head } :=
  ⟨by rw [GetCorrelatorConfig_unclosed fRegions d head ptdif hopen hclose]; rfl,
    GetCorrelatorConfig_plain fRegions R H head ptdif hR hH⟩

/-- The two failing paths on the registry holding A, B and C: the descriptors
"A (3 {2 -2}" and "A X {2 -2}". -/
theorem GetCorrelatorConfig_failing_paths_ABC :
    plainClause namesAX harmonics22 = "A X {2 -2}".toList ∧
      (GetCorrelatorConfig regionsABC "A (3 {2 -2}".toList "c22".toList true).map
          (fun c => (c.Regs, c.Hars, c.Overlap, c.ptInd)) = some ([[]], [[]], [-1], []) ∧
      GetCorrelatorConfig regionsABC "A X {2 -2}".toList "c22".toList true =
        some { Regs := [[0]], Hars := [[2, -2]], Overlap := [-1], ptInd := [-1],
               pTDif := true, Head := "c22".toList } := by
  have hR : PlainTokens namesAX := by
    refine ⟨⟨by decide, by decide, fun _ => le_refl 1, by decide, by decide, fun h => absurd rfl h,
      trivial⟩, by decide, by decide⟩
  have hH : PlainTokens harmonics22 := by
    refine ⟨⟨by decide, by decide, fun _ => le_refl 1, by decide, by decide, fun h => absurd rfl h,
      trivial⟩, by decide, by decide⟩
  have h := GetCorrelatorConfig_failing_paths regionsABC "c22".toList true "A (3 {2 -2}".toList
    namesAX harmonics22 (by decide) (by decide) hR hH
  exact ⟨rfl, h.1, h.2⟩

/-- C4, the code at the failing input.  With region A registered and its store filled,
the descriptor "A {}" parses to one clause on region A with an empty harmonic list;
`Calculate` passes every guard and calls `RecursiveCorr` on the empty list, where
`pows.at(0)` throws. -/
theorem Calculate_empty_harmonics_throws :
    GetCorrelatorConfig [regionNamed "A"] "A {}".toList [] false =
        some { Regs := [[0]], Hars := [[]], Overlap := [-1], ptInd := [-1],
               pTDif := false, Head := [] } ∧
      Calculate [signStore 4]
          { Regs := [[0]], Hars := [[]], Overlap := [-1], ptInd := [-1],
            pTDif := false, Head := [] } 0 false false = .error .outOfRange :=
  ⟨rfl, rfl⟩

end ClaimsParser

section ClaimsSetHarmonicsToZero

/-- C10, the claim as stated fails.  With a blank directly after the brace the
fragment "A { 2 -2" holds two harmonic tokens, and `SetHarmonicsToZero` writes three
zeros: the empty text between the brace and the blank is counted as a token. -/
theorem SetHarmonicsToZero_blank_counterexample :
    SetHarmonicsToZero "A \x7b 2 -2".toList = some (true, "A \x7b0 0 0 ".toList) := by
  decide

/-- C10, amended.  For a fragment made of a prefix without brace, a brace, `m` blanks
and `k >= 1` harmonic tokens (non-empty, without blank or brace, separated by one or
more blanks, blanks allowed after the last), `SetHarmonicsToZero` returns true and
leaves the prefix up to and including the brace followed by "0 " written `k` times
when no blank follows the brace (`m = 0`), and `k + 1` times when one does. -/
theorem SetHarmonicsToZero_tokens (pfx : TString) (m : Nat) (items : List (TString × Nat))
    (hpfx : '{' ∉ pfx) (hne : items ≠ []) (hok : TokensOK items)
    (hbr : ∀ it ∈ items, '{' ∉ it.1) :
    SetHarmonicsToZero (pfx ++ '{' :: (List.replicate m ' ' ++ tokenText items)) =
      some (true, pfx ++ '{' :: zeroTokens (items.length + (if m = 0 then 0 else 1))) := by
  have hlenItems := length_tokenText_ge items hok
  have hpos : 0 < items.length := List.length_pos.mpr hne
  have hhead : (List.replicate m ' ' ++ tokenText items).head? ≠ some '{' := by
    cases m with
    | zero => simpa using tokenText_head items hok '{' hbr
    | succ k => simp [List.replicate_succ]
  have hform : pfx ++ '{' :: (List.replicate m ' ' ++ tokenText items) =
      [] ++ pfx ++ List.replicate 1 '{' ++ (List.replicate m ' ' ++ tokenText items) := by
    simp
  have hT := Tokenize_token [] pfx (List.replicate m ' ' ++ tokenText items) '{' 1 hpfx
    (le_refl 1) hhead
  rw [← hform] at hT
  have hcount : countLoop (pfx ++ '{' :: (List.replicate m ' ' ++ tokenText items))
      ((pfx ++ '{' :: (List.replicate m ' ' ++ tokenText items)).length + 1)
      ((([] : List Char).length + pfx.length + 1 : Nat) : Int) 0 =
      some (items.length + (if m = 0 then 0 else 1)) := by
    by_cases hm : m = 0
    · subst hm
      have h1 : pfx ++ '{' :: (List.replicate 0 ' ' ++ tokenText items) =
          (pfx ++ ['{']) ++ tokenText items := by simp
      have h2 : ((([] : List Char).length + pfx.length + 1 : Nat) : Int) =
          ((pfx ++ ['{']).length : Int) := by simp
      rw [h1, h2, countLoop_tokens items hok (pfx ++ ['{']) 0 _
        (by simp only [List.length_append]; omega)]
      simp
    · have h1 : pfx ++ '{' :: (List.replicate m ' ' ++ tokenText items) =
          (pfx ++ ['{']) ++ [] ++ List.replicate m ' ' ++ tokenText items := by simp
      have h2 : ((([] : List Char).length + pfx.length + 1 : Nat) : Int) =
          ((pfx ++ ['{']).length : Int) := by simp
      have h3 : (((pfx ++ ['{']).length + ([] : List Char).length + m : Nat) : Int) =
          ((pfx ++ ['{'] ++ [] ++ List.replicate m ' ').length : Int) := by
        simp only [List.length_append, List.length_replicate, List.length_nil]
      rw [h1, h2, countLoop_next _ _ _ _ [] _
        (Tokenize_token (pfx ++ ['{']) [] (tokenText items) ' ' m (by simp) (by omega)
          (tokenText_head items hok ' ' (TokensOK_no_blank items hok))),
        h3, countLoop_tokens items hok _ 1 _ (by
          simp only [List.length_append, List.length_replicate, List.length_cons,
            List.length_nil]
          omega)]
      simp [hm, Nat.add_comm]
  have hrem : TStr.RemoveFrom (pfx ++ '{' :: (List.replicate m ' ' ++ tokenText items))
      ((([] : List Char).length + pfx.length + 1 : Nat) : Int) = pfx ++ ['{'] := by
    unfold TStr.RemoveFrom
    rw [if_neg (by
      simp only [List.length_append, List.length_cons, List.length_replicate, List.length_nil]
      push_cast
      omega)]
    simp only [Int.toNat_ofNat, List.length_nil, Nat.zero_add]
    rw [show pfx ++ '{' :: (List.replicate m ' ' ++ tokenText items) =
      (pfx ++ ['{']) ++ (List.replicate m ' ' ++ tokenText items) by simp,
      List.take_left' (by simp)]
  unfold SetHarmonicsToZero
  rw [show (0 : Int) = ((([] : List Char).length : Nat) : Int) from rfl, hT]
  simp only []
  rw [hcount]
  simp only []
  rw [if_neg (by omega), hrem, appendZeros_eq]
  simp

/-- The amended C10 on "A B {2 -2" (two zeros) and on "A { 2 -2" (three zeros). -/
theorem SetHarmonicsToZero_tokens_witness :
    SetHarmonicsToZero "A B \x7b2 -2".toList = some (true, "A B \x7b0 0 ".toList) ∧
      SetHarmonicsToZero "A \x7b 2 -2".toList = some (true, "A \x7b0 0 0 ".toList) :=
  ⟨SetHarmonicsToZero_tokens "A B ".toList 0 [("2".toList, 1), ("-2".toList, 0)]
      (by decide) (by decide) (by simp [TokensOK]) (by decide),
    SetHarmonicsToZero_tokens "A ".toList 1 [("2".toList, 1), ("-2".toList, 0)]
      (by decide) (by decide) (by simp [TokensOK]) (by decide)⟩

end ClaimsSetHarmonicsToZero

section EngineLemmas

variable {K : Type}

theorem findRegionLoop_spec (refName : TString) :
    ∀ (regs : List Region) (k : Nat),
      (findRegionLoop refName regs k = -1 ∧ ∀ r ∈ regs, r.rName ≠ refName) ∨
      (∃ i : Nat, findRegionLoop refName regs k = ((k + i : Nat) : Int) ∧ i < regs.length ∧
        (∃ r, regs[i]? = some r ∧ r.rName = refName) ∧
        ∀ j < i, ∀ r, regs[j]? = some r → r.rName ≠ refName)
  | [], k => Or.inl ⟨rfl, fun r hr => by simp at hr⟩
  | r :: rs, k => by
    by_cases h : r.rName = refName
    · refine Or.inr ⟨0, ?_, by simp, ⟨r, by simp, h⟩, fun j hj => absurd hj (Nat.not_lt_zero j)⟩
      simp [findRegionLoop, TStr.EqualTo, h]
    · have hstep : findRegionLoop refName (r :: rs) k = findRegionLoop refName rs (k + 1) := by
        simp [findRegionLoop, TStr.EqualTo, h]
      rcases findRegionLoop_spec refName rs (k + 1) with ⟨h1, h2⟩ | ⟨i, h1, h2, ⟨r', h3, h4⟩, h5⟩
      · refine Or.inl ⟨by rw [hstep, h1], ?_⟩
        intro x hx
        rcases List.mem_cons.mp hx with rfl | hx
        · exact h
        · exact h2 x hx
      · refine Or.inr ⟨i + 1, ?_, by simpa using h2, ⟨r', by simpa using h3, h4⟩, ?_⟩
        · rw [hstep, h1]
          congr 1
          omega
        · intro j hj x hx
          cases j with
          | zero =>
            simp only [List.getElem?_cons_zero, Option.some.injEq] at hx
            rw [← hx]
            exact h
          | succ j =>
            exact h5 j (by omega) x (by simpa using hx)

theorem AddRegion_eq (s : AliGFWState K) (refName : TString) (lNhar lNpar : Int)
    (lEtaMin lEtaMax : Rat) (lNpT BitMask : Int) :
    AddRegion s refName lNhar lNpar lEtaMin lEtaMax lNpT BitMask =
      if lNpT < 1 ∨ lEtaMin ≥ lEtaMax ∨ refName = [] then s
      else
        { s with fRegions := s.fRegions ++
            [{ Nhar := lNhar, Npar := lNpar, NparVec := [], EtaMin := lEtaMin,
               EtaMax := lEtaMax, NpT := lNpT, rName := refName, BitMask := BitMask }] } := by
  unfold AddRegion AddRegionStruct
  by_cases h1 : lNpT < 1
  · simp [h1]
  · by_cases h2 : lEtaMin ≥ lEtaMax
    · simp [h1, h2]
    · by_cases h3 : refName = []
      · simp [h1, h2, h3, TStr.EqualTo]
      · simp [h1, h2, h3, TStr.EqualTo]

theorem AddRegionPowers_eq (s : AliGFWState K) (refName : TString) (lNhar : Int)
    (lNparVec : Nat → Int) (lEtaMin lEtaMax : Rat) (lNpT BitMask : Int) :
    AddRegionPowers s refName lNhar lNparVec lEtaMin lEtaMax lNpT BitMask =
      if lNpT < 1 ∨ lEtaMin ≥ lEtaMax ∨ refName = [] then s
      else
        { s with fRegions := s.fRegions ++
            [{ Nhar := lNhar, Npar := 0, NparVec := (List.range lNhar.toNat).map lNparVec,
               EtaMin := lEtaMin, EtaMax := lEtaMax, NpT := lNpT, rName := refName,
               BitMask := BitMask }] } := by
  unfold AddRegionPowers AddRegionStruct
  by_cases h1 : lNpT < 1
  · simp [h1]
  · by_cases h2 : lEtaMin ≥ lEtaMax
    · simp [h1, h2]
    · by_cases h3 : refName = []
      · simp [h1, h2, h3, TStr.EqualTo]
      · simp [h1, h2, h3, TStr.EqualTo]

theorem AddCall_run_eq (s : AliGFWState K) (c : AddCall) :
    AddCall.run s c =
      if c.valid = true then { s with fRegions := s.fRegions ++ [c.region] } else s := by
  cases c with
  | uniform refName lNhar lNpar lEtaMin lEtaMax lNpT BitMask =>
    simp only [AddCall.run, AddRegion_eq, AddCall.valid, AddCall.region, Bool.and_eq_true,
      decide_eq_true_eq]
    by_cases h : lNpT < 1 ∨ lEtaMin ≥ lEtaMax ∨ refName = []
    · rw [if_pos h, if_neg]
      rintro ⟨⟨h1, h2⟩, h3⟩
      rcases h with h | h | h
      · omega
      · exact absurd h2 (not_lt.mpr h)
      · exact h3 h
    · rw [if_neg h, if_pos]
      push_neg at h
      exact ⟨⟨by omega, h.2.1⟩, h.2.2⟩
  | perHarmonic refName lNhar lNparVec lEtaMin lEtaMax lNpT BitMask =>
    simp only [AddCall.run, AddRegionPowers_eq, AddCall.valid, AddCall.region, Bool.and_eq_true,
      decide_eq_true_eq]
    by_cases h : lNpT < 1 ∨ lEtaMin ≥ lEtaMax ∨ refName = []
    · rw [if_pos h, if_neg]
      rintro ⟨⟨h1, h2⟩, h3⟩
      rcases h with h | h | h
      · omega
      · exact absurd h2 (not_lt.mpr h)
      · exact h3 h
    · rw [if_neg h, if_pos]
      push_neg at h
      exact ⟨⟨by omega, h.2.1⟩, h.2.2⟩

theorem runCalls_regions :
    ∀ (calls : List AddCall) (s : AliGFWState K),
      (runCalls s calls).fRegions =
        s.fRegions ++ (calls.filter AddCall.valid).map AddCall.region
  | [], s => by simp [runCalls]
  | c :: cs, s => by
    have ih := runCalls_regions cs (AddCall.run s c)
    simp only [runCalls, List.foldl_cons] at ih ⊢
    rw [ih, AddCall_run_eq]
    by_cases hv : c.valid = true
    · simp [hv]
    · simp [hv]

theorem AddCall_region_name (c : AddCall) : c.region.rName = c.name := by
  cases c <;> rfl

theorem AddCall_valid_name (c : AddCall) (h : c.valid = true) : c.name ≠ [] := by
  cases c <;> simp only [AddCall.valid, Bool.and_eq_true, decide_eq_true_eq] at h <;> exact h.2

theorem fillLoop_succ (ops : CumulantOps K) (fRegions : List Region) (eta : Rat) (ptin : Int)
    (phi weight : Rat) (mask : Int) (SecondWeight : Rat) (n i : Nat)
    (fCumulants : List (AliGFWCumulant K)) :
    fillLoop ops fRegions eta ptin phi weight mask SecondWeight (n + 1) i fCumulants =
      (atN fRegions i).bind (fun r =>
        if regionAccepts r eta mask = true then
          (atN fCumulants i).bind (fun q =>
            fillLoop ops fRegions eta ptin phi weight mask SecondWeight n (i + 1)
              (fCumulants.set i (ops.FillArray eta ptin phi weight SecondWeight q)))
        else fillLoop ops fRegions eta ptin phi weight mask SecondWeight n (i + 1) fCumulants) := by
  rfl

/-- The loop of `Fill` from index `i` on: every store from `i` on whose region accepts
the particle is filled once, every other store is left as it was. -/
theorem fillLoop_eq (ops : CumulantOps K) (fRegions : List Region) (eta : Rat) (ptin : Int)
    (phi weight : Rat) (mask : Int) (SecondWeight : Rat) :
    ∀ (n i : Nat) (fCumulants : List (AliGFWCumulant K)),
      i + n = fRegions.length → fCumulants.length = fRegions.length →
      ∃ cum, fillLoop ops fRegions eta ptin phi weight mask SecondWeight n i fCumulants = .ok cum ∧
        cum.length = fCumulants.length ∧
        ∀ (j : Nat) (r : Region) (q : AliGFWCumulant K),
          fRegions[j]? = some r → fCumulants[j]? = some q →
          cum[j]? = some (if i ≤ j ∧ regionAccepts r eta mask = true then
            ops.FillArray eta ptin phi weight SecondWeight q else q) := by
  intro n
  induction n with
  | zero =>
    intro i cum hi hlen
    refine ⟨cum, rfl, rfl, ?_⟩
    intro j r q hr hq
    have hj : j < fRegions.length := by
      by_contra hc
      rw [List.getElem?_eq_none (by omega)] at hr
      cases hr
    rw [if_neg (by omega), hq]
  | succ n ih =>
    intro i cum hi hlen
    have hir : i < fRegions.length := by omega
    have hic : i < cum.length := by omega
    rw [fillLoop_succ, atN_eq_ok _ _ _ (List.getElem?_eq_getElem hir)]
    simp only [Except.bind]
    by_cases hacc : regionAccepts fRegions[i] eta mask = true
    · rw [if_pos hacc, atN_eq_ok _ _ _ (List.getElem?_eq_getElem hic)]
      simp only [Except.bind]
      obtain ⟨cum', hc', hl', hall⟩ :=
        ih (i + 1) (cum.set i (ops.FillArray eta ptin phi weight SecondWeight cum[i])) (by omega)
          (by rw [List.length_set]; exact hlen)
      refine ⟨cum', hc', by rw [hl', List.length_set], ?_⟩
      intro j r q hr hq
      by_cases hji : j = i
      · subst hji
        have hr' : r = fRegions[j] := by
          rw [List.getElem?_eq_getElem hir] at hr
          exact (Option.some.inj hr).symm
        have hq' : q = cum[j] := by
          rw [List.getElem?_eq_getElem hic] at hq
          exact (Option.some.inj hq).symm
        subst hr' hq'
        rw [hall j _ _ hr (by rw [List.getElem?_set_self hic]), if_neg (by omega),
          if_pos ⟨le_refl _, hacc⟩]
      · rw [hall j r q hr (by rw [List.getElem?_set_ne (Ne.symm hji)]; exact hq)]
        by_cases ha : regionAccepts r eta mask = true
        · by_cases hle : i ≤ j
          · rw [if_pos ⟨by omega, ha⟩, if_pos ⟨hle, ha⟩]
          · rw [if_neg (by omega), if_neg (fun h => hle h.1)]
        · rw [if_neg (fun h => ha h.2), if_neg (fun h => ha h.2)]
    · rw [if_neg hacc]
      obtain ⟨cum', hc', hl', hall⟩ := ih (i + 1) cum (by omega) hlen
      refine ⟨cum', hc', hl', ?_⟩
      intro j r q hr hq
      rw [hall j r q hr hq]
      by_cases hji : j = i
      · subst hji
        have hr' : r = fRegions[j] := by
          rw [List.getElem?_eq_getElem hir] at hr
          exact (Option.some.inj hr).symm
        subst hr'
        rw [if_neg (by omega), if_neg (fun h => hacc h.2)]
      · by_cases ha : regionAccepts r eta mask = true
        · by_cases hle : i ≤ j
          · rw [if_pos ⟨by omega, ha⟩, if_pos ⟨hle, ha⟩]
          · rw [if_neg (by omega), if_neg (fun h => hle h.1)]
        · rw [if_neg (fun h => ha h.2), if_neg (fun h => ha h.2)]

/-- When no store reports a filled pT bin, `Calculate` returns zero on every valid
request: the first pass of its loop stops at a guard. -/
theorem Calculate_unfilled [CommRing K] (fCumulants : List (AliGFWCumulant K))
    (corconf : CorrConfig) (ptbin : Int) (z d : Bool)
    (hall : ∀ q ∈ fCumulants, ∀ b, q.IsPtBinFilled b = false)
    (hv : ValidRequest fCumulants.length corconf) :
    Calculate fCumulants corconf ptbin z d = .ok 0 := by
  by_cases h0 : corconf.Regs.length = 0
  · unfold Calculate
    rw [if_pos h0]
  have hj : 0 < corconf.Regs.length := by omega
  have hR : corconf.Regs[0]? = some corconf.Regs[0] := List.getElem?_eq_getElem hj
  cases hregs : corconf.Regs[0] with
  | nil =>
    rw [hregs] at hR
    exact Calculate_zero_of_none _ _ _ _ _ hv 0 hj (CalculateClause_nil _ _ _ _ _ _ hR)
  | cons poi rest =>
    rw [hregs] at hR
    obtain ⟨hlH, hlO, hlP, hcl⟩ := hv
    obtain ⟨H, hH⟩ : ∃ H, corconf.Hars[0]? = some H :=
      ⟨_, List.getElem?_eq_getElem (by omega)⟩
    obtain ⟨ovl, hO⟩ : ∃ o, corconf.Overlap[0]? = some o :=
      ⟨_, List.getElem?_eq_getElem (by omega)⟩
    obtain ⟨ptOv, hP⟩ : ∃ p, corconf.ptInd[0]? = some p :=
      ⟨_, List.getElem?_eq_getElem (by omega)⟩
    have hcl' := hcl 0 hj
    rw [hR, hO, hH] at hcl'
    obtain ⟨hr, ho, hh⟩ := hcl' (by simp)
    simp only [Option.getD_some] at hr ho hh
    have hpoi := hr poi (by simp)
    have href : 0 ≤ rest.headD poi ∧ rest.headD poi < (fCumulants.length : Int) := by
      cases rest with
      | nil => exact hpoi
      | cons r rs => exact hr r (by simp)
    obtain ⟨qpoi, hqp, _⟩ := atI_of_valid fCumulants poi hpoi.1 hpoi.2
    obtain ⟨qref, hqr, _⟩ := atI_of_valid fCumulants (rest.headD poi) href.1 href.2
    have hcalc := CalculateClause_eq fCumulants corconf ptbin z d 0 poi rest H _ _ qpoi qref
      hR hH hO hP hh ⟨hpoi.1, hqp⟩ ⟨href.1, hqr⟩ ho
    rw [if_pos (Or.inl (hall qref (List.getElem?_mem hqr) _))] at hcalc
    exact Calculate_zero_of_none _ _ _ _ _ ⟨hlH, hlO, hlP, hcl⟩ 0 hj hcalc

theorem twoWindows_eq :
    twoWindows =
      { fRegions :=
          [{ Nhar := 3, Npar := 3, NparVec := [], EtaMin := -1, EtaMax := 1, NpT := 1,
             rName := "A".toList, BitMask := 1 },
           { Nhar := 3, Npar := 3, NparVec := [], EtaMin := 0, EtaMax := 2, NpT := 1,
             rName := "B".toList, BitMask := 1 }],
        fCumulants := [emptyStore, emptyStore], fInitialized := true,
        fCalculatedNames := [], fCalculatedQs := [] } := by
  unfold twoWindows
  rw [AddRegion_eq, AddRegion_eq]
  norm_num [CreateRegions, createLoop, AliGFWState.new, countingOps]

end EngineLemmas

section PlainLemmas

variable {K : Type}

theorem effectivePoi_idem (qpoi : AliGFWCumulant K) (qol : Option (AliGFWCumulant K)) (p : Int) :
    effectivePoi (effectivePoi qpoi qol p) qol p = effectivePoi qpoi qol p := by
  unfold effectivePoi
  cases qol <;> by_cases h : p ≠ 1 <;> simp [h]

/-- The store in force after two merges does not depend on their order. -/
theorem effectivePoi_merge_comm (Q : AliGFWCumulant K) (qol : Option (AliGFWCumulant K))
    (a x y : Int × Int) (A : List (Int × Int)) (i k : Nat) :
    effectivePoi
        (effectivePoi (effectivePoi Q qol a.2) qol (nthP (mergeP (a :: A) i y) 0).2) qol
        (nthP (mergeP (mergeP (a :: A) k x) i y) 0).2 =
      effectivePoi
        (effectivePoi (effectivePoi Q qol a.2) qol (nthP (mergeP (a :: A) k x) 0).2) qol
        (nthP (mergeP (mergeP (a :: A) k x) i y) 0).2 := by
  cases qol with
  | none => simp [effectivePoi]
  | some o =>
    cases i <;> cases k <;> simp only [mergeP, nthP, List.getElem?_cons_zero, Option.getD_some,
      effectivePoi] <;> split_ifs <;> first | rfl | omega

variable [CommRing K]

theorem plainCorr_succ (fuel : Nat) (qpoi qref : AliGFWCumulant K)
    (qol : Option (AliGFWCumulant K)) (ptbin : Int) (L : List (Int × Int)) :
    plainCorr (fuel + 1) qpoi qref qol ptbin L =
      if L.length < 2 then
        (effectivePoi qpoi qol (nthP L 0).2).Vec (nthP L 0).1 (nthP L 0).2 ptbin
      else if L.length < 3 then
        TwoRec (nthP L 0).1 (nthP L 1).1 (nthP L 0).2 (nthP L 1).2 ptbin
          (effectivePoi qpoi qol (nthP L 0).2) qref qol
      else
        plainCorr fuel (effectivePoi qpoi qol (nthP L 0).2) qref qol ptbin L.dropLast *
            qref.Vec2 (nthP L (L.length - 1)).1 (nthP L (L.length - 1)).2 -
          ∑ i in Finset.range (L.length - 1),
            plainCorr fuel (effectivePoi qpoi qol (nthP L 0).2) qref qol ptbin
              (mergeP L.dropLast i (nthP L (L.length - 1))) := by
  rfl

theorem nthP_append_left (A B : List (Int × Int)) (i : Nat) (h : i < A.length) :
    nthP (A ++ B) i = nthP A i := by
  simp [nthP, List.getElem?_append_left h]

theorem nthP_append_length (A : List (Int × Int)) (z : Int × Int) :
    nthP (A ++ [z]) A.length = z := by
  simp [nthP]

/-- One step of the plain recursion on a list written as its shortened list and its
last pair. -/
theorem plainCorr_snoc (fuel : Nat) (qpoi qref : AliGFWCumulant K)
    (qol : Option (AliGFWCumulant K)) (ptbin : Int) (L0 : List (Int × Int)) (z : Int × Int)
    (h2 : 2 ≤ L0.length) :
    plainCorr (fuel + 1) qpoi qref qol ptbin (L0 ++ [z]) =
      plainCorr fuel (effectivePoi qpoi qol (nthP L0 0).2) qref qol ptbin L0 *
          qref.Vec2 z.1 z.2 -
        ∑ i in Finset.range L0.length,
          plainCorr fuel (effectivePoi qpoi qol (nthP L0 0).2) qref qol ptbin (mergeP L0 i z) := by
  rw [plainCorr_succ, if_neg (by simp; omega), if_neg (by simp; omega)]
  simp only [List.length_append, List.length_singleton, Nat.add_sub_cancel,
    List.dropLast_concat, nthP_append_length, nthP_append_left L0 [z] 0 (by omega)]

/-- The value depends on the poi store only through the store in force after the
substitution of the overlap store. -/
theorem plainCorr_congr_poi (qref : AliGFWCumulant K) (qol : Option (AliGFWCumulant K))
    (ptbin : Int) (fuel : Nat) (q1 q2 : AliGFWCumulant K) (L : List (Int × Int))
    (h : effectivePoi q1 qol (nthP L 0).2 = effectivePoi q2 qol (nthP L 0).2) :
    plainCorr fuel q1 qref qol ptbin L = plainCorr fuel q2 qref qol ptbin L := by
  cases fuel with
  | zero => rfl
  | succ f => rw [plainCorr_succ, plainCorr_succ, h]

theorem length_mergeP (x : Int × Int) :
    ∀ (L : List (Int × Int)) (i : Nat), (mergeP L i x).length = L.length
  | [], _ => rfl
  | _ :: _, 0 => rfl
  | _ :: L, i + 1 => by simp [mergeP, length_mergeP x L i]

theorem mergeP_append_left (x : Int × Int) (B : List (Int × Int)) :
    ∀ (A : List (Int × Int)) (i : Nat), i < A.length →
      mergeP (A ++ B) i x = mergeP A i x ++ B
  | [], _, h => by simp at h
  | _ :: _, 0, _ => rfl
  | a :: A, i + 1, h => by
    show a :: mergeP (A ++ B) i x = a :: (mergeP A i x ++ B)
    rw [mergeP_append_left x B A i (by simpa using h)]

theorem mergeP_append_right (x : Int × Int) (B : List (Int × Int)) (k : Nat) :
    ∀ (A : List (Int × Int)), mergeP (A ++ B) (A.length + k) x = A ++ mergeP B k x
  | [] => by simp
  | a :: A => by
    rw [show (a :: A).length + k = (A.length + k) + 1 by simp; omega]
    show a :: mergeP (A ++ B) (A.length + k) x = a :: (A ++ mergeP B k x)
    rw [mergeP_append_right x B k A]

theorem mergeP_comm (x y : Int × Int) :
    ∀ (L : List (Int × Int)) (i k : Nat),
      mergeP (mergeP L i y) k x = mergeP (mergeP L k x) i y
  | [], _, _ => rfl
  | a :: L, 0, 0 => by
    simp only [mergeP]
    congr 1
    ext <;> simp <;> ring
  | a :: L, 0, k + 1 => rfl
  | a :: L, i + 1, 0 => rfl
  | a :: L, i + 1, k + 1 => by
    simp only [mergeP]
    rw [mergeP_comm x y L i k]

/-- Two steps of the plain recursion on a list written as a list of at least two
pairs followed by two more. -/
theorem plainCorr_snoc_snoc (fuel : Nat) (Q qref : AliGFWCumulant K)
    (qol : Option (AliGFWCumulant K)) (ptbin : Int) (A : List (Int × Int)) (x y : Int × Int)
    (h2 : 2 ≤ A.length) :
    plainCorr (fuel + 2) Q qref qol ptbin (A ++ [x, y]) =
      (plainCorr fuel (effectivePoi Q qol (nthP A 0).2) qref qol ptbin A * qref.Vec2 x.1 x.2 -
          ∑ k in Finset.range A.length,
            plainCorr fuel (effectivePoi Q qol (nthP A 0).2) qref qol ptbin (mergeP A k x)) *
          qref.Vec2 y.1 y.2 -
        ((∑ i in Finset.range A.length,
            plainCorr fuel (effectivePoi Q qol (nthP A 0).2) qref qol ptbin (mergeP A i y)) *
            qref.Vec2 x.1 x.2 -
          ∑ i in Finset.range A.length, ∑ k in Finset.range A.length,
            plainCorr fuel
              (effectivePoi (effectivePoi Q qol (nthP A 0).2) qol (nthP (mergeP A i y) 0).2)
              qref qol ptbin (mergeP (mergeP A i y) k x)) -
        plainCorr (fuel + 1) (effectivePoi Q qol (nthP A 0).2) qref qol ptbin
          (A ++ [(x.1 + y.1, x.2 + y.2)]) := by
  have e : A ++ [x, y] = (A ++ [x]) ++ [y] := by simp
  rw [e, plainCorr_snoc _ _ _ _ _ _ _ (by simp; omega), nthP_append_left A [x] 0 (by omega),
    plainCorr_snoc _ _ _ _ _ _ _ h2, effectivePoi_idem, List.length_append, List.length_singleton,
    Finset.sum_range_succ]
  have hlast : mergeP (A ++ [x]) A.length y = A ++ [(x.1 + y.1, x.2 + y.2)] := by
    have := mergeP_append_right y [x] 0 A
    simpa [mergeP] using this
  rw [hlast]
  have hterm : ∀ i ∈ Finset.range A.length,
      plainCorr (fuel + 1) (effectivePoi Q qol (nthP A 0).2) qref qol ptbin
          (mergeP (A ++ [x]) i y) =
        plainCorr fuel (effectivePoi Q qol (nthP A 0).2) qref qol ptbin (mergeP A i y) *
            qref.Vec2 x.1 x.2 -
          ∑ k in Finset.range A.length,
            plainCorr fuel
              (effectivePoi (effectivePoi Q qol (nthP A 0).2) qol (nthP (mergeP A i y) 0).2)
              qref qol ptbin (mergeP (mergeP A i y) k x) := by
    intro i hi
    rw [mergeP_append_left y [x] A i (Finset.mem_range.mp hi),
      plainCorr_snoc _ _ _ _ _ _ _ (by rw [length_mergeP]; exact h2), length_mergeP,
      plainCorr_congr_poi qref qol ptbin fuel
        (effectivePoi (effectivePoi Q qol (nthP A 0).2) qol (nthP (mergeP A i y) 0).2)
        (effectivePoi Q qol (nthP A 0).2) (mergeP A i y) (effectivePoi_idem _ _ _)]
  rw [Finset.sum_congr rfl hterm, Finset.sum_sub_distrib, ← Finset.sum_mul]
  ring

/-- The plain recursion takes the same value when two neighbouring pairs, at
positions 2 or later, change places. -/
theorem plainCorr_swap (qref : AliGFWCumulant K) (qol : Option (AliGFWCumulant K))
    (ptbin : Int) :
    ∀ (fuel : Nat) (Q : AliGFWCumulant K) (A B : List (Int × Int)) (x y : Int × Int),
      2 ≤ A.length → (A ++ x :: y :: B).length ≤ fuel →
      plainCorr fuel Q qref qol ptbin (A ++ x :: y :: B) =
        plainCorr fuel Q qref qol ptbin (A ++ y :: x :: B) := by
  intro fuel
  induction fuel with
  | zero => intros; rfl
  | succ f ih =>
    intro Q A B x y hA hlen
    have hB : B = [] ∨ ∃ B' z, B = B' ++ [z] := by
      rcases List.eq_nil_or_concat B with h | ⟨B', z, h⟩
      · exact Or.inl h
      · exact Or.inr ⟨B', z, by rw [h, List.concat_eq_append]⟩
    rcases hB with rfl | ⟨B', z, rfl⟩
    · obtain ⟨g, rfl⟩ : ∃ g, f = g + 1 := ⟨f - 1, by simp at hlen; omega⟩
      obtain ⟨a, A1, rfl⟩ : ∃ a A1, A = a :: A1 := by
        cases A with
        | nil => simp at hA
        | cons a A1 => exact ⟨a, A1, rfl⟩
      rw [plainCorr_snoc_snoc g Q qref qol ptbin (a :: A1) x y hA,
        plainCorr_snoc_snoc g Q qref qol ptbin (a :: A1) y x hA]
      have hD : (∑ i in Finset.range (a :: A1).length, ∑ k in Finset.range (a :: A1).length,
            plainCorr g
              (effectivePoi (effectivePoi Q qol (nthP (a :: A1) 0).2) qol
                (nthP (mergeP (a :: A1) i y) 0).2)
              qref qol ptbin (mergeP (mergeP (a :: A1) i y) k x)) =
          ∑ i in Finset.range (a :: A1).length, ∑ k in Finset.range (a :: A1).length,
            plainCorr g
              (effectivePoi (effectivePoi Q qol (nthP (a :: A1) 0).2) qol
                (nthP (mergeP (a :: A1) i x) 0).2)
              qref qol ptbin (mergeP (mergeP (a :: A1) i x) k y) := by
        rw [Finset.sum_comm]
        refine Finset.sum_congr rfl (fun k _ => Finset.sum_congr rfl (fun i _ => ?_))
        rw [mergeP_comm x y (a :: A1) i k]
        apply plainCorr_congr_poi
        have := effectivePoi_merge_comm Q qol a x y A1 i k
        simpa [nthP] using this
      have hT : ((x.1 + y.1, x.2 + y.2) : Int × Int) = (y.1 + x.1, y.2 + x.2) := by
        rw [add_comm x.1, add_comm x.2]
      rw [hD, hT]
      ring
    · have e1 : A ++ x :: y :: (B' ++ [z]) = (A ++ x :: y :: B') ++ [z] := by simp
      have e2 : A ++ y :: x :: (B' ++ [z]) = (A ++ y :: x :: B') ++ [z] := by simp
      have hlen' : (A ++ x :: y :: B').length ≤ f := by
        simp only [List.length_append, List.length_cons, List.length_singleton] at hlen ⊢
        omega
      have hl2 : (A ++ y :: x :: B').length = (A ++ x :: y :: B').length := by simp
      rw [e1, e2, plainCorr_snoc _ _ _ _ _ _ _ (by simp; omega),
        plainCorr_snoc _ _ _ _ _ _ _ (by simp; omega),
        nthP_append_left A _ 0 (by omega), nthP_append_left A _ 0 (by omega),
        ih _ A B' x y hA hlen', hl2]
      congr 1
      refine Finset.sum_equiv (Equiv.swap A.length (A.length + 1)) ?_ ?_
      · intro i
        simp only [Finset.mem_range, Equiv.swap_apply_def, List.length_append, List.length_cons]
        split_ifs <;> omega
      · intro i hi
        have hi' : i < A.length + (B'.length + 2) := by
          simpa [List.length_append] using hi
        simp only [Equiv.swap_apply_def]
        by_cases h1 : i = A.length
        · rw [if_pos h1, h1]
          have l1 := mergeP_append_right z (x :: y :: B') 0 A
          have l2 := mergeP_append_right z (y :: x :: B') 1 A
          simp only [Nat.add_zero, mergeP] at l1 l2
          rw [l1, l2]
          exact ih _ A B' _ y hA (by simpa using hlen')
        · rw [if_neg h1]
          by_cases h2 : i = A.length + 1
          · rw [if_pos h2, h2]
            have l1 := mergeP_append_right z (x :: y :: B') 1 A
            have l2 := mergeP_append_right z (y :: x :: B') 0 A
            simp only [Nat.add_zero, mergeP] at l1 l2
            rw [l1, l2]
            exact ih _ A B' x _ hA (by simpa using hlen')
          · rw [if_neg h2]
            by_cases h3 : i < A.length
            · rw [mergeP_append_left z _ A i h3, mergeP_append_left z _ A i h3]
              exact ih _ _ B' x y (by rw [length_mergeP]; exact hA)
                (by simpa [length_mergeP] using hlen')
            · obtain ⟨k, rfl⟩ : ∃ k, i = A.length + (k + 2) := ⟨i - A.length - 2, by omega⟩
              have l1 := mergeP_append_right z (x :: y :: B') (k + 2) A
              have l2 := mergeP_append_right z (y :: x :: B') (k + 2) A
              simp only [mergeP] at l1 l2
              rw [l1, l2]
              exact ih _ A _ x y hA (by simpa [length_mergeP] using hlen')

theorem mergeP_neighbours (x : Int × Int) :
    ∀ (L : List (Int × Int)) (i : Nat), i + 1 < L.length → L[i + 1]? = L[i]? →
      ∃ (A : List (Int × Int)) (e : Int × Int) (B : List (Int × Int)), A.length = i ∧
        L.length = i + 2 + B.length ∧
        mergeP L (i + 1) x = A ++ e :: (e.1 + x.1, e.2 + x.2) :: B ∧
        mergeP L i x = A ++ (e.1 + x.1, e.2 + x.2) :: e :: B
  | [], _, h, _ => by simp at h
  | [_], _, h, _ => by simp at h
  | a :: b :: L, 0, _, he => by
    simp only [List.getElem?_cons_succ, List.getElem?_cons_zero, Option.some.injEq] at he
    subst he
    exact ⟨[], b, L, rfl, by simp; omega, rfl, rfl⟩
  | a :: b :: L, i + 1, h, he => by
    have h' : i + 1 < (b :: L).length := by simpa using h
    have he' : (b :: L)[i + 1]? = (b :: L)[i]? := by simpa using he
    obtain ⟨A, e, B, hA, hl, h1, h2⟩ := mergeP_neighbours x (b :: L) i h' he'
    refine ⟨a :: A, e, B, by simp [hA], by simp at hl ⊢; omega, ?_, ?_⟩
    · show a :: mergeP (b :: L) (i + 1) x = _
      rw [h1]
      rfl
    · show a :: mergeP (b :: L) i x = _
      rw [h2]
      rfl

theorem nthP_zip (hars pows : List Int) (i : Nat) (hi : i < hars.length)
    (hlen : hars.length = pows.length) :
    nthP (List.zip hars pows) i = (nth hars i 0, nth pows i 0) := by
  have hi' : i < pows.length := by omega
  simp [nthP, nth, List.getElem?_eq_getElem hi, List.getElem?_eq_getElem hi',
    List.getElem?_eq_getElem (show i < (List.zip hars pows).length by simp; omega)]

theorem corrVal_succ_effective (fuel : Nat) (qpoi qref : AliGFWCumulant K)
    (qol : Option (AliGFWCumulant K)) (ptbin : Int) (hars pows : List Int) :
    corrVal (fuel + 1) qpoi qref qol ptbin hars pows =
      if hars.length < 2 then
        (effectivePoi qpoi qol (nth pows 0 0)).Vec (nth hars 0 0) (nth pows 0 0) ptbin
      else if hars.length < 3 then
        TwoRec (nth hars 0 0) (nth hars 1 0) (nth pows 0 0) (nth pows 1 0) ptbin
          (effectivePoi qpoi qol (nth pows 0 0)) qref qol
      else
        loopVal (corrVal fuel (effectivePoi qpoi qol (nth pows 0 0)) qref qol ptbin)
          (nth hars (hars.length - 1) 0) (nth pows (pows.length - 1) 0)
          (hars.length - 1)
          (corrVal fuel (effectivePoi qpoi qol (nth pows 0 0)) qref qol ptbin
              hars.dropLast pows.dropLast *
            qref.Vec2 (nth hars (hars.length - 1) 0) (nth pows (pows.length - 1) 0))
          1 hars.dropLast pows.dropLast := by
  rfl

/-- The recursion with the degeneracy check computes the plain recursion. -/
theorem corrVal_eq_plainCorr (qref : AliGFWCumulant K) (qol : Option (AliGFWCumulant K))
    (ptbin : Int) :
    ∀ (fuel : Nat) (Q : AliGFWCumulant K) (hars pows : List Int),
      hars.length = pows.length → 0 < hars.length → hars.length ≤ fuel →
      corrVal fuel Q qref qol ptbin hars pows =
        plainCorr fuel Q qref qol ptbin (List.zip hars pows) := by
  intro fuel
  induction fuel with
  | zero => intro Q hars pows _ h0 hf; omega
  | succ fuel ih =>
    intro Q hars pows hlen h0 hf
    rw [corrVal_succ_effective]
    by_cases h2 : hars.length < 2
    · rw [if_pos h2]
      obtain ⟨h, rfl⟩ := List.length_eq_one.mp (show hars.length = 1 by omega)
      obtain ⟨p, rfl⟩ := List.length_eq_one.mp (show pows.length = 1 by rw [← hlen]; rfl)
      simp [plainCorr_succ, nth, nthP]
    · rw [if_neg h2]
      by_cases h3 : hars.length < 3
      · rw [if_pos h3]
        obtain ⟨a0, a1, rfl⟩ := List.length_eq_two.mp (show hars.length = 2 by omega)
        obtain ⟨p0, p1, rfl⟩ := List.length_eq_two.mp (show pows.length = 2 by rw [← hlen]; rfl)
        simp [plainCorr_succ, nth, nthP]
      · rw [if_neg h3]
        have hdl : hars.dropLast.length = hars.length - 1 := by simp
        have hdp : pows.dropLast.length = hars.length - 1 := by simp [hlen]
        have hzl : (List.zip hars.dropLast pows.dropLast).length = hars.length - 1 := by
          rw [List.length_zip, hdl, hdp, Nat.min_self]
        have hhead : (nthP (List.zip hars.dropLast pows.dropLast) 0).2 = nth pows 0 0 := by
          rw [nthP_zip _ _ 0 (by omega) (by omega)]
          have hp0 : 0 < pows.length := by omega
          have hd0 : 0 < pows.dropLast.length := by omega
          simp only [nth, List.getElem?_eq_getElem hp0, List.getElem?_eq_getElem hd0,
            Option.getD_some, List.getElem_dropLast]
        have hrec : ∀ j, j < hars.length - 1 →
            corrVal fuel (effectivePoi Q qol (nth pows 0 0)) qref qol ptbin
                (mergeAt hars.dropLast j (nth hars (hars.length - 1) 0))
                (mergeAt pows.dropLast j (nth pows (pows.length - 1) 0)) =
              plainCorr fuel (effectivePoi Q qol (nth pows 0 0)) qref qol ptbin
                (mergeP (List.zip hars.dropLast pows.dropLast) j
                  (nth hars (hars.length - 1) 0, nth pows (pows.length - 1) 0)) := by
          intro j _
          rw [ih _ _ _ (by rw [length_mergeAt, length_mergeAt, hdl, hdp])
            (by rw [length_mergeAt]; omega) (by rw [length_mergeAt]; omega), zip_mergeAt]
        rw [loopVal_eq _ _ _ _ _ ?_ _ _ _ (by omega) (le_refl _) (fun _ => rfl)]
        · rw [ih _ _ _ (by rw [hdl, hdp]) (by omega) (by omega),
            zip_dropLast_append hars pows hlen h0,
            plainCorr_snoc _ _ _ _ _ _ _ (by rw [hzl]; omega), hhead, hzl]
          rw [Finset.sum_congr rfl (fun j hj => hrec j (Finset.mem_range.mp hj))]
          push_cast
          ring
        · intro i hi2 hil hh hp
          rw [hdl] at hil
          rw [show i = (i - 1) + 1 by omega, hrec _ (by omega),
            show i - 1 + 1 - 1 = i - 1 by omega, hrec _ (by omega)]
          obtain ⟨A, e, B, hA, hl, h1, h2⟩ := mergeP_neighbours
            (nth hars (hars.length - 1) 0, nth pows (pows.length - 1) 0)
            (List.zip hars.dropLast pows.dropLast) (i - 1) (by rw [hzl]; omega)
            (by
              rw [show i - 1 + 1 = i by omega]
              exact zip_getElem?_eq _ _ _ _ (by omega) (by omega) (by rw [hdl, hdp]) hh hp)
          rw [h1, h2]
          refine (plainCorr_swap qref qol ptbin fuel _ A B _ _ (by omega) ?_).symm
          simp only [List.length_append, List.length_cons]
          rw [hzl] at hl
          omega

/-- The plain recursion does not depend on the fuel once there is one unit per pair. -/
theorem plainCorr_fuel (qref : AliGFWCumulant K) (qol : Option (AliGFWCumulant K))
    (ptbin : Int) :
    ∀ (f1 f2 : Nat) (Q : AliGFWCumulant K) (L : List (Int × Int)),
      0 < L.length → L.length ≤ f1 → L.length ≤ f2 →
      plainCorr f1 Q qref qol ptbin L = plainCorr f2 Q qref qol ptbin L := by
  intro f1
  induction f1 with
  | zero => intro f2 Q L h0 h1 _; omega
  | succ f1 ih =>
    intro f2 Q L h0 h1 h2
    obtain ⟨g, rfl⟩ : ∃ g, f2 = g + 1 := ⟨f2 - 1, by omega⟩
    rw [plainCorr_succ, plainCorr_succ]
    by_cases hl2 : L.length < 2
    · rw [if_pos hl2, if_pos hl2]
    · rw [if_neg hl2, if_neg hl2]
      by_cases hl3 : L.length < 3
      · rw [if_pos hl3, if_pos hl3]
      · rw [if_neg hl3, if_neg hl3]
        have hd : L.dropLast.length = L.length - 1 := by simp
        rw [ih g _ L.dropLast (by omega) (by omega) (by omega)]
        congr 1
        refine Finset.sum_congr rfl (fun i _ => ?_)
        exact ih g _ _ (by rw [length_mergeP]; omega) (by rw [length_mergeP]; omega)
          (by rw [length_mergeP]; omega)

end PlainLemmas

section DifferentialLemmas

variable {K : Type} [CommRing K] {ι : Type} [DecidableEq ι]

theorem sum_erase_eq (c : ι → K) (R : Finset ι) (k : ι) :
    ∑ j in R.erase k, c j = (∑ j in R, c j) - (if k ∈ R then c k else 0) := by
  by_cases hk : k ∈ R
  · rw [if_pos hk, ← Finset.add_sum_erase R _ hk]
    ring
  · rw [if_neg hk, Finset.erase_eq_of_not_mem hk, sub_zero]

/-- The enumeration with a point of interest, unfolded at its last pair. -/
theorem distinctSumDiff_snoc (c : ι → Int → Int → K)
    (hmul : ∀ k n n' p p', c k (n + n') (p + p') = c k n p * c k n' p')
    (A R : Finset ι) (x0 z : Int × Int) (rest : List (Int × Int)) :
    distinctSumDiff c A R (x0 :: (rest ++ [z])) =
      distinctSumDiff c A R (x0 :: rest) * (∑ j in R, c j z.1 z.2) -
        distinctSumDiff c (A ∩ R) R ((x0.1 + z.1, x0.2 + z.2) :: rest) -
        ∑ i in Finset.range rest.length, distinctSumDiff c A R (x0 :: mergeP rest i z) := by
  simp only [distinctSumDiff]
  rw [Finset.sum_comm, Finset.sum_mul, ← Finset.filter_mem_eq_inter, Finset.sum_filter,
    ← Finset.sum_sub_distrib, ← Finset.sum_sub_distrib]
  refine Finset.sum_congr rfl (fun k _ => ?_)
  rw [distinctSum_perm c (List.perm_append_singleton z rest) (R.erase k),
    distinctSum_merge c hmul z rest (R.erase k), sum_erase_eq (fun j => c j z.1 z.2) R k,
    ← Finset.mul_sum, hmul]
  by_cases hk : k ∈ R
  · simp only [hk, if_true]
    ring
  · simp only [hk, if_false]
    ring

theorem nthP_cons_zero (x : Int × Int) (T : List (Int × Int)) : nthP (x :: T) 0 = x := by
  simp [nthP]

theorem nthP_cons_one (x y : Int × Int) (T : List (Int × Int)) : nthP (x :: y :: T) 1 = y := by
  simp [nthP]

theorem mergeP_pos (z : Int × Int) (hz : 1 ≤ z.2) :
    ∀ (L : List (Int × Int)) (i : Nat), (∀ x ∈ L, 1 ≤ x.2) → ∀ x ∈ mergeP L i z, 1 ≤ x.2
  | [], _, _, x, hx => by simp [mergeP] at hx
  | a :: L, 0, h, x, hx => by
    simp only [mergeP, List.mem_cons] at hx
    rcases hx with rfl | hx
    · have := h a (by simp)
      show 1 ≤ a.2 + z.2
      omega
    · exact h x (by simp [hx])
  | a :: L, i + 1, h, x, hx => by
    simp only [mergeP, List.mem_cons] at hx
    rcases hx with rfl | hx
    · exact h x (by simp)
    · exact mergeP_pos z hz L i (fun y hy => h y (by simp [hy])) x hx

/-- With stores holding the sums over `P`, over `R` and over their intersection, the
plain recursion on positive powers is the enumeration with a point of interest; the
first particle ranges over the intersection once the first power is not 1. -/
theorem plainCorr_eq_distinctSumDiff (c : ι → Int → Int → K)
    (hmul : ∀ k n n' p p', c k (n + n') (p + p') = c k n p * c k n' p')
    (P R : Finset ι) (poi ref ovl : AliGFWCumulant K)
    (hP : ∀ n p, poi.Vec n p 0 = ∑ k in P, c k n p)
    (hR : ∀ n p, ref.Vec n p 0 = ∑ k in R, c k n p)
    (hO : ∀ n p, ovl.Vec n p 0 = ∑ k in P ∩ R, c k n p) :
    ∀ (fuel : Nat) (Q : AliGFWCumulant K) (L : List (Int × Int)),
      0 < L.length → L.length ≤ fuel → (∀ x ∈ L, 1 ≤ x.2) → ((nthP L 0).2 = 1 → Q = poi) →
      plainCorr fuel Q ref (some ovl) 0 L =
        distinctSumDiff c (if (nthP L 0).2 = 1 then P else P ∩ R) R L := by
  intro fuel
  induction fuel with
  | zero => intro Q L h0 hf; omega
  | succ f ih =>
    intro Q L h0 hf hpos hQ
    obtain ⟨x0, T, rfl⟩ : ∃ x0 T, L = x0 :: T := by
      cases L with
      | nil => simp at h0
      | cons x0 T => exact ⟨x0, T, rfl⟩
    rw [nthP_cons_zero] at hQ ⊢
    have hvec : ∀ n p, (effectivePoi Q (some ovl) x0.2).Vec n p 0 =
        ∑ k in (if x0.2 = 1 then P else P ∩ R), c k n p := by
      intro n p
      by_cases h1 : x0.2 = 1
      · rw [if_pos h1, effectivePoi, if_neg (not_not.mpr h1), hQ h1, hP]
      · rw [if_neg h1, effectivePoi, if_pos h1, hO]
    have hinter : (if x0.2 = 1 then P else P ∩ R) ∩ R = P ∩ R := by
      by_cases h1 : x0.2 = 1
      · rw [if_pos h1]
      · rw [if_neg h1, Finset.inter_assoc, Finset.inter_self]
    have hT : T = [] ∨ ∃ T' z, T = T' ++ [z] := by
      rcases List.eq_nil_or_concat T with h | ⟨T', z, h⟩
      · exact Or.inl h
      · exact Or.inr ⟨T', z, by rw [h, List.concat_eq_append]⟩
    rcases hT with rfl | ⟨T', z, rfl⟩
    · rw [plainCorr_succ, if_pos (by simp)]
      simp only [nthP_cons_zero, hvec, distinctSumDiff, distinctSum, mul_one]
    · cases T' with
      | nil =>
        rw [plainCorr_succ, if_neg (by simp), if_pos (by simp)]
        rw [distinctSumDiff_snoc c hmul _ R x0 z [], hinter]
        simp only [List.nil_append, nthP_cons_zero, nthP_cons_one, TwoRec, hvec, hR, hO,
          distinctSumDiff, distinctSum, mul_one, List.length_nil, Finset.range_zero,
          Finset.sum_empty, sub_zero]
      | cons y T'' =>
        have hz : 1 ≤ z.2 := hpos z (by simp)
        have hx0 : 1 ≤ x0.2 := hpos x0 (by simp)
        have hposL0 : ∀ x ∈ x0 :: y :: T'', 1 ≤ x.2 := by
          intro x hx
          apply hpos x
          simp only [List.mem_cons, List.mem_append, List.cons_append] at hx ⊢
          tauto
        have hlenL0 : (x0 :: y :: T'').length ≤ f := by
          simp only [List.length_cons, List.length_append, List.length_singleton] at hf ⊢
          omega
        have hQ' : x0.2 = 1 → effectivePoi Q (some ovl) x0.2 = poi := by
          intro h1
          rw [effectivePoi, if_neg (not_not.mpr h1), hQ h1]
        have e : x0 :: (y :: T'' ++ [z]) = (x0 :: y :: T'') ++ [z] := rfl
        rw [e, plainCorr_snoc _ _ _ _ _ _ _ (by simp), nthP_cons_zero,
          ih _ (x0 :: y :: T'') (by simp) hlenL0 hposL0 (by rw [nthP_cons_zero]; exact hQ'),
          nthP_cons_zero, List.length_cons, Finset.sum_range_succ', AliGFWCumulant.Vec2, hR]
        have hzero : plainCorr f (effectivePoi Q (some ovl) x0.2) ref (some ovl) 0
            (mergeP (x0 :: y :: T'') 0 z) =
            distinctSumDiff c (P ∩ R) R ((x0.1 + z.1, x0.2 + z.2) :: y :: T'') := by
          rw [ih _ _ (by rw [length_mergeP]; simp) (by rw [length_mergeP]; exact hlenL0)
            (mergeP_pos z hz _ 0 hposL0)
            (by
              intro h1
              simp only [mergeP, nthP_cons_zero] at h1
              omega)]
          have hne : ¬ (nthP (mergeP (x0 :: y :: T'') 0 z) 0).2 = 1 := by
            simp only [mergeP, nthP_cons_zero]
            omega
          rw [if_neg hne]
          rfl
        have hsucc : ∀ i ∈ Finset.range (y :: T'').length,
            plainCorr f (effectivePoi Q (some ovl) x0.2) ref (some ovl) 0
              (mergeP (x0 :: y :: T'') (i + 1) z) =
            distinctSumDiff c (if x0.2 = 1 then P else P ∩ R) R
              (x0 :: mergeP (y :: T'') i z) := by
          intro i _
          rw [ih _ _ (by rw [length_mergeP]; simp) (by rw [length_mergeP]; exact hlenL0)
            (mergeP_pos z hz _ (i + 1) hposL0)
            (by
              intro h1
              simp only [mergeP, nthP_cons_zero] at h1
              exact hQ' h1)]
          simp only [mergeP, nthP_cons_zero]
        rw [hzero, Finset.sum_congr rfl hsucc, ← e,
          distinctSumDiff_snoc c hmul _ R x0 z (y :: T''), hinter]
        ring

/-- The enumeration one position at a time, with a point of interest, is the sum over
injective maps that send position 0 into `P` and the other positions into `R`. -/
theorem distinctSumDiff_eq_bruteForceDiff [Fintype ι] (c : ι → Int → Int → K)
    (P R : Finset ι) (x : Int) (L : List Int) :
    distinctSumDiff c P R ((x :: L).map (fun h => (h, (1 : Int)))) =
      bruteForceDiff c P R (x :: L) := by
  unfold bruteForceDiff
  rw [Finset.sum_filter]
  have hre := (Fin.consEquiv (fun _ : Fin (L.length + 1) => ι)).sum_comp
    (fun f : Fin (L.length + 1) → ι =>
      if Function.Injective f ∧ ∀ j, f j ∈ (if j.val = 0 then P else R) then
        ∏ j : Fin (L.length + 1), c (f j) ((x :: L).get j) 1 else 0)
  rw [show (∑ f : Fin (x :: L).length → ι,
        if Function.Injective f ∧ ∀ j, f j ∈ (if j.val = 0 then P else R) then
          ∏ j : Fin (x :: L).length, c (f j) ((x :: L).get j) 1 else 0) =
      ∑ f : Fin (L.length + 1) → ι,
        if Function.Injective f ∧ ∀ j, f j ∈ (if j.val = 0 then P else R) then
          ∏ j : Fin (L.length + 1), c (f j) ((x :: L).get j) 1 else 0
      from rfl, ← hre, Fintype.sum_prod_type]
  rw [List.map_cons, distinctSumDiff]
  symm
  rw [← Finset.sum_subset (Finset.subset_univ P)]
  · refine Finset.sum_congr rfl (fun k hk => ?_)
    rw [distinctSum_eq_sum_injective, Finset.sum_filter, Finset.mul_sum]
    refine Finset.sum_congr rfl (fun g _ => ?_)
    have hcons : (Fin.consEquiv (fun _ : Fin (L.length + 1) => ι)) (k, g) = Fin.cons k g := rfl
    rw [hcons]
    have hiff : (Function.Injective (Fin.cons k g : Fin (L.length + 1) → ι) ∧
        ∀ j : Fin (L.length + 1),
          (Fin.cons k g : Fin (L.length + 1) → ι) j ∈ (if j.val = 0 then P else R)) ↔
        (Function.Injective g ∧ ∀ j, g j ∈ R.erase k) := by
      rw [Fin.cons_injective_iff, Fin.forall_fin_succ]
      simp only [Fin.cons_zero, Fin.cons_succ, Finset.mem_erase, Set.mem_range, not_exists,
        Fin.val_zero, if_true, Fin.val_succ, Nat.succ_ne_zero, if_false]
      constructor
      · rintro ⟨⟨h1, h2⟩, _, h4⟩
        exact ⟨h2, fun j => ⟨h1 j, h4 j⟩⟩
      · rintro ⟨h1, h2⟩
        exact ⟨⟨fun j => (h2 j).1, h1⟩, hk, fun j => (h2 j).2⟩
    by_cases hP : Function.Injective g ∧ ∀ j, g j ∈ R.erase k
    · rw [if_pos hP, if_pos (hiff.mpr hP), Fin.prod_univ_succ]
      rfl
    · rw [if_neg hP, if_neg (fun h => hP (hiff.mp h)), mul_zero]
  · intro k _ hk
    refine Finset.sum_eq_zero (fun g _ => ?_)
    rw [if_neg]
    rintro ⟨_, h2⟩
    have := h2 0
    simp only [Fin.val_zero, if_true] at this
    exact hk this

end DifferentialLemmas

section DecimalLemmas

theorem digitChar_isDigit (d : Nat) (hd : d < 10) :
    (Nat.digitChar d).isDigit = true ∧ (Nat.digitChar d).toNat - '0'.toNat = d := by
  interval_cases d <;> exact ⟨rfl, rfl⟩

theorem toDigitsCore_isDigit :
    ∀ (fuel n : Nat) (ds : List Char) (c : Char),
      c ∈ Nat.toDigitsCore 10 fuel n ds → c.isDigit = true ∨ c ∈ ds
  | 0, _, _, _, h => Or.inr h
  | fuel + 1, n, ds, c, h => by
    simp only [Nat.toDigitsCore] at h
    have hd := (digitChar_isDigit (n % 10) (Nat.mod_lt _ (by decide))).1
    split at h
    · rcases List.mem_cons.mp h with rfl | h
      · exact Or.inl hd
      · exact Or.inr h
    · rcases toDigitsCore_isDigit fuel (n / 10) _ c h with h | h
      · exact Or.inl h
      · rcases List.mem_cons.mp h with rfl | h
        · exact Or.inl hd
        · exact Or.inr h

theorem digitsValue_cons_digit (a d : Nat) (hd : d < 10) (cs : List Char) :
    TStr.digitsValue a (Nat.digitChar d :: cs) = TStr.digitsValue (a * 10 + d) cs := by
  have h := digitChar_isDigit d hd
  rw [TStr.digitsValue, if_pos h.1, h.2]

theorem toDigitsCore_value :
    ∀ (fuel n : Nat), n < fuel →
      ∃ m : Nat, ∀ (a : Nat) (ds : List Char),
        TStr.digitsValue a (Nat.toDigitsCore 10 fuel n ds) =
          TStr.digitsValue (a * 10 ^ m + n) ds
  | 0, _, h => by omega
  | fuel + 1, n, h => by
    by_cases h0 : n / 10 = 0
    · refine ⟨1, fun a ds => ?_⟩
      simp only [Nat.toDigitsCore, h0, if_true]
      rw [digitsValue_cons_digit _ _ (Nat.mod_lt _ (by decide))]
      congr 1
      omega
    · obtain ⟨m, hm⟩ := toDigitsCore_value fuel (n / 10) (by omega)
      refine ⟨m + 1, fun a ds => ?_⟩
      simp only [Nat.toDigitsCore, h0, if_false]
      rw [hm, digitsValue_cons_digit _ _ (Nat.mod_lt _ (by decide))]
      congr 1
      rw [pow_succ]
      have := Nat.div_add_mod n 10
      nlinarith

theorem toDigits_value (n : Nat) : TStr.digitsValue 0 (Nat.toDigits 10 n) = n := by
  obtain ⟨m, hm⟩ := toDigitsCore_value (n + 1) n (by omega)
  rw [Nat.toDigits, hm]
  simp [TStr.digitsValue]

theorem toDigits_isDigit (n : Nat) (c : Char) (h : c ∈ Nat.toDigits 10 n) :
    c.isDigit = true := by
  rcases toDigitsCore_isDigit (n + 1) n [] c h with h | h
  · exact h
  · simp at h

theorem toDigits_ne_nil (n : Nat) : Nat.toDigits 10 n ≠ [] := by
  unfold Nat.toDigits
  simp only [Nat.toDigitsCore]
  split
  · simp
  · intro h
    have hm : Nat.digitChar (n % 10) ∈ Nat.toDigitsCore 10 n (n / 10) [Nat.digitChar (n % 10)] := by
      have : ∀ (fuel k : Nat) (ds : List Char) (c : Char), c ∈ ds →
          c ∈ Nat.toDigitsCore 10 fuel k ds := by
        intro fuel
        induction fuel with
        | zero => intro k ds c hc; exact hc
        | succ f ih =>
          intro k ds c hc
          simp only [Nat.toDigitsCore]
          split
          · exact List.mem_cons_of_mem _ hc
          · exact ih _ _ _ (List.mem_cons_of_mem _ hc)
      exact this _ _ _ _ (by simp)
    rw [h] at hm
    simp at hm

theorem decimal_chars (h : Int) (c : Char) (hc : c ∈ decimal h) :
    c.isDigit = true ∨ c = '-' := by
  unfold decimal at hc
  split at hc
  · rcases List.mem_cons.mp hc with rfl | hc
    · exact Or.inr rfl
    · exact Or.inl (toDigits_isDigit _ _ hc)
  · exact Or.inl (toDigits_isDigit _ _ hc)

theorem decimal_ne_nil (h : Int) : decimal h ≠ [] := by
  unfold decimal
  split
  · simp
  · exact toDigits_ne_nil _

theorem isDigit_not_special (c : Char) (hc : c.isDigit = true ∨ c = '-') :
    c ≠ ' ' ∧ c ≠ ',' ∧ c ≠ ';' ∧ c ≠ '|' ∧ c ≠ '(' ∧ c ≠ ')' ∧ c ≠ '{' ∧ c ≠ '}' ∧
      c ≠ '+' ∧ TStr.isspace c = false := by
  rcases hc with hc | rfl
  · refine ⟨?_, ?_, ?_, ?_, ?_, ?_, ?_, ?_, ?_, ?_⟩ <;>
      first
      | (rintro rfl; exact absurd hc (by decide))
      | (cases hs : TStr.isspace c
         · rfl
         · simp only [TStr.isspace, Bool.or_eq_true, beq_iff_eq] at hs
           rcases hs with ((((rfl | rfl) | rfl) | rfl) | rfl) | rfl <;>
             exact absurd hc (by decide))
  · decide

theorem filter_blank_id (t : List Char) (h : ' ' ∉ t) :
    t.filter (fun c => c != ' ') = t := by
  rw [List.filter_eq_self]
  intro c hc
  simp only [bne_iff_ne, ne_eq]
  rintro rfl
  exact h hc

theorem atoi_digits (n : Nat) : TStr.atoi (Nat.toDigits 10 n) = (n : Int) := by
  obtain ⟨c, cs, hcs⟩ : ∃ c cs, Nat.toDigits 10 n = c :: cs := by
    cases h : Nat.toDigits 10 n with
    | nil => exact absurd h (toDigits_ne_nil n)
    | cons c cs => exact ⟨c, cs, rfl⟩
  have hc : c.isDigit = true := toDigits_isDigit n c (by rw [hcs]; simp)
  have hsp := isDigit_not_special c (Or.inl hc)
  have hv := toDigits_value n
  rw [hcs] at hv ⊢
  unfold TStr.atoi
  rw [List.dropWhile_cons_of_neg (by rw [hsp.2.2.2.2.2.2.2.2.2]; simp)]
  split
  · rename_i h
    rw [List.cons.injEq] at h
    exact absurd h.1 (by
      rintro rfl
      exact absurd hc (by decide))
  · rename_i h
    rw [List.cons.injEq] at h
    exact absurd h.1 hsp.2.2.2.2.2.2.2.2.1
  · rw [hv]

theorem Atoi_decimal (h : Int) : TStr.Atoi (decimal h) = h := by
  unfold TStr.Atoi
  rw [filter_blank_id _ (fun hm => (isDigit_not_special _ (decimal_chars h _ hm)).1 rfl)]
  unfold decimal
  by_cases hneg : h < 0
  · rw [if_pos hneg]
    have hv := toDigits_value h.natAbs
    unfold TStr.atoi
    rw [List.dropWhile_cons_of_neg (by decide)]
    simp only [hv]
    omega
  · rw [if_neg hneg, atoi_digits]
    omega

theorem Atoi_toDigits (k : Nat) : TStr.Atoi (Nat.toDigits 10 k) = (k : Int) := by
  unfold TStr.Atoi
  rw [filter_blank_id _ (fun hm =>
    (isDigit_not_special _ (Or.inl (toDigits_isDigit k _ hm))).1 rfl), atoi_digits]

theorem harmonicTokens_ok : ∀ hs : List Int, TokensOK (harmonicTokens hs)
  | [] => trivial
  | [h] =>
    ⟨decimal_ne_nil h, fun hm => (isDigit_not_special _ (decimal_chars h _ hm)).1 rfl,
      fun hne => absurd rfl hne, trivial⟩
  | h :: h' :: rest =>
    ⟨decimal_ne_nil h, fun hm => (isDigit_not_special _ (decimal_chars h _ hm)).1 rfl,
      fun _ => le_refl 1, harmonicTokens_ok (h' :: rest)⟩

theorem harmonicTokens_gap : ∀ (hs : List Int), ∀ it ∈ harmonicTokens hs, it.2 ≤ 1
  | [], it, h => by simp [harmonicTokens] at h
  | [_], it, h => by
    simp only [harmonicTokens, List.mem_singleton] at h
    rw [h]
    exact Nat.zero_le 1
  | _ :: h' :: rest, it, h => by
    simp only [harmonicTokens, List.mem_cons] at h
    rcases h with rfl | h
    · exact le_refl 1
    · exact harmonicTokens_gap (h' :: rest) it (by simpa [harmonicTokens] using h)

theorem harmonicTokens_chars : ∀ (hs : List Int), ∀ it ∈ harmonicTokens hs, ∀ c ∈ it.1,
    c.isDigit = true ∨ c = '-'
  | [], it, h => by simp [harmonicTokens] at h
  | [x], it, h => by
    simp only [harmonicTokens, List.mem_singleton] at h
    rw [h]
    exact fun c hc => decimal_chars x c hc
  | x :: h' :: rest, it, h => by
    simp only [harmonicTokens, List.mem_cons] at h
    rcases h with rfl | h
    · exact fun c hc => decimal_chars x c hc
    · exact harmonicTokens_chars (h' :: rest) it (by simpa [harmonicTokens] using h)

theorem harmonicTokens_atoi : ∀ hs : List Int,
    (harmonicTokens hs).map (fun it => TStr.Atoi it.1) = hs
  | [] => rfl
  | [h] => by simp [harmonicTokens, Atoi_decimal]
  | h :: h' :: rest => by
    have ih := harmonicTokens_atoi (h' :: rest)
    simp only [harmonicTokens, List.map_cons, Atoi_decimal] at ih ⊢
    rw [ih]

theorem tokenText_harmonicTokens : ∀ hs : List Int,
    tokenText (harmonicTokens hs) = [' '].intercalate (hs.map decimal)
  | [] => rfl
  | [h] => by simp [harmonicTokens, tokenText, List.intercalate]
  | h :: h' :: rest => by
    have ih := tokenText_harmonicTokens (h' :: rest)
    simp only [harmonicTokens, tokenText, List.map_cons, List.intercalate, List.intersperse,
      List.flatten, List.replicate, List.append_assoc] at ih ⊢
    rw [ih]

end DecimalLemmas

section StringLemmas

theorem indexFrom_single_append (c : Char) (post : List Char) :
    ∀ (pre : List Char) (k : Nat), c ∉ pre →
      TStr.indexFrom [c] (pre ++ c :: post) k = ((k + pre.length : Nat) : Int)
  | [], k, _ => by simp [TStr.indexFrom, TStr.startsWith]
  | x :: pre, k, h => by
    have hx : c ≠ x := fun e => h (by simp [e])
    have hs : ¬ TStr.startsWith [c] (x :: (pre ++ c :: post)) = true := by
      simp [TStr.startsWith, hx]
    rw [List.cons_append, TStr.indexFrom, if_neg hs,
      indexFrom_single_append c post pre (k + 1) (fun e => h (List.mem_cons_of_mem _ e))]
    simp only [List.length_cons]
    congr 1
    omega

/-- A pattern of two characters is found where it first stands. -/
theorem indexFrom_pair_found (a b : Char) (hab : a ≠ b) (post : List Char) :
    ∀ (pre : List Char) (k : Nat), b ∉ pre →
      TStr.indexFrom [a, b] (pre ++ a :: b :: post) k = ((k + pre.length : Nat) : Int)
  | [], k, _ => by simp [TStr.indexFrom, TStr.startsWith]
  | x :: pre, k, h => by
    have hb : (pre ++ a :: b :: post).head? ≠ some b :=
      head?_append_ne pre _ b (fun e => h (List.mem_cons_of_mem _ e))
        (by simp [hab])
    have hs : ¬ TStr.startsWith [a, b] (x :: (pre ++ a :: b :: post)) = true := by
      cases hl : pre ++ a :: b :: post with
      | nil => simp [TStr.startsWith]
      | cons y ys =>
        rw [hl] at hb
        have : b ≠ y := fun e => hb (by simp [e])
        simp [TStr.startsWith, this]
    rw [List.cons_append, TStr.indexFrom, if_neg hs,
      indexFrom_pair_found a b hab post pre (k + 1) (fun e => h (List.mem_cons_of_mem _ e))]
    simp only [List.length_cons]
    congr 1
    omega

/-- Replacing a pattern of two characters that stands once. -/
theorem replaceAllAux_pair (a b : Char) (hab : a ≠ b) (s2 post : List Char) (hpost : b ∉ post) :
    ∀ (pre : List Char), b ∉ pre →
      TStr.replaceAllAux [a, b] s2 0 (pre ++ a :: b :: post) = pre ++ s2 ++ post
  | [], _ => by
    rw [List.nil_append, replaceAllAux_cons _ _ _ _ (by simp), if_pos (by simp [TStr.startsWith])]
    simp only [List.length_cons, List.length_nil, List.drop_succ_cons, List.drop_zero,
      List.nil_append]
    rw [replaceAllAux_id [a, b] s2 (by simp) post 0
      (indexFrom_none_of_not_mem [a, b] b (by simp) post 0 hpost)]
  | x :: pre, h => by
    have hb : (pre ++ a :: b :: post).head? ≠ some b :=
      head?_append_ne pre _ b (fun e => h (List.mem_cons_of_mem _ e))
        (by simp [hab])
    have hs : ¬ TStr.startsWith [a, b] (x :: (pre ++ a :: b :: post)) = true := by
      cases hl : pre ++ a :: b :: post with
      | nil => simp [TStr.startsWith]
      | cons y ys =>
        rw [hl] at hb
        have : b ≠ y := fun e => hb (by simp [e])
        simp [TStr.startsWith, this]
    rw [List.cons_append, replaceAllAux_cons _ _ _ _ (by simp), if_neg hs,
      replaceAllAux_pair a b hab s2 post hpost pre (fun e => h (List.mem_cons_of_mem _ e))]
    simp

/-- A pattern of two characters does not occur where its second character stands once,
after a character other than its first. -/
theorem indexFrom_pair_none (a b : Char) (hab : a ≠ b) (post : List Char) (hpost : b ∉ post) :
    ∀ (pre : List Char) (k : Nat), b ∉ pre → pre.getLast? ≠ some a →
      TStr.indexFrom [a, b] (pre ++ b :: post) k = -1
  | [], k, _, _ => by
    have hs : ¬ TStr.startsWith [a, b] (b :: post) = true := by
      simp [TStr.startsWith, hab]
    rw [List.nil_append, TStr.indexFrom, if_neg hs]
    exact indexFrom_none_of_not_mem [a, b] b (by simp) post (k + 1) hpost
  | [x], k, _, hl => by
    have hx : a ≠ x := fun e => hl (by simp [e])
    have hs : ¬ TStr.startsWith [a, b] (x :: b :: post) = true := by
      simp [TStr.startsWith, hx]
    show TStr.indexFrom [a, b] (x :: ([] ++ b :: post)) k = -1
    rw [TStr.indexFrom, if_neg (by simpa using hs)]
    exact indexFrom_pair_none a b hab post hpost [] (k + 1) (by simp) (by simp)
  | x :: y :: pre, k, h, hl => by
    have hy : b ≠ y := fun e => h (by simp [e])
    have hs : ¬ TStr.startsWith [a, b] (x :: y :: (pre ++ b :: post)) = true := by
      simp [TStr.startsWith, hy]
    show TStr.indexFrom [a, b] (x :: ((y :: pre) ++ b :: post)) k = -1
    rw [TStr.indexFrom, if_neg (by simpa using hs)]
    exact indexFrom_pair_none a b hab post hpost (y :: pre) (k + 1)
      (fun e => h (List.mem_cons_of_mem _ e)) (by simpa using hl)

/-- A pattern of two characters does not occur where its first character stands once,
before a character other than its second. -/
theorem indexFrom_pair_none_first (a b : Char) (post : List Char) (hpost : a ∉ post)
    (hhead : post.head? ≠ some b) :
    ∀ (pre : List Char) (k : Nat), a ∉ pre →
      TStr.indexFrom [a, b] (pre ++ a :: post) k = -1
  | [], k, _ => by
    have hs : ¬ TStr.startsWith [a, b] (a :: post) = true := by
      cases post with
      | nil => simp [TStr.startsWith]
      | cons y ys =>
        have : b ≠ y := fun e => hhead (by simp [e])
        simp [TStr.startsWith, this]
    rw [List.nil_append, TStr.indexFrom, if_neg hs]
    exact indexFrom_none_of_not_mem [a, b] a (by simp) post (k + 1) hpost
  | x :: pre, k, h => by
    have hx : a ≠ x := fun e => h (by simp [e])
    have hs : ¬ TStr.startsWith [a, b] (x :: (pre ++ a :: post)) = true := by
      simp [TStr.startsWith, hx]
    rw [List.cons_append, TStr.indexFrom, if_neg hs]
    exact indexFrom_pair_none_first a b post hpost hhead pre (k + 1)
      (fun e => h (List.mem_cons_of_mem _ e))

/-- Removing the middle of three parts. -/
theorem Remove_middle (X Y Z : List Char) (n : Int) (hn : (Y.length : Int) ≤ n)
    (hz : Z = [] ∨ n = (Y.length : Int)) :
    TStr.Remove (X ++ Y ++ Z) (X.length : Int) n = X ++ Z := by
  unfold TStr.Remove
  rw [if_neg (by simp only [List.length_append]; push_cast; omega)]
  simp only [Int.toNat_ofNat, List.append_assoc, List.take_left]
  congr 1
  rcases hz with rfl | rfl
  · simp only [List.append_nil, List.length_append]
    rw [List.drop_eq_nil_iff]
    simp only [List.length_append]
    push_cast
    omega
  · have : (min (Y.length : Int) (((X ++ (Y ++ Z)).length : Int) - (X.length : Int))).toNat =
        Y.length := by
      simp only [List.length_append]
      push_cast
      omega
    rw [this, List.drop_append, List.drop_left]

end StringLemmas

section RegionFirst

theorem PlainName_not_mem (t : TString) (h : PlainName t) (c : Char)
    (hc : c = ' ' ∨ c = ',' ∨ c = ';' ∨ c = '|' ∨ c = '(' ∨ c = ')' ∨ c = '{' ∨ c = '}') :
    c ∉ t := by
  intro hm
  obtain ⟨h1, h2, h3, h4, h5, h6, h7, h8⟩ := h.2 c hm
  rcases hc with rfl | rfl | rfl | rfl | rfl | rfl | rfl | rfl
  · exact h1 rfl
  · exact h2 rfl
  · exact h3 rfl
  · exact h4 rfl
  · exact h5 rfl
  · exact h6 rfl
  · exact h7 rfl
  · exact h8 rfl

theorem PlainName_head (t : TString) (h : PlainName t) (r : List Char) (c : Char)
    (hc : c = ' ' ∨ c = ',' ∨ c = ';' ∨ c = '|' ∨ c = '(' ∨ c = ')' ∨ c = '{' ∨ c = '}') :
    (t ++ r).head? ≠ some c := by
  obtain ⟨x, xs, rfl⟩ : ∃ x xs, t = x :: xs := by
    cases t with
    | nil => exact absurd rfl h.1
    | cons x xs => exact ⟨x, xs, rfl⟩
  simp only [List.cons_append, List.head?_cons, ne_eq, Option.some.injEq]
  rintro rfl
  exact PlainName_not_mem _ h _ hc (by simp)

theorem PlainName_getLast (t : TString) (h : PlainName t) (l : List Char) :
    (l ++ t).getLast? ≠ some ' ' := by
  rw [List.getLast?_append_of_ne_nil _ h.1]
  intro hl
  exact PlainName_not_mem t h ' ' (Or.inl rfl) (List.mem_of_getLast?_eq_some hl)

theorem digits_not_mem (l : List Char) (hl : ∀ c ∈ l, c.isDigit = true ∨ c = '-') (c : Char)
    (hc : c = ' ' ∨ c = ',' ∨ c = ';' ∨ c = '|' ∨ c = '(' ∨ c = ')' ∨ c = '{' ∨ c = '}') :
    c ∉ l := by
  intro hm
  obtain ⟨h1, h2, h3, h4, h5, h6, h7, h8, _⟩ := isDigit_not_special c (hl c hm)
  rcases hc with rfl | rfl | rfl | rfl | rfl | rfl | rfl | rfl
  · exact h1 rfl
  · exact h2 rfl
  · exact h3 rfl
  · exact h4 rfl
  · exact h5 rfl
  · exact h6 rfl
  · exact h7 rfl
  · exact h8 rfl

/-- The region scan on the text "P R |O": both names are stored as regions and the
name after the bar as the overlap. -/
theorem regionLoop_regionFirst (fRegions : List Region) (P R O : TString)
    (hP : PlainName P) (hR : PlainName R) (hO : PlainName O)
    (hiP : 0 ≤ FindRegionByName fRegions P) (hiR : 0 ≤ FindRegionByName fRegions R)
    (hiO : 0 ≤ FindRegionByName fRegions O) (szend : Int) (fuel : Nat) (rc : CorrConfig)
    (hsz : ((P ++ ' ' :: (R ++ ' ' :: '|' :: O)).length : Int) < szend) :
    regionLoop fRegions (P ++ ' ' :: (R ++ ' ' :: '|' :: O)) szend (fuel + 4) 0 rc =
      some { Regs := pushToLast (pushToLast rc.Regs (FindRegionByName fRegions P))
               (FindRegionByName fRegions R),
             Hars := rc.Hars,
             Overlap := setLast rc.Overlap (FindRegionByName fRegions O),
             ptInd := rc.ptInd, pTDif := rc.pTDif, Head := rc.Head } := by
  have hPs : ' ' ∉ P := PlainName_not_mem P hP ' ' (Or.inl rfl)
  have hRs : ' ' ∉ R := PlainName_not_mem R hR ' ' (Or.inl rfl)
  have hOs : ' ' ∉ O := PlainName_not_mem O hO ' ' (Or.inl rfl)
  have hPb : '|' ∉ P := PlainName_not_mem P hP '|' (by simp)
  have hRb : '|' ∉ R := PlainName_not_mem R hR '|' (by simp)
  have hT1 : TStr.Tokenize (P ++ ' ' :: (R ++ ' ' :: '|' :: O)) 0 ' ' =
      (true, P, (P.length : Int) + 1) := by
    have := Tokenize_token [] P (R ++ ' ' :: '|' :: O) ' ' 1 hPs (le_refl 1)
      (PlainName_head R hR _ ' ' (Or.inl rfl))
    simpa using this
  have hT2 : TStr.Tokenize (P ++ ' ' :: (R ++ ' ' :: '|' :: O)) ((P.length : Int) + 1) ' ' =
      (true, R, (P.length : Int) + 1 + (R.length : Int) + 1) := by
    have := Tokenize_token (P ++ [' ']) R ('|' :: O) ' ' 1 hRs (le_refl 1) (by simp)
    simpa using this
  have hT3 : TStr.Tokenize (P ++ ' ' :: (R ++ ' ' :: '|' :: O))
      ((P.length : Int) + 1 + (R.length : Int) + 1) ' ' = (true, '|' :: O, TStr.kNPOS) := by
    have := Tokenize_last (P ++ ' ' :: (R ++ [' '])) ('|' :: O) ' '
      (by simp only [List.mem_cons, not_or]; exact ⟨by decide, hOs⟩) (by simp)
    have e : (P.length : Int) + 1 + (R.length : Int) + 1 =
        ((P ++ ' ' :: (R ++ [' '])).length : Int) := by
      simp only [List.length_append, List.length_cons, List.length_nil]
      push_cast
      omega
    rw [e]
    simpa using this
  have hlt1 : (P.length : Int) + 1 < szend := by
    simp only [List.length_append, List.length_cons] at hsz
    push_cast at hsz
    omega
  have hlt2 : (P.length : Int) + 1 + (R.length : Int) + 1 < szend := by
    simp only [List.length_append, List.length_cons] at hsz
    push_cast at hsz
    omega
  have hlt3 : TStr.kNPOS < szend := by
    have : (0 : Int) ≤ ((P ++ ' ' :: (R ++ ' ' :: '|' :: O)).length : Int) := Int.ofNat_nonneg _
    simp only [TStr.kNPOS]
    omega
  have hcP : TStr.Contains P "|".toList = false := by
    rw [show "|".toList = ['|'] from rfl, Contains_single]
    simpa using hPb
  have hcR : TStr.Contains R "|".toList = false := by
    rw [show "|".toList = ['|'] from rfl, Contains_single]
    simpa using hRb
  have hcO : TStr.Contains ('|' :: O) "|".toList = true := by
    rw [show "|".toList = ['|'] from rfl, Contains_single]
    simp
  have hrem : TStr.Remove ('|' :: O) 0 1 = O := by
    have := Remove_middle [] ['|'] O 1 (by simp) (Or.inr (by simp))
    simpa using this
  rw [show fuel + 4 = (fuel + 3) + 1 from rfl,
    regionLoop_region fRegions _ _ _ 0 rc P _ _ hT1 hlt1 hcP
      (EqualTo_blank_false P hP.1 hPs) rfl hiP,
    show fuel + 3 = (fuel + 2) + 1 from rfl,
    regionLoop_region fRegions _ _ _ _ _ R _ _ hT2 hlt2 hcR
      (EqualTo_blank_false R hR.1 hRs) rfl hiR,
    show fuel + 2 = (fuel + 1) + 1 from rfl,
    regionLoop_overlap fRegions _ _ _ _ _ ('|' :: O) _ _ hT3 hlt3 hcO
      (by rw [hrem]; exact EqualTo_blank_false O hO.1 hOs) (by rw [hrem]) hiO,
    regionLoop_none _ _ _ _ _ _ (Tokenize_none _ _ _ (Or.inr (by decide)))]

/-- The pT-bin block on a clause whose text ends with "(k) ": the bin is read, and
the parentheses with what they hold leave both the clause text and the descriptor. -/
theorem ptBinBlock_regionFirst (A kd rest : TString) (szend : Int)
    (hA1 : '(' ∉ A) (hA2 : ')' ∉ A) (hk : ')' ∉ kd) :
    ptBinBlock (A ++ '(' :: (kd ++ [')', ' '])) (A ++ '(' :: (kd ++ ')' :: rest)) szend =
      some (TStr.Atoi kd, A, A ++ rest, szend - ((kd.length : Int) + 2)) := by
  have e1 : TStr.Contains (A ++ '(' :: (kd ++ [')', ' '])) "(".toList = true := by
    rw [show "(".toList = ['('] from rfl, Contains_single]
    simp
  have e2 : TStr.Contains (A ++ '(' :: (kd ++ [')', ' '])) ")".toList = true := by
    rw [show ")".toList = [')'] from rfl, Contains_single]
    simp
  have i1 : TStr.Index (A ++ '(' :: (kd ++ [')', ' '])) "(".toList = (A.length : Int) := by
    have := indexFrom_single_append '(' (kd ++ [')', ' ']) A 0 hA1
    simpa [TStr.Index] using this
  have i2 : TStr.Index (A ++ '(' :: (kd ++ ')' :: rest)) "(".toList = (A.length : Int) := by
    have := indexFrom_single_append '(' (kd ++ ')' :: rest) A 0 hA1
    simpa [TStr.Index] using this
  have i3 : TStr.Index (A ++ '(' :: (kd ++ ')' :: rest)) ")".toList =
      (A.length : Int) + 1 + (kd.length : Int) := by
    have := indexFrom_single_append ')' rest (A ++ '(' :: kd) 0
      (by
        simp only [List.mem_append, List.mem_cons, not_or]
        exact ⟨hA2, by decide, hk⟩)
    simp only [TStr.Index, show ")".toList = [')'] from rfl]
    rw [show A ++ '(' :: (kd ++ ')' :: rest) = (A ++ '(' :: kd) ++ ')' :: rest by simp, this]
    simp only [List.length_append, List.length_cons]
    push_cast
    omega
  have hT : TStr.Tokenize (A ++ '(' :: (kd ++ [')', ' '])) ((A.length : Int) + 1) ')' =
      (true, kd, (A.length : Int) + 1 + (kd.length : Int) + 1) := by
    have := Tokenize_token (A ++ ['(']) kd [' '] ')' 1 hk (le_refl 1) (by simp)
    simpa using this
  have r1 : TStr.Remove (A ++ '(' :: (kd ++ [')', ' '])) (A.length : Int)
      ((A.length : Int) + 1 + (kd.length : Int) + 1 - (A.length : Int) + 1) = A := by
    have := Remove_middle A ('(' :: (kd ++ [')', ' '])) []
      ((A.length : Int) + 1 + (kd.length : Int) + 1 - (A.length : Int) + 1)
      (by
        simp only [List.length_append, List.length_cons, List.length_nil]
        push_cast
        omega)
      (Or.inl rfl)
    simpa using this
  have r2 : TStr.Remove (A ++ '(' :: (kd ++ ')' :: rest)) (A.length : Int)
      ((A.length : Int) + 1 + (kd.length : Int) - (A.length : Int) + 1) = A ++ rest := by
    have := Remove_middle A ('(' :: (kd ++ [')'])) rest
      ((A.length : Int) + 1 + (kd.length : Int) - (A.length : Int) + 1)
      (by
        simp only [List.length_append, List.length_cons, List.length_nil]
        push_cast
        omega)
      (Or.inr (by
        simp only [List.length_append, List.length_cons, List.length_nil]
        push_cast
        omega))
    simpa using this
  unfold ptBinBlock
  rw [e1, e2]
  simp only [Bool.not_true, Bool.false_eq_true, if_false, if_true, i1, hT, i2, i3, r1, r2]
  rw [show szend - ((A.length : Int) + 1 + (kd.length : Int) + 1 - (A.length : Int)) =
    szend - ((kd.length : Int) + 2) by omega]


theorem regionFirstDescriptor_eq (P R O : TString) (k : Nat) (hs : List Int) :
    regionFirstDescriptor P R O k hs =
      (P ++ ' ' :: (R ++ ' ' :: '|' :: O)) ++ ' ' :: '(' ::
        (Nat.toDigits 10 k ++ ')' :: ' ' :: '{' :: (tokenText (harmonicTokens hs) ++ ['}'])) := by
  rw [tokenText_harmonicTokens, regionFirstDescriptor, show " ".toList = [' '] from rfl,
    show " |".toList = [' ', '|'] from rfl, show " (".toList = [' ', '('] from rfl,
    show ") \x7b".toList = [')', ' ', '{'] from rfl, show "\x7d".toList = ['}'] from rfl]
  simp only [List.append_assoc, List.cons_append, List.nil_append]

/-- The clause "P R |O (k) {h_1 ... h_n}" in the normal form of its parts. -/
theorem GetCorrelatorConfig_regionFirst_aux (fRegions : List Region) (P R O : TString)
    (k : Nat) (hs : List Int) (head : TString) (ptdif : Bool)
    (hP : PlainName P) (hR : PlainName R) (hO : PlainName O)
    (hiP : 0 ≤ FindRegionByName fRegions P) (hiR : 0 ≤ FindRegionByName fRegions R)
    (hiO : 0 ≤ FindRegionByName fRegions O) :
    GetCorrelatorConfig fRegions
        ((P ++ ' ' :: (R ++ ' ' :: '|' :: O)) ++ ' ' :: '(' ::
          (Nat.toDigits 10 k ++ ')' :: ' ' :: '{' :: (tokenText (harmonicTokens hs) ++ ['}'])))
        head ptdif =
      some { Regs := [[FindRegionByName fRegions P, FindRegionByName fRegions R]],
             Hars := [hs], Overlap := [FindRegionByName fRegions O], ptInd := [(k : Int)],
             pTDif := ptdif, Head := head } := by
  have sp : ∀ c : Char, (c = ',' ∨ c = ';' ∨ c = '|' ∨ c = '(' ∨ c = ')' ∨ c = '{' ∨ c = '}') →
      (c = ' ' ∨ c = ',' ∨ c = ';' ∨ c = '|' ∨ c = '(' ∨ c = ')' ∨ c = '{' ∨ c = '}') :=
    fun c h => Or.inr h
  have hPn := PlainName_not_mem P hP
  have hRn := PlainName_not_mem R hR
  have hOn := PlainName_not_mem O hO
  have hkn := digits_not_mem (Nat.toDigits 10 k) (fun c hc => Or.inl (toDigits_isDigit k c hc))
  have hHn : ∀ c : Char,
      (c = ',' ∨ c = ';' ∨ c = '|' ∨ c = '(' ∨ c = ')' ∨ c = '{' ∨ c = '}') →
      c ∉ tokenText (harmonicTokens hs) := by
    intro c hc
    apply not_mem_tokenText c _ (by rcases hc with rfl | rfl | rfl | rfl | rfl | rfl | rfl <;> decide)
    intro it hit
    exact digits_not_mem it.1 (harmonicTokens_chars hs it hit) c (sp c hc)
  generalize hA : P ++ ' ' :: (R ++ ' ' :: '|' :: O) = A
  generalize hkd : Nat.toDigits 10 k = kd at hkn ⊢
  generalize hH : tokenText (harmonicTokens hs) = H at hHn ⊢
  have hAn : ∀ c : Char, (c = ',' ∨ c = ';' ∨ c = '(' ∨ c = ')' ∨ c = '{' ∨ c = '}') → c ∉ A := by
    intro c hc
    have hc' : c = ' ' ∨ c = ',' ∨ c = ';' ∨ c = '|' ∨ c = '(' ∨ c = ')' ∨ c = '{' ∨ c = '}' := by
      tauto
    rw [← hA]
    simp only [List.mem_append, List.mem_cons, not_or]
    refine ⟨hPn c hc', ?_, hRn c hc', ?_, ?_, hOn c hc'⟩ <;>
      rcases hc with rfl | rfl | rfl | rfl | rfl | rfl <;> decide
  have hAlen : A.length = P.length + R.length + O.length + 3 := by
    rw [← hA]
    simp only [List.length_append, List.length_cons]
    omega
  have hAlast : A.getLast? ≠ some ' ' := by
    rw [← hA, show P ++ ' ' :: (R ++ ' ' :: '|' :: O) = (P ++ ' ' :: (R ++ [' ', '|'])) ++ O by simp]
    exact PlainName_getLast O hO _
  have hcomma : ',' ∉ A ++ ' ' :: '(' :: (kd ++ ')' :: ' ' :: '{' :: (H ++ ['}'])) := by
    simp only [List.mem_append, List.mem_cons, List.mem_singleton, List.not_mem_nil, not_or]
    exact ⟨hAn _ (by simp), by decide, by decide, hkn _ (by simp), by decide, by decide,
      by decide, hHn _ (by simp), by decide, not_false⟩
  have hsemi : ';' ∉ A ++ ' ' :: '(' :: (kd ++ ')' :: ' ' :: '{' :: (H ++ ['}'])) := by
    simp only [List.mem_append, List.mem_cons, List.mem_singleton, List.not_mem_nil, not_or]
    exact ⟨hAn _ (by simp), by decide, by decide, hkn _ (by simp), by decide, by decide,
      by decide, hHn _ (by simp), by decide, not_false⟩
  have hpost3 : '(' ∉ kd ++ ')' :: ' ' :: '{' :: (H ++ ['}']) := by
    simp only [List.mem_append, List.mem_cons, List.mem_singleton, List.not_mem_nil, not_or]
    exact ⟨hkn _ (by simp), by decide, by decide, by decide, hHn _ (by simp), by decide,
      not_false⟩
  have hbar : TStr.Index (A ++ ' ' :: '(' :: (kd ++ ')' :: ' ' :: '{' :: (H ++ ['}'])))
      "| ".toList = -1 := by
    rw [← hA, show (P ++ ' ' :: (R ++ ' ' :: '|' :: O)) ++ ' ' :: '(' ::
        (kd ++ ')' :: ' ' :: '{' :: (H ++ ['}'])) =
      (P ++ ' ' :: (R ++ [' '])) ++ '|' ::
        (O ++ ' ' :: '(' :: (kd ++ ')' :: ' ' :: '{' :: (H ++ ['}']))) by simp]
    refine indexFrom_pair_none_first '|' ' ' _ ?_ (PlainName_head O hO _ ' ' (Or.inl rfl)) _ 0 ?_
    · simp only [List.mem_append, List.mem_cons, List.mem_singleton, List.not_mem_nil, not_or]
      exact ⟨hOn _ (by simp), by decide, by decide, hkn _ (by simp), by decide, by decide,
        by decide, hHn _ (by simp), by decide, not_false⟩
    · simp only [List.mem_append, List.mem_cons, List.mem_singleton, List.not_mem_nil, not_or]
      exact ⟨hPn _ (by simp), by decide, hRn _ (by simp), by decide, not_false⟩
  have hfound : TStr.Index (A ++ ' ' :: '(' :: (kd ++ ')' :: ' ' :: '{' :: (H ++ ['}'])))
      " (".toList > -1 := by
    have := indexFrom_pair_found ' ' '(' (by decide) (kd ++ ')' :: ' ' :: '{' :: (H ++ ['}']))
      A 0 (hAn _ (by simp))
    rw [TStr.Index, show " (".toList = [' ', '('] from rfl, this]
    exact lt_of_lt_of_le (by decide) (Int.ofNat_nonneg _)
  have hrepl : TStr.ReplaceAll (A ++ ' ' :: '(' :: (kd ++ ')' :: ' ' :: '{' :: (H ++ ['}'])))
      " (".toList "(".toList = A ++ '(' :: (kd ++ ')' :: ' ' :: '{' :: (H ++ ['}'])) := by
    have := replaceAllAux_pair ' ' '(' (by decide) ['(']
      (kd ++ ')' :: ' ' :: '{' :: (H ++ ['}'])) hpost3 A (hAn _ (by simp))
    unfold TStr.ReplaceAll
    rw [if_neg (by decide), show " (".toList = [' ', '('] from rfl,
      show "(".toList = ['('] from rfl, this]
    simp
  have hnone : TStr.Index (A ++ '(' :: (kd ++ ')' :: ' ' :: '{' :: (H ++ ['}'])))
      " (".toList = -1 :=
    indexFrom_pair_none ' ' '(' (by decide) _ hpost3 A 0 (hAn _ (by simp)) hAlast
  have hdbl : TStr.Index (A ++ '(' :: (kd ++ ')' :: ' ' :: '{' :: (H ++ ['}'])))
      "  ".toList = -1 := by
    have hclose : ∀ j, TStr.indexFrom "  ".toList ['}'] j = -1 := fun j =>
      indexFrom_none_of_not_mem _ ' ' (by decide) _ j (by decide)
    have hH2 : ∀ j, TStr.indexFrom "  ".toList (H ++ ['}']) j = -1 := by
      rw [← hH]
      exact indexFrom_double_tokenText ['}'] (by decide) hclose _ (harmonicTokens_ok hs)
        (harmonicTokens_gap hs)
    have hbrace : ∀ j, TStr.indexFrom "  ".toList ('{' :: (H ++ ['}'])) j = -1 :=
      fun j => indexFrom_double_skip ['{'] _ (by decide) j (hH2 _)
    have hitems : TokensOK [(P, 1), (R, 1), ('|' :: (O ++ '(' :: (kd ++ [')'])), 1)] := by
      refine ⟨hP.1, hPn _ (Or.inl rfl), fun _ => le_refl 1, hR.1, hRn _ (Or.inl rfl),
        fun _ => le_refl 1, by simp, ?_, fun _ => le_refl 1, trivial⟩
      simp only [List.mem_append, List.mem_cons, List.mem_singleton, List.not_mem_nil, not_or]
      exact ⟨by decide, hOn _ (Or.inl rfl), by decide, hkn _ (Or.inl rfl), by decide⟩
    have := indexFrom_double_tokenText ('{' :: (H ++ ['}'])) (by simp) hbrace _ hitems
      (by
        intro it hit
        simp only [List.mem_cons, List.mem_singleton, List.not_mem_nil, or_false] at hit
        rcases hit with rfl | rfl | rfl <;> exact le_refl 1) 0
    rw [TStr.Index, ← hA]
    simpa [tokenText] using this
  have hts : '{' ∉ A ++ '(' :: (kd ++ [')', ' ']) := by
    simp only [List.mem_append, List.mem_cons, List.mem_singleton, List.not_mem_nil, not_or]
    exact ⟨hAn _ (by simp), by decide, hkn _ (by simp), by decide, by decide⟩
  have htslen : ((A ++ '(' :: (kd ++ [')', ' '])).length : Int) =
      (A.length : Int) + (kd.length : Int) + 3 := by
    simp only [List.length_append, List.length_cons, List.length_nil]
    push_cast
    omega
  have hTok : TStr.Tokenize (A ++ '(' :: (kd ++ ')' :: ' ' :: '{' :: (H ++ ['}']))) 0 '{' =
      (true, A ++ '(' :: (kd ++ [')', ' ']), (A.length : Int) + (kd.length : Int) + 4) := by
    have := Tokenize_token [] (A ++ '(' :: (kd ++ [')', ' '])) (H ++ ['}']) '{' 1 hts
      (le_refl 1) (head?_append_ne H ['}'] '{' (hHn _ (by simp)) (by decide))
    rw [show (A.length : Int) + (kd.length : Int) + 4 =
      (((([] : List Char).length + (A ++ '(' :: (kd ++ [')', ' '])).length + 1 : Nat)) : Int) by
        simp only [List.length_append, List.length_cons, List.length_nil]
        push_cast
        omega]
    simpa using this
  have hpt := ptBinBlock_regionFirst A kd (' ' :: '{' :: (H ++ ['}']))
    ((A.length : Int) + (kd.length : Int) + 4) (hAn _ (by simp)) (hAn _ (by simp))
    (hkn _ (by simp))
  rw [show (A.length : Int) + (kd.length : Int) + 4 - ((kd.length : Int) + 2) =
    (A.length : Int) + 2 by omega, ← hkd, Atoi_toDigits, hkd] at hpt
  obtain ⟨f, hf⟩ : ∃ f, A.length + 1 = f + 4 := ⟨A.length - 3, by omega⟩
  have hreg := regionLoop_regionFirst fRegions P R O hP hR hO hiP hiR hiO
    ((A.length : Int) + 2) f
    { Regs := emptyCorrConfig.Regs ++ [[]], Hars := emptyCorrConfig.Hars ++ [[]],
      Overlap := emptyCorrConfig.Overlap ++ [-1], ptInd := emptyCorrConfig.ptInd ++ [(k : Int)],
      pTDif := emptyCorrConfig.pTDif, Head := emptyCorrConfig.Head }
    (by rw [hA]; omega)
  rw [hA, ← hf] at hreg
  have hT2 : TStr.Tokenize (A ++ ' ' :: '{' :: (H ++ ['}'])) ((A.length : Int) + 2) '}' =
      (true, H, ((A ++ ' ' :: '{' :: (H ++ ['}'])).length : Int)) := by
    have := Tokenize_token (A ++ [' ', '{']) H [] '}' 1 (hHn _ (by simp)) (le_refl 1) (by simp)
    rw [show (A.length : Int) + 2 = ((A ++ [' ', '{']).length : Int) by
        simp only [List.length_append, List.length_cons, List.length_nil]
        push_cast
        omega,
      show ((A ++ ' ' :: '{' :: (H ++ ['}'])).length : Int) =
        ((((A ++ [' ', '{']).length + H.length + 1 : Nat)) : Int) by
        simp only [List.length_append, List.length_cons, List.length_nil]
        push_cast
        omega]
    simpa using this
  have hhar := harmonicLoop_tokens (harmonicTokens hs) (harmonicTokens_ok hs) []
    { Regs := pushToLast (pushToLast (emptyCorrConfig.Regs ++ [[]])
        (FindRegionByName fRegions P)) (FindRegionByName fRegions R),
      Hars := emptyCorrConfig.Hars ++ [[]],
      Overlap := setLast (emptyCorrConfig.Overlap ++ [-1]) (FindRegionByName fRegions O),
      ptInd := emptyCorrConfig.ptInd ++ [(k : Int)],
      pTDif := emptyCorrConfig.pTDif, Head := emptyCorrConfig.Head }
    (H.length + 1)
    (by
      have := length_tokenText_ge (harmonicTokens hs) (harmonicTokens_ok hs)
      rw [hH] at this
      omega)
  simp only [List.nil_append, List.length_nil, Nat.cast_zero, hH, harmonicTokens_atoi] at hhar
  obtain ⟨m, hm⟩ : ∃ m, (A ++ '(' :: (kd ++ ')' :: ' ' :: '{' :: (H ++ ['}']))).length = m + 1 :=
    ⟨_, by simp only [List.length_append, List.length_cons]; rfl⟩
  obtain ⟨n0, hn0⟩ : ∃ n0, (A ++ ' ' :: '(' :: (kd ++ ')' :: ' ' :: '{' :: (H ++ ['}']))).length =
      n0 + 1 := ⟨_, by simp only [List.length_append, List.length_cons]; rfl⟩
  rw [GetCorrelatorConfig_eq fRegions _ head ptdif
      (A ++ '(' :: (kd ++ ')' :: ' ' :: '{' :: (H ++ ['}'])))
      (A ++ '(' :: (kd ++ ')' :: ' ' :: '{' :: (H ++ ['}']))) _ _
      (by
        rw [ReplaceAll_id _ _ _ (indexFrom_none_of_not_mem _ ',' (by decide) _ 0 hcomma),
          ReplaceAll_id _ _ _ (indexFrom_none_of_not_mem _ ';' (by decide) _ 0 hsemi),
          ReplaceAll_id _ _ _ hbar, hn0, TStr.replaceWhile, if_pos hfound, hrepl]
        exact replaceWhile_id _ _ _ _ hnone)
      (replaceWhile_id _ _ _ _ hdbl) hTok,
    clauseLoop_step fRegions _ _ 0 emptyCorrConfig _ _ _ _ _ _ _ _ _ _ _ hTok hpt hreg hT2 hhar,
    hm, clauseLoop_none fRegions m _ _ _ (Tokenize_none _ _ _ (Or.inl rfl))]
  have h2 := foldl_pushToLast [] [] hs
  simp only [List.nil_append] at h2
  simp only [emptyCorrConfig, List.nil_append, h2]
  rfl

end RegionFirst

section ClaimsEngine

variable {K : Type}

/-- C11, the code against the claim.  `Clear` empties the result cache, so that
`FindCalculated` returns -1, resets every store and keeps the regions; and when a
reset store reports every pT bin unfilled, `Calculate` after `Clear` returns zero on
every request that is valid for the stores that exist.  But stores exist only after a
first `Fill`: with region A added, `Clear` called and no `Fill` ever, there is no store,
and `Calculate` on the one-clause request on region 0 throws at `fCumulants.at(ref)`
instead of returning zero. -/
theorem Clear_then_Calculate [CommRing K] (ops : CumulantOps K) :
    (∀ (s : AliGFWState K) (identifier : TString),
      FindCalculated (Clear ops s) identifier = -1 ∧
      (Clear ops s).fCalculatedNames = [] ∧ (Clear ops s).fCalculatedQs = [] ∧
      (Clear ops s).fCumulants = s.fCumulants.map ops.ResetQs ∧
      (Clear ops s).fRegions = s.fRegions) ∧
    (∀ (s : AliGFWState K) (corconf : CorrConfig) (ptbin : Int) (z d : Bool),
      (∀ q b, (ops.ResetQs q).IsPtBinFilled b = false) →
      ValidRequest s.fCumulants.length corconf →
      Calculate (Clear ops s).fCumulants corconf ptbin z d = .ok 0) ∧
    (Clear ops (AddRegion (AliGFWState.new : AliGFWState K) "A".toList 3 3 (-1) 1 1 1)).fRegions =
      [regionNamed "A"] ∧
    Calculate
        (Clear ops (AddRegion (AliGFWState.new : AliGFWState K) "A".toList 3 3 (-1) 1 1 1)).fCumulants
        { Regs := [[0]], Hars := [[2, -2]], Overlap := [-1], ptInd := [-1],
          pTDif := false, Head := [] } 0 false false = .error .outOfRange := by
  refine ⟨fun s identifier => ⟨rfl, rfl, rfl, rfl, rfl⟩, ?_, ?_, ?_⟩
  · intro s corconf ptbin z d hreset hv
    apply Calculate_unfilled
    · intro q hq b
      simp only [Clear, List.mem_map] at hq
      obtain ⟨q0, _, rfl⟩ := hq
      exact hreset q0 b
    · simpa [Clear] using hv
  · rw [AddRegion_eq]
    norm_num [Clear, AliGFWState.new, regionNamed]
  · rw [AddRegion_eq]
    norm_num [Clear, AliGFWState.new]
    rfl

/-- C12. Both `AddRegion` functions leave the object unchanged when the number of pT
bins is below 1, or the eta window has `min >= max`, or the name is empty; in every
other case they append exactly one region to the registry, carrying the given name,
harmonic count, power (or the first `lNhar` powers of the array), eta window, pT-bin
count and bit mask, and change nothing else. -/
theorem AddRegion_validation (s : AliGFWState K) (refName : TString) (lNhar lNpar : Int)
    (lNparVec : Nat → Int) (lEtaMin lEtaMax : Rat) (lNpT BitMask : Int) :
    AddRegion s refName lNhar lNpar lEtaMin lEtaMax lNpT BitMask =
        (if lNpT < 1 ∨ lEtaMin ≥ lEtaMax ∨ refName = [] then s
         else
          { s with fRegions := s.fRegions ++
              [{ Nhar := lNhar, Npar := lNpar, NparVec := [], EtaMin := lEtaMin,
                 EtaMax := lEtaMax, NpT := lNpT, rName := refName, BitMask := BitMask }] }) ∧
      AddRegionPowers s refName lNhar lNparVec lEtaMin lEtaMax lNpT BitMask =
        (if lNpT < 1 ∨ lEtaMin ≥ lEtaMax ∨ refName = [] then s
         else
          { s with fRegions := s.fRegions ++
              [{ Nhar := lNhar, Npar := 0,
                 NparVec := (List.range lNhar.toNat).map lNparVec, EtaMin := lEtaMin,
                 EtaMax := lEtaMax, NpT := lNpT, rName := refName,
                 BitMask := BitMask }] }) :=
  ⟨AddRegion_eq s refName lNhar lNpar lEtaMin lEtaMax lNpT BitMask,
    AddRegionPowers_eq s refName lNhar lNparVec lEtaMin lEtaMax lNpT BitMask⟩

/-- C13, the claim as stated fails.  Two calls of `AddRegion` with the name "A" and
otherwise valid arguments, on a new object, leave two regions named "A". -/
theorem AddRegion_same_name_counterexample :
    (runCalls (AliGFWState.new : AliGFWState Int)
        [AddCall.uniform "A".toList 3 3 (-1) 1 1 1,
         AddCall.uniform "A".toList 3 3 (-1) 1 1 1]).fRegions.map (fun r => r.rName) =
        ["A".toList, "A".toList] ∧
      ¬ ((runCalls (AliGFWState.new : AliGFWState Int)
        [AddCall.uniform "A".toList 3 3 (-1) 1 1 1,
         AddCall.uniform "A".toList 3 3 (-1) 1 1 1]).fRegions.map (fun r => r.rName)).Nodup := by
  rw [runCalls_regions]
  simp [AliGFWState.new, AddCall.valid, AddCall.region]

/-- C13, amended.  `AddRegion` does not compare the name with the registry.  In the
state reached from a new object by a sequence of `AddRegion` calls, the regions are
those of the calls that pass the three checks, in call order: every name is
non-empty, and no two regions have the same name exactly when no two of these calls
gave the same name. -/
theorem AddRegion_names (calls : List AddCall) :
    (runCalls (AliGFWState.new : AliGFWState K) calls).fRegions =
        (calls.filter AddCall.valid).map AddCall.region ∧
      (∀ r ∈ (runCalls (AliGFWState.new : AliGFWState K) calls).fRegions, r.rName ≠ []) ∧
      (((runCalls (AliGFWState.new : AliGFWState K) calls).fRegions.map
          (fun r => r.rName)).Nodup ↔
        ((calls.filter AddCall.valid).map AddCall.name).Nodup) := by
  have h : (runCalls (AliGFWState.new : AliGFWState K) calls).fRegions =
      (calls.filter AddCall.valid).map AddCall.region := by
    rw [runCalls_regions]
    rfl
  refine ⟨h, ?_, ?_⟩
  · intro r hr
    rw [h, List.mem_map] at hr
    obtain ⟨c, hc, rfl⟩ := hr
    rw [AddCall_region_name]
    exact AddCall_valid_name c (List.mem_filter.mp hc).2
  · rw [h, List.map_map]
    have : ((fun r : Region => r.rName) ∘ AddCall.region) = AddCall.name := by
      funext c
      exact AddCall_region_name c
    rw [this]

/-- C14. `FindRegionByName` is a first-match linear search: it returns -1 exactly when
no region has the given name, and it returns the index `i` exactly when region `i`
has the name and no region before it has; one of the two always holds, with
`i` below the number of regions. -/
theorem FindRegionByName_first_match (fRegions : List Region) (refName : TString) :
    (FindRegionByName fRegions refName = -1 ↔ ∀ r ∈ fRegions, r.rName ≠ refName) ∧
    (∀ i : Nat, FindRegionByName fRegions refName = (i : Int) ↔
      ((∃ r, fRegions[i]? = some r ∧ r.rName = refName) ∧
        ∀ j < i, ∀ r, fRegions[j]? = some r → r.rName ≠ refName)) ∧
    (FindRegionByName fRegions refName = -1 ∨
      ∃ i : Nat, i < fRegions.length ∧ FindRegionByName fRegions refName = (i : Int)) := by
  unfold FindRegionByName
  rcases findRegionLoop_spec refName fRegions 0 with ⟨h1, h2⟩ | ⟨i, h1, h2, ⟨r, h3, h4⟩, h5⟩
  · refine ⟨⟨fun _ => h2, fun _ => h1⟩, ?_, Or.inl h1⟩
    intro i
    rw [h1]
    constructor
    · intro h
      omega
    · rintro ⟨⟨r, hr, hn⟩, _⟩
      exact absurd hn (h2 r (List.getElem?_mem hr))
  · rw [Nat.zero_add] at h1
    refine ⟨⟨?_, ?_⟩, ?_, Or.inr ⟨i, h2, h1⟩⟩
    · intro h
      rw [h1] at h
      omega
    · intro h
      exact absurd h4 (h r (List.getElem?_mem h3))
    · intro i'
      rw [h1]
      constructor
      · intro h
        have : i = i' := by omega
        subst this
        exact ⟨⟨r, h3, h4⟩, h5⟩
      · rintro ⟨⟨r', hr', hn'⟩, hmin⟩
        rcases Nat.lt_trichotomy i i' with hlt | heq | hgt
        · exact absurd h4 (hmin i hlt r h3)
        · rw [heq]
        · exact absurd hn' (h5 i' hgt r' hr')

/-- C15. In a state with one store per region, `Fill` applies `FillArray` with the
particle's (eta, ptBin, phi, weight, secondWeight) once to the store of every region
whose eta window strictly contains eta and whose bit mask shares a bit with the
particle's mask, and leaves every other store, the regions, the flag and the result
cache as they are.  With no region registered `Fill` changes nothing, whatever the
state. -/
theorem Fill_routing (ops : CumulantOps K) (s : AliGFWState K) (eta : Rat) (ptin : Int)
    (phi weight : Rat) (mask : Int) (SecondWeight : Rat) :
    (s.fInitialized = true → s.fCumulants.length = s.fRegions.length →
      ∃ cum, Fill ops eta ptin phi weight mask SecondWeight s = .ok { s with fCumulants := cum } ∧
        cum.length = s.fCumulants.length ∧
        ∀ (i : Nat) (r : Region) (q : AliGFWCumulant K),
          s.fRegions[i]? = some r → s.fCumulants[i]? = some q →
          cum[i]? = some (if r.EtaMin < eta ∧ eta < r.EtaMax ∧ Int.land r.BitMask mask ≠ 0 then
            ops.FillArray eta ptin phi weight SecondWeight q else q)) ∧
    (s.fRegions = [] → Fill ops eta ptin phi weight mask SecondWeight s = .ok s) := by
  constructor
  · intro hinit hlen
    obtain ⟨cum, hc, hl, hall⟩ := fillLoop_eq ops s.fRegions eta ptin phi weight mask SecondWeight
      s.fRegions.length 0 s.fCumulants (by omega) hlen
    refine ⟨cum, ?_, hl, ?_⟩
    · unfold Fill
      simp only [hinit, Bool.not_true, Bool.false_eq_true, if_false, hc]
      rfl
    · intro i r q hr hq
      rw [hall i r q hr hq]
      have : (0 ≤ i ∧ regionAccepts r eta mask = true) ↔
          (r.EtaMin < eta ∧ eta < r.EtaMax ∧ Int.land r.BitMask mask ≠ 0) := by
        simp only [regionAccepts, Bool.and_eq_true, decide_eq_true_eq, Nat.zero_le, true_and,
          and_assoc, gt_iff_lt]
      by_cases h : r.EtaMin < eta ∧ eta < r.EtaMax ∧ Int.land r.BitMask mask ≠ 0
      · rw [if_pos h, if_pos (this.mpr h)]
      · rw [if_neg h, if_neg (fun h' => h (this.mp h'))]
  · intro hnil
    obtain ⟨fR, fC, fI, fN, fQ⟩ := s
    simp only at hnil
    subst hnil
    cases fI <;> rfl

/-- C15 on an object with the windows (-1, 1) and (0, 2): a particle at eta = -1/2
fills the first store and leaves the second. -/
theorem Fill_routing_witness :
    ∃ cum, Fill countingOps (-1 / 2) 0 0 1 1 1 twoWindows =
        .ok { twoWindows with fCumulants := cum } ∧
      cum.map (fun q => q.GetN) = [1, 0] := by
  obtain ⟨cum, h1, h2, h3⟩ := (Fill_routing countingOps twoWindows (-1 / 2) 0 0 1 1 1).1
    (by rw [twoWindows_eq]) (by rw [twoWindows_eq]; rfl)
  refine ⟨cum, h1, ?_⟩
  rw [twoWindows_eq] at h2 h3
  have e0 := h3 0 _ _ rfl rfl
  have e1 := h3 1 _ _ rfl rfl
  norm_num at e0 e1
  obtain ⟨a, b, rfl⟩ := List.length_eq_two.mp h2
  simp only [List.getElem?_cons_zero, List.getElem?_cons_succ, Option.some.injEq] at e0 e1
  subst e0 e1
  rfl

end ClaimsEngine

section ClaimsPlain

variable {K : Type} [CommRing K]

/-- C16. For all stores, every pT bin and all harmonic and power lists of equal length
n >= 1, `RecursiveCorr`, which skips a position above 2 whose entry equals the one
before it and multiplies the next subtracted term by the count of the skipped ones,
returns the value of the plain recursion, which merges the removed last pair into
every position and subtracts every result once. -/
theorem RecursiveCorr_plain (qpoi qref : AliGFWCumulant K) (qol : Option (AliGFWCumulant K))
    (ptbin : Int) (hars pows : List Int) (fuel : Nat)
    (hlen : hars.length = pows.length) (hne : hars ≠ []) (hf : hars.length ≤ fuel) :
    RecursiveCorr fuel qpoi qref qol ptbin hars pows =
      .ok (plainRecursion qpoi qref qol ptbin (List.zip hars pows), hars, pows) := by
  have h0 : 0 < hars.length := List.length_pos.mpr hne
  have hz : (List.zip hars pows).length = hars.length := by
    rw [List.length_zip, ← hlen, Nat.min_self]
  rw [RecursiveCorr_eq qref qol ptbin fuel qpoi hars pows hlen h0 hf,
    corrVal_eq_plainCorr qref qol ptbin fuel qpoi hars pows hlen h0 hf, plainRecursion,
    plainCorr_fuel qref qol ptbin fuel (List.zip hars pows).length qpoi _ (by omega) (by omega)
      (le_refl _)]

/-- C16 on the harmonics {1,1,2,2,3} with five particles: entries 2 and 3 of the
shortened list are equal, so the degeneracy branch is taken; both recursions give
24. -/
theorem RecursiveCorr_plain_witness :
    RecursiveCorr 5 (signStore 5) (signStore 5) (some (signStore 5)) 0 [1, 1, 2, 2, 3]
        [1, 1, 1, 1, 1] =
      .ok (plainRecursion (signStore 5) (signStore 5) (some (signStore 5)) 0
        (List.zip [1, 1, 2, 2, 3] [1, 1, 1, 1, 1]), [1, 1, 2, 2, 3], [1, 1, 1, 1, 1]) ∧
    plainRecursion (signStore 5) (signStore 5) (some (signStore 5)) 0
        (List.zip [1, 1, 2, 2, 3] [1, 1, 1, 1, 1]) = 24 :=
  ⟨RecursiveCorr_plain (signStore 5) (signStore 5) (some (signStore 5)) 0 [1, 1, 2, 2, 3]
      [1, 1, 1, 1, 1] 5 rfl (by simp) (by simp), by rfl⟩

end ClaimsPlain

section ClaimsFrame

variable {K : Type} [CommRing K]

/-- C17. For all stores, every pT bin and all harmonic and power lists of equal length
n >= 1, `RecursiveCorr` returns a value together with both lists as they were when it
was called, given fuel for its depth; the overload on unit powers does the same with
its harmonic list. -/
theorem RecursiveCorr_lists_unchanged (qpoi qref : AliGFWCumulant K)
    (qol : Option (AliGFWCumulant K)) (ptbin : Int) (hars pows : List Int) (fuel : Nat)
    (hlen : hars.length = pows.length) (hne : hars ≠ []) (hf : hars.length ≤ fuel) :
    (∃ v, RecursiveCorr fuel qpoi qref qol ptbin hars pows = .ok (v, hars, pows)) ∧
      ∃ v, RecursiveCorrUnit qpoi qref qol ptbin hars = .ok (v, hars) :=
  ⟨⟨_, RecursiveCorr_eq qref qol ptbin fuel qpoi hars pows hlen (List.length_pos.mpr hne) hf⟩,
    ⟨_, RecursiveCorrUnit_eq qpoi qref qol ptbin hars hne⟩⟩

/-- C17 on four harmonics with mixed powers, two different stores and no overlap
store. -/
theorem RecursiveCorr_lists_unchanged_witness :
    (∃ v, RecursiveCorr 4 (signStore 4) (signStore 5) none 2 [3, -1, -1, -1] [1, 2, 1, 1] =
      .ok (v, [3, -1, -1, -1], [1, 2, 1, 1])) ∧
      ∃ v, RecursiveCorrUnit (signStore 4) (signStore 5) none 2 [3, -1, -1, -1] =
        .ok (v, [3, -1, -1, -1]) :=
  RecursiveCorr_lists_unchanged (signStore 4) (signStore 5) none 2 [3, -1, -1, -1]
    [1, 2, 1, 1] 4 rfl (by simp) (by simp)

/-- C19, the code at the failing input.  Two reference stores agree at pT bin 1 for
every harmonic and power and differ at bin 0.  On three harmonics at bin 1, with the
same poi store and no overlap store, `RecursiveCorr` returns -1 with the one and 0 with
the other: the factor of the removed last pair is read by `qref->Vec(harlast,powlast)`
at bin 0. -/
theorem RecursiveCorr_reads_bin_zero :
    (∀ n p, (binStore 1).Vec n p 1 = (binStore 2).Vec n p 1) ∧
      RecursiveCorr 3 (binStore 1) (binStore 1) none 1 [1, 1, 1] [1, 1, 1] =
        .ok (-1, [1, 1, 1], [1, 1, 1]) ∧
      RecursiveCorr 3 (binStore 1) (binStore 2) none 1 [1, 1, 1] [1, 1, 1] =
        .ok (0, [1, 1, 1], [1, 1, 1]) :=
  ⟨fun _ _ => rfl, rfl, rfl⟩

end ClaimsFrame

section ClaimsDifferential

variable {K : Type} [CommRing K] {ι : Type} [DecidableEq ι] [Fintype ι]

/-- C18. Let the poi, ref and overlap stores hold, at pT bin 0, the sums of
multiplicative one-particle factors over a set `P`, over a set `R` and over the
intersection of the two.  Then for every non-empty harmonic list and unit powers,
`RecursiveCorr` at bin 0 returns the sum, over all tuples of pairwise distinct
particles with the first in `P` and the others in `R`, of the product of the factors,
and hands the lists back unchanged. -/
theorem RecursiveCorr_differential (c : ι → Int → Int → K)
    (hmul : ∀ k n n' p p', c k (n + n') (p + p') = c k n p * c k n' p')
    (P R : Finset ι) (poi ref ovl : AliGFWCumulant K)
    (hP : ∀ n p, poi.Vec n p 0 = ∑ k in P, c k n p)
    (hR : ∀ n p, ref.Vec n p 0 = ∑ k in R, c k n p)
    (hO : ∀ n p, ovl.Vec n p 0 = ∑ k in P ∩ R, c k n p)
    (hars : List Int) (hne : hars ≠ []) :
    (∀ fuel, hars.length ≤ fuel →
      RecursiveCorr fuel poi ref (some ovl) 0 hars (List.replicate hars.length 1) =
        .ok (bruteForceDiff c P R hars, hars, List.replicate hars.length 1)) ∧
    RecursiveCorrUnit poi ref (some ovl) 0 hars = .ok (bruteForceDiff c P R hars, hars) := by
  have h0 : 0 < hars.length := List.length_pos.mpr hne
  have key : ∀ fuel, hars.length ≤ fuel →
      RecursiveCorr fuel poi ref (some ovl) 0 hars (List.replicate hars.length 1) =
        .ok (bruteForceDiff c P R hars, hars, List.replicate hars.length 1) := by
    intro fuel hf
    obtain ⟨x, L, rfl⟩ : ∃ x L, hars = x :: L := by
      cases hars with
      | nil => exact absurd rfl hne
      | cons x L => exact ⟨x, L, rfl⟩
    rw [RecursiveCorr_eq ref (some ovl) 0 fuel poi _ _ (by simp) h0 hf,
      corrVal_eq_plainCorr ref (some ovl) 0 fuel poi _ _ (by simp) h0 hf, zip_replicate_one,
      plainCorr_eq_distinctSumDiff c hmul P R poi ref ovl hP hR hO fuel poi _ (by simp)
        (by simpa using hf)
        (by
          intro y hy
          simp only [List.mem_map] at hy
          obtain ⟨_, _, rfl⟩ := hy
          exact le_refl _)
        (fun _ => rfl)]
    rw [if_pos (by simp [nthP]), distinctSumDiff_eq_bruteForceDiff]
  refine ⟨key, ?_⟩
  unfold RecursiveCorrUnit
  simp only [bind, Except.bind, pure, Except.pure]
  rw [key _ (Nat.le_succ _)]

/-- C18 on four particles with P = {0,1} and R = {1,2,3} and the harmonics {2,2,-2}:
the recursion returns -4, the sum over the eight admissible tuples. -/
theorem RecursiveCorr_differential_witness :
    RecursiveCorrUnit (sumStore (signC : Fin 4 → Int → Int → Int) {0, 1})
        (sumStore (signC : Fin 4 → Int → Int → Int) {1, 2, 3})
        (some (sumStore (signC : Fin 4 → Int → Int → Int) ({0, 1} ∩ {1, 2, 3}))) 0 [2, 2, -2] =
        .ok (-4, [2, 2, -2]) ∧
      bruteForceDiff (signC : Fin 4 → Int → Int → Int) {0, 1} {1, 2, 3} [2, 2, -2] = -4 := by
  have h := (RecursiveCorr_differential (signC : Fin 4 → Int → Int → Int) signC_mul
    {0, 1} {1, 2, 3} (sumStore (signC : Fin 4 → Int → Int → Int) {0, 1})
    (sumStore (signC : Fin 4 → Int → Int → Int) {1, 2, 3})
    (sumStore (signC : Fin 4 → Int → Int → Int) ({0, 1} ∩ {1, 2, 3}))
    (fun _ _ => rfl) (fun _ _ => rfl) (fun _ _ => rfl) [2, 2, -2] (by simp)).2
  have e : RecursiveCorrUnit (sumStore (signC : Fin 4 → Int → Int → Int) {0, 1})
      (sumStore (signC : Fin 4 → Int → Int → Int) {1, 2, 3})
      (some (sumStore (signC : Fin 4 → Int → Int → Int) ({0, 1} ∩ {1, 2, 3}))) 0 [2, 2, -2] =
      .ok (-4, [2, 2, -2]) := by
    rfl
  refine ⟨e, ?_⟩
  rw [e] at h
  simp only [Except.ok.injEq, Prod.mk.injEq] at h
  exact h.1.symm

end ClaimsDifferential

section ClaimsRegionFirst

/-- C20. For region names P, R and O that are registered, non-empty and free of blanks
and of the characters , ; | ( ) { }, every pT bin k with 0 <= k < 2^31 and all integers
h_1 ... h_n with -2^31 <= h_i < 2^31 (the values an `Int_t` holds, which is what `Atoi`
returns and the request stores), written in decimal, the descriptor
"P R |O (k) {h_1 h_2 ... h_n}" parses to a request with exactly one clause: region list
[index(P), index(R)], overlap index(O), pT-bin override k, harmonics [h_1, ..., h_n],
and the label and pT-differential flag passed in. -/
theorem GetCorrelatorConfig_regionFirst (fRegions : List Region) (P R O : TString)
    (k : Nat) (hs : List Int) (head : TString) (ptdif : Bool)
    (hP : PlainName P) (hR : PlainName R) (hO : PlainName O)
    (hiP : 0 ≤ FindRegionByName fRegions P) (hiR : 0 ≤ FindRegionByName fRegions R)
    (hiO : 0 ≤ FindRegionByName fRegions O)
    (_hk : k < 2 ^ 31) (_hhs : ∀ h ∈ hs, -2 ^ 31 ≤ h ∧ h < 2 ^ 31) :
    GetCorrelatorConfig fRegions (regionFirstDescriptor P R O k hs) head ptdif =
      some { Regs := [[FindRegionByName fRegions P, FindRegionByName fRegions R]],
             Hars := [hs], Overlap := [FindRegionByName fRegions O], ptInd := [(k : Int)],
             pTDif := ptdif, Head := head } := by
  rw [regionFirstDescriptor_eq]
  exact GetCorrelatorConfig_regionFirst_aux fRegions P R O k hs head ptdif hP hR hO hiP hiR hiO

theorem PlainName_letter (c : Char)
    (hc : c ≠ ' ' ∧ c ≠ ',' ∧ c ≠ ';' ∧ c ≠ '|' ∧ c ≠ '(' ∧ c ≠ ')' ∧ c ≠ '{' ∧ c ≠ '}') :
    PlainName [c] := by
  refine ⟨by simp, ?_⟩
  intro x hx
  rw [List.mem_singleton] at hx
  rw [hx]
  exact hc

/-- C20 on the registry holding A, B and C: "A B |C (3) {2 -2}" gives regions [0, 1],
overlap 2, pT bin 3 and harmonics [2, -2]. -/
theorem GetCorrelatorConfig_regionFirst_witness :
    regionFirstDescriptor "A".toList "B".toList "C".toList 3 [2, -2] =
        "A B |C (3) {2 -2}".toList ∧
      (3 < 2 ^ 31 ∧ ∀ h ∈ [(2 : Int), -2], -2 ^ 31 ≤ h ∧ h < 2 ^ 31) ∧
      GetCorrelatorConfig regionsABC "A B |C (3) {2 -2}".toList "c22".toList true =
        some { Regs := [[0, 1]], Hars := [[2, -2]], Overlap := [2], ptInd := [3],
               pTDif := true, Head := "c22".toList } := by
  have hk : 3 < 2 ^ 31 := by decide
  have hhs : ∀ h ∈ [(2 : Int), -2], -2 ^ 31 ≤ h ∧ h < 2 ^ 31 := by decide
  have h := GetCorrelatorConfig_regionFirst regionsABC "A".toList "B".toList "C".toList 3
    [2, -2] "c22".toList true (PlainName_letter 'A' (by decide)) (PlainName_letter 'B' (by decide))
    (PlainName_letter 'C' (by decide)) (by decide) (by decide) (by decide) hk hhs
  exact ⟨rfl, ⟨hk, hhs⟩, h⟩

end ClaimsRegionFirst

end AliGFW

